import Mathlib

/-!
# agentid-core: delegation claims, chain validation and signature verification

A shallow embedding of `pkg/models/delegation.go`, `pkg/models/revocation.go`,
`pkg/key/key.go` and `pkg/signer/signer.go`.

Conventions of the embedding

* Go structs become Lean structures with the same field names; a Go pointer to
  a struct that the code dereferences unconditionally is the struct itself, a
  pointer that the code tests against `nil` is an `Option`.
* A method that writes through its pointer receiver returns the updated
  receiver next to its result.
* `time.Now().Unix()` is an explicit argument `now`.
* A Go `error` is `Option String` (`none` is `nil`, `some msg` carries the text
  of `Error()`); a Go result `(bool, error)` is `Bool × Option String`.
* Go `int`, `int64` are `Int`: the code only compares them.  A Go `float64`
  is a `Float64` (a rational, a NaN or an infinity), and the conversion
  `int64(val)` is `float64ToInt`, which follows amd64 where the language leaves
  the result to the implementation.
* A Go field named `Type` is `Type_`.
* Functions of the Go standard library and of go-ethereum that the code calls
  (`json.Marshal`, `crypto.Keccak256`, `crypto.Sign`, `crypto.SigToPub`, ...)
  are fields of the structure `Lib`; every function of the repository takes
  the library as its first argument where it calls into it.  The functions
  called by `key.VerifySignature` and the hexadecimal accessors are the fields
  of a second structure, `KeyLib`.
* Statements about the bytes that `json.Marshal` gives are made for the
  structural encoder `structuralMarshal`, which follows `encoding/json` on the
  struct `DelegationClaim`; that the library is this encoder is the hypothesis
  `Lib.StructuralMarshal`.
-/

namespace AgentID

/-! ## Data model (`pkg/models`) -/

/-- A byte. -/
abbrev Byte := Fin 256

/-- A Go `float64`: a finite value, represented by the rational it denotes, a
NaN or an infinity. -/
inductive Float64 where
  | finite : Rat → Float64
  | nan : Float64
  | posInf : Float64
  | negInf : Float64
  deriving DecidableEq

/-- Values a Go `interface{}` holds inside a `map[string]interface{}`
constraint mapping: nil, a `bool`, a `float64`, an `int64`, an `int`, a
`string`, a `[]interface{}` and a `map[string]interface{}` of such values, the
last two not nil.  The constructor `int` is a value of Go type `int`, which
none of the accessors below reads. -/
inductive Value where
  | null : Value
  | bool : Bool → Value
  | float64 : Float64 → Value
  | int64 : Int → Value
  | int : Int → Value
  | str : String → Value
  | slice : List Value → Value
  | map : List (String × Value) → Value

/-- Go `models.EIP712Domain`. -/
structure EIP712Domain where
  Name : String
  Version : String
  ChainID : Int
  VerifyingContract : String
deriving DecidableEq

/-- Go `models.CredentialProof`. -/
structure CredentialProof where
  Type_ : String
  Created : String
  VerificationMethod : String
  ProofPurpose : String
  ProofValue : String
  Challenge : String
  Domain : EIP712Domain
deriving DecidableEq

/-- Go `models.DelegationClaim`.  `Constraints` is `none` for a nil map. -/
structure DelegationClaim where
  DelegatorDID : String
  DelegateDID : String
  Action : String
  Scope : String
  Constraints : Option (List (String × Value))
  IssuedAt : Int
  ExpiresAt : Int
  Nonce : String
  ParentDelegation : Option String
  MaxDepth : Int
  CurrentDepth : Int
  Type_ : List String
  Context : List String
  Issuer : String
  Subject : String
  Proof : Option CredentialProof

/-- Go `models.DelegationChain`. -/
structure DelegationChain where
  Delegations : List DelegationClaim
  Valid : Bool
  Reason : String

/-- Go `(*DelegationClaim).IsExpired`, with the clock reading as argument. -/
def DelegationClaim.IsExpired (dc : DelegationClaim) (now : Int) : Bool :=
  if dc.ExpiresAt = 0 then
    false
  else
    decide (now > dc.ExpiresAt)

/-- Go `(*DelegationClaim).CanSubDelegate`. -/
def DelegationClaim.CanSubDelegate (dc : DelegationClaim) : Bool :=
  decide (dc.CurrentDepth < dc.MaxDepth)

/-- The body of the `for i, delegation := range chain.Delegations` loop of
`ValidateChain`, from index `i` on, `rest` being the delegations not yet
visited and `all` the whole slice (read at `i-1`).  The result is the reason of
the first failing check, or `none` when the loop runs to its end. -/
def ValidateChain.loop (now : Int) (all : List DelegationClaim) :
    Nat → List DelegationClaim → Option String
  | _, [] => none
  | i, delegation :: rest =>
    if delegation.IsExpired now then
      some ("delegation " ++ toString i ++ " is expired")
    else if delegation.CurrentDepth > delegation.MaxDepth then
      some ("delegation " ++ toString i ++ " exceeds max depth")
    else if i > 0 ∧
        all[i - 1]?.map DelegationClaim.DelegateDID ≠ some delegation.DelegatorDID then
      some ("broken chain at delegation " ++ toString i)
    else
      ValidateChain.loop now all (i + 1) rest

/-- Go `(*DelegationChain).ValidateChain`: the chain after the call and the
returned boolean. -/
def DelegationChain.ValidateChain (chain : DelegationChain) (now : Int) :
    DelegationChain × Bool :=
  if chain.Delegations.length = 0 then
    ({ chain with Valid := false, Reason := "empty delegation chain" }, false)
  else
    match ValidateChain.loop now chain.Delegations 0 chain.Delegations with
    | some reason => ({ chain with Valid := false, Reason := reason }, false)
    | none => ({ chain with Valid := true }, true)

/-! ## External library

The Go standard library and go-ethereum functions the repository calls.  They
are not part of the repository; the development is parametric in them. -/

/-- Go `ecdsa.PublicKey`: a curve point. -/
structure ECDSAPublicKey where
  X : Int
  Y : Int
deriving DecidableEq

/-- Go `ecdsa.PrivateKey`: the embedded public key and the secret scalar. -/
structure ECDSAPrivateKey where
  PublicKey : ECDSAPublicKey
  D : Int
deriving DecidableEq

/-- Go `common.Address`, a `[20]byte`. -/
abbrev Address := List Byte

/-- The library functions used by `pkg/key` and `pkg/signer`.  A Go result
`(T, error)` of a library function is an `Except String T`. -/
structure Lib where
  /-- The `json.Marshal` of a `*DelegationClaim`. -/
  jsonMarshal : DelegationClaim → Except String (List Byte)
  /-- The `crypto.Keccak256` of one byte slice. -/
  Keccak256 : List Byte → List Byte
  /-- The `crypto.Sign(hash, prv)`. -/
  Sign : List Byte → ECDSAPrivateKey → Except String (List Byte)
  /-- The `crypto.SigToPub(hash, sig)`. -/
  SigToPub : List Byte → List Byte → Except String ECDSAPublicKey
  /-- The `crypto.PubkeyToAddress`. -/
  PubkeyToAddress : ECDSAPublicKey → Address
  /-- The `common.Address.Hex()`. -/
  AddressHex : Address → String
  /-- The `common.HexToAddress`. -/
  HexToAddress : String → Address
  /-- The `common.IsHexAddress`. -/
  IsHexAddress : String → Bool
  /-- The `hex.DecodeString`. -/
  hexDecodeString : String → Except String (List Byte)
  /-- The `hex.EncodeToString`. -/
  hexEncodeToString : List Byte → String

/-- Go `strings.HasPrefix`. -/
def HasPrefix (s pre : String) : Bool :=
  pre.data.isPrefixOf s.data

/-- Go `strings.TrimPrefix`. -/
def TrimPrefix (s pre : String) : String :=
  if HasPrefix s pre then String.mk (s.data.drop pre.data.length) else s

/-! ## Keys (`pkg/key`) -/

/-- Go `key.AgentKey`. -/
structure AgentKey where
  PrivateKey : ECDSAPrivateKey
  PublicKey : ECDSAPublicKey
  Address : Address
  DID : String

/-- Go `key.fromPrivateKey`. -/
def fromPrivateKey (L : Lib) (privateKey : ECDSAPrivateKey) : AgentKey :=
  let publicKey := privateKey.PublicKey
  let address := L.PubkeyToAddress publicKey
  let did := "did:ackid:" ++ L.AddressHex address
  { PrivateKey := privateKey, PublicKey := publicKey, Address := address, DID := did }

/-- Go `(*AgentKey).Sign`. -/
def AgentKey.Sign (L : Lib) (ak : AgentKey) (messageHash : List Byte) :
    List Byte × Option String :=
  match L.Sign messageHash ak.PrivateKey with
  | .error err => ([], some ("failed to sign message: " ++ err))
  | .ok signature => (signature, none)

/-- Go `common.Address{}`: twenty zero bytes. -/
def zeroAddress : Address := List.replicate 20 0

/-- Go `key.ExtractAddressFromDID`. -/
def ExtractAddressFromDID (L : Lib) (did : String) : Address × Option String :=
  if ¬ HasPrefix did "did:ackid:0x" then
    (zeroAddress, some ("invalid DID format: " ++ did))
  else
    let addressHex := TrimPrefix did "did:ackid:"
    if ¬ L.IsHexAddress addressHex then
      (zeroAddress, some ("invalid Ethereum address in DID: " ++ addressHex))
    else
      (L.HexToAddress addressHex, none)

/-! ## Signing and verification (`pkg/signer`)

The `fmt.Printf` debug lines write to standard output only and are left out. -/

/-- Go `signer.ClaimSigner`. -/
structure ClaimSigner where
  agentKey : AgentKey

/-- Go `signer.verifySignatureAgainstAddress`. -/
def verifySignatureAgainstAddress (L : Lib) (hash signature : List Byte) (address : String) :
    Bool × Option String :=
  if signature.length ≠ 65 then
    (false, some ("invalid signature length: expected 65 bytes, got "
      ++ toString signature.length))
  else
    match L.SigToPub hash signature with
    | .error err => (false, some ("failed to recover public key: " ++ err))
    | .ok pubKey =>
      let recoveredAddr := L.PubkeyToAddress pubKey
      (decide (recoveredAddr = L.HexToAddress address), none)

/-- Go `signer.hashDelegationClaimStruct`. -/
def hashDelegationClaimStruct (L : Lib) (claim : DelegationClaim) :
    List Byte × Option String :=
  match L.jsonMarshal claim with
  | .error err => ([], some err)
  | .ok jsonBytes =>
    let hash := L.Keccak256 jsonBytes
    (hash, none)

/-- Go `(*ClaimSigner).hashDelegationClaim`. -/
def ClaimSigner.hashDelegationClaim (L : Lib) (_cs : ClaimSigner) (claim : DelegationClaim) :
    List Byte × Option String :=
  let tempClaim := { claim with Proof := none }
  hashDelegationClaimStruct L tempClaim

/-- Go `(*ClaimSigner).hashDelegationClaim` with the claim its argument points
to after the call, followed by the returned values.  The method copies the
claim (`tempClaim := *claim`) and clears the proof of the copy only. -/
def ClaimSigner.hashDelegationClaimState (L : Lib) (_cs : ClaimSigner)
    (claim : DelegationClaim) : DelegationClaim × (List Byte × Option String) :=
  let tempClaim := claim
  let tempClaim := { tempClaim with Proof := none }
  (claim, hashDelegationClaimStruct L tempClaim)

/-- Two claims are equal on every field except `Proof`. -/
def DelegationClaim.EqExceptProof (a b : DelegationClaim) : Prop :=
  a.DelegatorDID = b.DelegatorDID ∧ a.DelegateDID = b.DelegateDID ∧ a.Action = b.Action ∧
  a.Scope = b.Scope ∧ a.Constraints = b.Constraints ∧ a.IssuedAt = b.IssuedAt ∧
  a.ExpiresAt = b.ExpiresAt ∧ a.Nonce = b.Nonce ∧
  a.ParentDelegation = b.ParentDelegation ∧ a.MaxDepth = b.MaxDepth ∧
  a.CurrentDepth = b.CurrentDepth ∧ a.Type_ = b.Type_ ∧ a.Context = b.Context ∧
  a.Issuer = b.Issuer ∧ a.Subject = b.Subject

/-- Go `(*ClaimSigner).SignDelegationClaim`: the claim after the call and the
returned error.  `created` is `time.Now().Format(time.RFC3339)`. -/
def ClaimSigner.SignDelegationClaim (L : Lib) (cs : ClaimSigner) (claim : DelegationClaim)
    (created : String) : DelegationClaim × Option String :=
  match cs.hashDelegationClaim L claim with
  | (_, some err) => (claim, some ("failed to hash delegation claim: " ++ err))
  | (hash, none) =>
    match cs.agentKey.Sign L hash with
    | (_, some err) => (claim, some ("failed to sign delegation claim: " ++ err))
    | (signature, none) =>
      ({ claim with
          Proof := some
            { Type_ := "EcdsaSecp256k1Signature2019"
              Created := created
              VerificationMethod := cs.agentKey.DID ++ "#key-1"
              ProofPurpose := "assertionMethod"
              ProofValue := L.hexEncodeToString signature
              Challenge := ""
              Domain := { Name := "AgentID", Version := "1", ChainID := 1,
                          VerifyingContract := "" } } },
        none)

/-- Go `(*ClaimSigner).VerifyDelegationClaim`. -/
def ClaimSigner.VerifyDelegationClaim (L : Lib) (_cs : ClaimSigner) (claim : DelegationClaim)
    (expectedDelegatorDID : String) : Bool × Option String :=
  match claim.Proof with
  | none => (false, some "delegation claim has no proof")
  | some proof =>
    if claim.DelegatorDID ≠ expectedDelegatorDID then
      (false, some ("claim delegator DID mismatch: expected " ++ expectedDelegatorDID
        ++ ", got " ++ claim.DelegatorDID))
    else
      match ExtractAddressFromDID L claim.DelegatorDID with
      | (_, some err) =>
        (false, some ("failed to extract address from delegator DID: " ++ err))
      | (address, none) =>
        let tempClaim := { claim with Proof := none }
        match hashDelegationClaimStruct L tempClaim with
        | (_, some err) => (false, some ("failed to hash delegation claim: " ++ err))
        | (hash, none) =>
          match L.hexDecodeString proof.ProofValue with
          | .error err => (false, some ("failed to decode signature: " ++ err))
          | .ok signature =>
            verifySignatureAgainstAddress L hash signature (L.AddressHex address)

/-- The body of the `for i, delegation := range chain.Delegations` loop of
`VerifyDelegationChain`, from index `i` on, `rest` being the delegations not
yet visited and `all` the whole slice (read at `i-1`).  The index `i-1` is
always in range when the loop is entered at index 0 on the whole slice; the
out-of-range branch, a run-time panic in Go, is given an error result. -/
def VerifyDelegationChain.loop (L : Lib) (cs : ClaimSigner) (all : List DelegationClaim) :
    Nat → List DelegationClaim → Bool × Option String
  | _, [] => (true, none)
  | i, delegation :: rest =>
    if i = 0 then
      match cs.VerifyDelegationClaim L delegation delegation.DelegatorDID with
      | (_, some err) => (false, some ("failed to verify root delegation: " ++ err))
      | (valid, none) =>
        if !valid then
          (false, some "failed to verify root delegation: invalid signature")
        else
          VerifyDelegationChain.loop L cs all (i + 1) rest
    else
      match all[i - 1]? with
      | none => (false, some "index out of range")
      | some prevDelegation =>
        match cs.VerifyDelegationClaim L delegation prevDelegation.DelegateDID with
        | (_, some err) =>
          (false, some ("failed to verify delegation " ++ toString i ++ ": " ++ err))
        | (valid, none) =>
          if !valid then
            (false, some ("failed to verify delegation " ++ toString i
              ++ ": invalid signature"))
          else
            VerifyDelegationChain.loop L cs all (i + 1) rest

/-- Go `(*ClaimSigner).VerifyDelegationChain`. -/
def ClaimSigner.VerifyDelegationChain (L : Lib) (cs : ClaimSigner) (chain : DelegationChain) :
    Bool × Option String :=
  if chain.Delegations.length = 0 then
    (false, some "empty delegation chain")
  else
    VerifyDelegationChain.loop L cs chain.Delegations 0 chain.Delegations

/-- The verification that `VerifyDelegationChain` runs at index `i` of the
slice `all`: the delegation against its own delegator at index 0, against the
delegate of the delegation before it at a later index. -/
def VerifyDelegationChain.hop (L : Lib) (cs : ClaimSigner) (all : List DelegationClaim)
    (i : Nat) (delegation : DelegationClaim) : Bool × Option String :=
  if i = 0 then
    cs.VerifyDelegationClaim L delegation delegation.DelegatorDID
  else
    match all[i - 1]? with
    | none => (false, some "index out of range")
    | some prevDelegation => cs.VerifyDelegationClaim L delegation prevDelegation.DelegateDID

/-- The error text `VerifyDelegationChain` returns when the verification at
index `i` yields `r`, an error or a plain `false`. -/
def VerifyDelegationChain.failure (i : Nat) (r : Bool × Option String) : String :=
  (if i = 0 then "failed to verify root delegation: "
    else "failed to verify delegation " ++ toString i ++ ": ")
  ++ (match r.2 with
      | some err => err
      | none => "invalid signature")

/-! ## Constraints of a delegation (`pkg/models/delegation.go`)

A `map[string]interface{}` is its list of entries, read with `List.lookup`;
a nil slice is the empty list. -/

/-- Go `models.TimeConstraint`. -/
structure TimeConstraint where
  ValidFrom : Int
  ValidUntil : Int
  TimeZone : String
  Days : List Int
  Hours : List Int

/-- Go `models.ScopeConstraint`. -/
structure ScopeConstraint where
  AllowedResources : List String
  DeniedResources : List String
  Metadata : Option (List (String × Value))

/-- Go `models.ChainError`. -/
structure ChainError where
  Code : String
  Message : String
deriving DecidableEq

/-- Go `(*ChainError).Error`. -/
def ChainError.Error (e : ChainError) : String :=
  e.Code ++ ": " ++ e.Message

/-- The least value of an `int64`. -/
def minInt64 : Int := -9223372036854775808

/-- The greatest value of an `int64`. -/
def maxInt64 : Int := 9223372036854775807

/-- The Go conversion `int64(val)` of a `float64`: the fraction of a finite
value is discarded.  For a value whose integer part is outside the range of
`int64`, and for a NaN or an infinity, the language leaves the result to the
implementation; on amd64 it is the least `int64` (the result of the
instruction `CVTTSD2SQ`), which is what is followed here. -/
def float64ToInt (val : Float64) : Int :=
  match val with
  | .finite q =>
    if minInt64 ≤ Int.tdiv q.num q.den ∧ Int.tdiv q.num q.den ≤ maxInt64 then
      Int.tdiv q.num q.den
    else
      minInt64
  | _ => minInt64

/-- Go `models.getString`. -/
def getString (m : List (String × Value)) (key : String) : String :=
  match m.lookup key with
  | some (.str val) => val
  | _ => ""

/-- Go `models.getInt64`. -/
def getInt64 (m : List (String × Value)) (key : String) : Int :=
  match m.lookup key with
  | some (.float64 val) => float64ToInt val
  | some (.int64 val) => val
  | _ => 0

/-- Go `models.getIntSlice`. -/
def getIntSlice (m : List (String × Value)) (key : String) : List Int :=
  match m.lookup key with
  | some (.slice val) =>
    val.map (fun v =>
      match v with
      | .float64 num => float64ToInt num
      | _ => 0)
  | _ => []

/-- Go `models.getStringSlice`. -/
def getStringSlice (m : List (String × Value)) (key : String) : List String :=
  match m.lookup key with
  | some (.slice val) =>
    val.map (fun v =>
      match v with
      | .str str => str
      | _ => "")
  | _ => []

/-- Go `models.getMap`. -/
def getMap (m : List (String × Value)) (key : String) : Option (List (String × Value)) :=
  match m.lookup key with
  | some (.map val) => some val
  | _ => none

/-- The Go index expression `dc.Constraints[key]`; a nil map has no entry. -/
def DelegationClaim.constraint (dc : DelegationClaim) (key : String) : Option Value :=
  match dc.Constraints with
  | none => none
  | some m => m.lookup key

/-- Go `(*DelegationClaim).GetTimeConstraint`. -/
def DelegationClaim.GetTimeConstraint (dc : DelegationClaim) : Option TimeConstraint :=
  match dc.constraint "time" with
  | some (.map timeConstr) =>
    some
      { ValidFrom := getInt64 timeConstr "valid_from"
        ValidUntil := getInt64 timeConstr "valid_until"
        TimeZone := getString timeConstr "timezone"
        Days := getIntSlice timeConstr "days"
        Hours := getIntSlice timeConstr "hours" }
  | _ => none

/-- Go `(*DelegationClaim).GetScopeConstraint`. -/
def DelegationClaim.GetScopeConstraint (dc : DelegationClaim) : Option ScopeConstraint :=
  match dc.constraint "scope" with
  | some (.map scope) =>
    some
      { AllowedResources := getStringSlice scope "allowed_resources"
        DeniedResources := getStringSlice scope "denied_resources"
        Metadata := getMap scope "metadata" }
  | _ => none

/-- Go `(*DelegationChain).GetRootDelegation`. -/
def DelegationChain.GetRootDelegation (chain : DelegationChain) : Option DelegationClaim :=
  if chain.Delegations.length = 0 then
    none
  else
    chain.Delegations[0]?

/-- Go `(*DelegationChain).GetLeafDelegation`. -/
def DelegationChain.GetLeafDelegation (chain : DelegationChain) : Option DelegationClaim :=
  if chain.Delegations.length = 0 then
    none
  else
    chain.Delegations[chain.Delegations.length - 1]?

/-- The values of `earliestValidFrom` and `latestValidUntil` when the loop of
`ValidateChainConstraints` starts: those of the root's time constraint, and
the zero values of the `var` declarations when the root has none. -/
def ValidateChainConstraints.timeBounds (root : DelegationClaim) : Int × Int :=
  match root.GetTimeConstraint with
  | some timeConstr => (timeConstr.ValidFrom, timeConstr.ValidUntil)
  | none => (0, 0)

/-- The keys of the maps `allowedResources` and `deniedResources` when the
loop of `ValidateChainConstraints` starts: the resources of the root's scope
constraint, and none (the maps stay nil) when the root has no scope
constraint.  Every key is stored with the value `true`, so the Go lookup
`deniedResources[resource]` is membership in the list of keys. -/
def ValidateChainConstraints.resources (root : DelegationClaim) : List String × List String :=
  match root.GetScopeConstraint with
  | some scopeConstr => (scopeConstr.AllowedResources, scopeConstr.DeniedResources)
  | none => ([], [])

/-- The `// Validate time constraints` block of the loop body of
`ValidateChainConstraints` for the delegation at index `i`: the error it
returns, or `none` when it falls through. -/
def ValidateChainConstraints.timeCheck (earliestValidFrom latestValidUntil : Int) (i : Nat)
    (delegation : DelegationClaim) : Option ChainError :=
  match delegation.GetTimeConstraint with
  | some timeConstr =>
    if timeConstr.ValidFrom < earliestValidFrom then
      some { Code := "TIME_CONSTRAINT_VIOLATION"
             Message := "delegation " ++ toString i ++ " starts before chain start time" }
    else if timeConstr.ValidUntil > latestValidUntil then
      some { Code := "TIME_CONSTRAINT_VIOLATION"
             Message := "delegation " ++ toString i ++ " ends after chain end time" }
    else
      none
  | none => none

/-- The `// Validate scope constraints` block of the loop body of
`ValidateChainConstraints` for the delegation at index `i`: the error it
returns, for the first offending resource, or `none` when it falls through. -/
def ValidateChainConstraints.scopeCheck (allowedResources deniedResources : List String)
    (i : Nat) (delegation : DelegationClaim) : Option ChainError :=
  match delegation.GetScopeConstraint with
  | some scopeConstr =>
    match scopeConstr.AllowedResources.find? (fun resource => decide (resource ∈ deniedResources))
    with
    | some resource =>
      some { Code := "SCOPE_CONSTRAINT_VIOLATION"
             Message := "delegation " ++ toString i ++ " allows denied resource: " ++ resource }
    | none =>
      match scopeConstr.DeniedResources.find?
        (fun resource => decide (resource ∈ allowedResources)) with
      | some resource =>
        some { Code := "SCOPE_CONSTRAINT_VIOLATION"
               Message := "delegation " ++ toString i ++ " denies allowed resource: "
                 ++ resource }
      | none => none
  | none => none

/-- The `for i, delegation := range chain.Delegations` loop of
`ValidateChainConstraints`, from index `i` on. -/
def ValidateChainConstraints.loop (earliestValidFrom latestValidUntil : Int)
    (allowedResources deniedResources : List String) :
    Nat → List DelegationClaim → Option ChainError
  | _, [] => none
  | i, delegation :: rest =>
    if i = 0 then
      ValidateChainConstraints.loop earliestValidFrom latestValidUntil allowedResources
        deniedResources (i + 1) rest
    else
      match ValidateChainConstraints.timeCheck earliestValidFrom latestValidUntil i delegation
      with
      | some err => some err
      | none =>
        match ValidateChainConstraints.scopeCheck allowedResources deniedResources i delegation
        with
        | some err => some err
        | none =>
          ValidateChainConstraints.loop earliestValidFrom latestValidUntil allowedResources
            deniedResources (i + 1) rest

/-- Go `(*DelegationChain).ValidateChainConstraints`: the returned error.  The
root is present once the length check has passed; the branch without a root, a
nil dereference in Go, is given an error result. -/
def DelegationChain.ValidateChainConstraints (chain : DelegationChain) : Option ChainError :=
  if chain.Delegations.length = 0 then
    some { Code := "EMPTY_CHAIN", Message := "delegation chain is empty" }
  else
    match chain.GetRootDelegation with
    | none => some { Code := "PANIC", Message := "nil pointer dereference" }
    | some root =>
      ValidateChainConstraints.loop (ValidateChainConstraints.timeBounds root).1
        (ValidateChainConstraints.timeBounds root).2
        (ValidateChainConstraints.resources root).1
        (ValidateChainConstraints.resources root).2 0 chain.Delegations

/-- A delegation keeps within the time window from `earliest` to `latest`: it
carries no time constraint, or its own window lies inside. -/
def DelegationClaim.WithinTime (d : DelegationClaim) (earliest latest : Int) : Prop :=
  ∀ tc, d.GetTimeConstraint = some tc → earliest ≤ tc.ValidFrom ∧ tc.ValidUntil ≤ latest

/-- A delegation keeps within the scope sets `allowed` and `denied`: it carries
no scope constraint, or none of its allowed resources is in `denied` and none
of its denied resources is in `allowed`. -/
def DelegationClaim.WithinScope (d : DelegationClaim) (allowed denied : List String) : Prop :=
  ∀ sc, d.GetScopeConstraint = some sc →
    (∀ r ∈ sc.AllowedResources, r ∉ denied) ∧ (∀ r ∈ sc.DeniedResources, r ∉ allowed)

/-! ## Revocation (`pkg/models/revocation.go`) -/

/-- Go `models.RevocationClaim`. -/
structure RevocationClaim where
  RevokedCredentialID : String
  RevokedAgentDID : String
  RevokerDID : String
  Reason : String
  RevokedAt : Int
  EffectiveAt : Int
  Nonce : String
  Metadata : Option (List (String × Value))
  Type_ : List String
  Context : List String
  Issuer : String
  Subject : String
  Proof : Option CredentialProof

/-- Go `models.RevocationList`. -/
structure RevocationList where
  ListID : String
  IssuerDID : String
  LastUpdated : Int
  Revocations : List RevocationClaim
  Type_ : List String
  Context : List String
  Proof : Option CredentialProof

/-- Go `(*RevocationClaim).IsEffective`, with the clock reading as argument. -/
def RevocationClaim.IsEffective (rc : RevocationClaim) (now : Int) : Bool :=
  if rc.EffectiveAt = 0 then
    decide (now ≥ rc.RevokedAt)
  else
    decide (now ≥ rc.EffectiveAt)

/-- The loop of `IsRevoked` over the revocations not yet visited. -/
def IsRevoked.loop (credentialID : String) (now : Int) :
    List RevocationClaim → Option RevocationClaim
  | [] => none
  | revocation :: rest =>
    if revocation.RevokedCredentialID = credentialID ∧ revocation.IsEffective now = true then
      some revocation
    else
      IsRevoked.loop credentialID now rest

/-- Go `(*RevocationList).IsRevoked`, with the clock reading as argument. -/
def RevocationList.IsRevoked (rl : RevocationList) (credentialID : String) (now : Int) :
    Option RevocationClaim :=
  IsRevoked.loop credentialID now rl.Revocations

/-- The loop of `IsAgentRevoked`: `revocations` is the slice built so far. -/
def IsAgentRevoked.loop (agentDID : String) (now : Int) :
    List RevocationClaim → List RevocationClaim → List RevocationClaim
  | revocations, [] => revocations
  | revocations, revocation :: rest =>
    if revocation.RevokedAgentDID = agentDID ∧ revocation.IsEffective now = true then
      IsAgentRevoked.loop agentDID now (revocations ++ [revocation]) rest
    else
      IsAgentRevoked.loop agentDID now revocations rest

/-- Go `(*RevocationList).IsAgentRevoked`, with the clock reading as argument. -/
def RevocationList.IsAgentRevoked (rl : RevocationList) (agentDID : String) (now : Int) :
    List RevocationClaim :=
  IsAgentRevoked.loop agentDID now [] rl.Revocations

/-- Go `(*RevocationList).AddRevocation`: the list after the call, `now` being
the clock reading. -/
def RevocationList.AddRevocation (rl : RevocationList) (revocation : RevocationClaim)
    (now : Int) : RevocationList :=
  { rl with Revocations := rl.Revocations ++ [revocation], LastUpdated := now }

/-- The loop of `GetRevocationsSince`: `recent` is the slice built so far. -/
def GetRevocationsSince.loop (since : Int) :
    List RevocationClaim → List RevocationClaim → List RevocationClaim
  | recent, [] => recent
  | recent, revocation :: rest =>
    if revocation.RevokedAt ≥ since then
      GetRevocationsSince.loop since (recent ++ [revocation]) rest
    else
      GetRevocationsSince.loop since recent rest

/-- Go `(*RevocationList).GetRevocationsSince`. -/
def RevocationList.GetRevocationsSince (rl : RevocationList) (since : Int) :
    List RevocationClaim :=
  GetRevocationsSince.loop since [] rl.Revocations

/-! ## Chains built from a claim, and their revocation -/

/-- Go `(*DelegationClaim).GetChain`: the returned chain (`none` for nil) and
error, `now` being the clock read by `ValidateChain`.  The `for` loop returns
in its first round, so it is a conditional. -/
def DelegationClaim.GetChain (dc : DelegationClaim) (now : Int) :
    Option DelegationChain × Option ChainError :=
  let chain : DelegationChain := { Delegations := [dc], Valid := false, Reason := "" }
  if dc.ParentDelegation ≠ none then
    (none, some { Code := "PARENT_NOT_FOUND"
                  Message := "parent delegation reference not implemented" })
  else
    let validated := chain.ValidateChain now
    if ¬ validated.2 then
      (none, some { Code := "INVALID_CHAIN", Message := validated.1.Reason })
    else
      (some validated.1, none)

/-- Go `(*DelegationClaim).ValidateInChain`.  `GetChain` returns a chain or
an error (`GetChain_chain_or_error`); the case of neither, in which Go would
dereference a nil chain, is kept apart under the code `PANIC`. -/
def DelegationClaim.ValidateInChain (dc : DelegationClaim) (now : Int) :
    Option DelegationChain × Option ChainError :=
  match dc.GetChain now with
  | (_, some err) => (none, some err)
  | (none, none) => (none, some { Code := "PANIC", Message := "nil pointer dereference" })
  | (some chain, none) =>
    match chain.ValidateChainConstraints with
    | some err => (none, some err)
    | none => (some chain, none)

/-- Go `models.RevocationCredentialType`. -/
def RevocationCredentialType : List String :=
  ["VerifiableCredential", "RevocationCredential"]

/-- Go `models.StandardContexts`. -/
def StandardContexts : List String :=
  ["https://www.w3.org/2018/credentials/v1", "https://agentcommercekit.com/contexts/ack-id/v1"]

/-- The `DelegatorDID` of the root, as the loop of `RevokeChain` reads it: the
loop runs on a non-empty chain only, where the root is present; the absent
case, a nil dereference in Go, is given the empty string. -/
def DelegationChain.rootDelegatorDID (chain : DelegationChain) : String :=
  match chain.GetRootDelegation with
  | some root => root.DelegatorDID
  | none => ""

/-- The revocation `RevokeChain` creates for one delegation. -/
def RevokeChain.revocation (chain : DelegationChain) (reason : String) (now : Int)
    (delegation : DelegationClaim) : RevocationClaim :=
  { RevokedCredentialID := delegation.Nonce
    RevokedAgentDID := delegation.DelegateDID
    RevokerDID := chain.rootDelegatorDID
    Reason := reason
    RevokedAt := now
    EffectiveAt := now
    Nonce := "revoke_" ++ toString now ++ "_" ++ delegation.Nonce
    Metadata := none
    Type_ := RevocationCredentialType
    Context := StandardContexts
    Issuer := chain.rootDelegatorDID
    Subject := delegation.DelegateDID
    Proof := none }

/-- The loop of `RevokeChain`: `revocations` is the slice built so far. -/
def RevokeChain.loop (chain : DelegationChain) (reason : String) (now : Int) :
    List RevocationClaim → List DelegationClaim → List RevocationClaim
  | revocations, [] => revocations
  | revocations, delegation :: rest =>
    RevokeChain.loop chain reason now
      (revocations ++ [RevokeChain.revocation chain reason now delegation]) rest

/-- Go `(*DelegationChain).RevokeChain`, with the clock reading as argument. -/
def DelegationChain.RevokeChain (chain : DelegationChain) (reason : String) (now : Int) :
    List RevocationClaim :=
  RevokeChain.loop chain reason now [] chain.Delegations

/-- The revocations appended to a list one after the other with
`AddRevocation`, `clock` being the clock reading of each call. -/
def RevocationList.AddRevocations (rl : RevocationList) (revocations : List RevocationClaim)
    (clock : Int) : RevocationList :=
  revocations.foldl (fun l r => l.AddRevocation r clock) rl

/-! ## Library facts

Properties of the library functions that statements about signed claims rely
on.  They are hypotheses of those statements, never assumed globally. -/

/-- For the address `a`: `a.Hex()` starts with `0x`, `IsHexAddress` accepts it
and `HexToAddress` reads it back as `a`. -/
def Lib.AddressRoundTrip (L : Lib) (a : Address) : Prop :=
  HasPrefix (L.AddressHex a) "0x" = true ∧ L.IsHexAddress (L.AddressHex a) = true ∧
    L.HexToAddress (L.AddressHex a) = a

/-- The fact that `hex.DecodeString` decodes what `hex.EncodeToString` encodes. -/
def Lib.HexRoundTrip (L : Lib) : Prop :=
  ∀ bs, L.hexDecodeString (L.hexEncodeToString bs) = .ok bs

/-- For the private key `prv`: a signature `crypto.Sign` makes with it has 65
bytes and `crypto.SigToPub` recovers the key's public key from it over the
signed hash. -/
def Lib.SignRecovers (L : Lib) (prv : ECDSAPrivateKey) : Prop :=
  ∀ hash sig, L.Sign hash prv = .ok sig →
    sig.length = 65 ∧ L.SigToPub hash sig = .ok prv.PublicKey

/-- The byte `n mod 256`. -/
def byteOfNat (n : Nat) : Byte := ⟨n % 256, Nat.mod_lt _ (by decide)⟩

/-- The lower-case hexadecimal digit of a nibble. -/
def hexDigit (n : Nat) : Char :=
  if n < 10 then Char.ofNat (48 + n) else Char.ofNat (87 + n)

/-- The value of a hexadecimal digit, upper or lower case. -/
def fromHexChar (c : Char) : Option Nat :=
  if 48 ≤ c.toNat ∧ c.toNat ≤ 57 then some (c.toNat - 48)
  else if 97 ≤ c.toNat ∧ c.toNat ≤ 102 then some (c.toNat - 87)
  else if 65 ≤ c.toNat ∧ c.toNat ≤ 70 then some (c.toNat - 55)
  else none

/-- Go `hex.EncodeToString` on characters. -/
def hexEncode : List Byte → List Char
  | [] => []
  | b :: bs => hexDigit (b.val / 16) :: hexDigit (b.val % 16) :: hexEncode bs

/-- Go `hex.DecodeString` on characters: an invalid digit is reported before an
odd length. -/
def hexDecode : List Char → Except String (List Byte)
  | [] => .ok []
  | [c] =>
    match fromHexChar c with
    | none => .error "encoding/hex: invalid byte"
    | some _ => .error "encoding/hex: odd length hex string"
  | c :: d :: cs =>
    match fromHexChar c, fromHexChar d with
    | some a, some b =>
      match hexDecode cs with
      | .ok bs => .ok (byteOfNat (a * 16 + b) :: bs)
      | .error err => .error err
    | _, _ => .error "encoding/hex: invalid byte"

/-- The characters after a leading `0x` or `0X`, if there is one. -/
def strip0x : List Char → List Char
  | '0' :: 'x' :: cs => cs
  | '0' :: 'X' :: cs => cs
  | cs => cs

/-- Go `common.IsHexAddress` on characters. -/
def isHexAddress (cs : List Char) : Bool :=
  let body := strip0x cs
  decide (body.length = 40) && body.all (fun c => (fromHexChar c).isSome)

/-- Go `common.BytesToAddress`: the last twenty bytes, padded with zeros on
the left. -/
def bytesToAddress (bs : List Byte) : Address :=
  let tail := bs.drop (bs.length - 20)
  List.replicate (20 - tail.length) 0 ++ tail

/-- Go `common.HexToAddress` on characters (an undecodable string gives the
zero address here). -/
def hexToAddress (cs : List Char) : Address :=
  let body := strip0x cs
  let even := if body.length % 2 = 1 then '0' :: body else body
  match hexDecode even with
  | .ok bs => bytesToAddress bs
  | .error _ => zeroAddress

/-- The stand-in canonical encoding: the claim's scalar fields, separated. -/
def testMarshal (c : DelegationClaim) : Except String (List Byte) :=
  .ok ((c.DelegatorDID ++ "|" ++ c.DelegateDID ++ "|" ++ c.Action ++ "|" ++ c.Scope ++ "|"
    ++ c.Nonce).data.map (fun ch => byteOfNat ch.toNat))

/-- The stand-in hash: thirty-two bytes ending in a checksum of the input. -/
def testKeccak256 (bs : List Byte) : List Byte :=
  List.replicate 31 0 ++ [byteOfNat (bs.foldl (fun acc b => acc * 31 + b.val + 1) 7)]

/-- The stand-in address of a public key: its `X` coordinate in two bytes. -/
def testPubkeyToAddress (pub : ECDSAPublicKey) : Address :=
  List.replicate 18 0 ++ [byteOfNat (pub.X.toNat / 256), byteOfNat pub.X.toNat]

/-- The stand-in signature: a key byte, the hash, and padding to 65 bytes. -/
def testSign (hash : List Byte) (prv : ECDSAPrivateKey) : Except String (List Byte) :=
  if hash.length ≠ 32 then
    .error "hash is required to be exactly 32 bytes"
  else
    .ok (byteOfNat prv.PublicKey.X.toNat :: hash ++ List.replicate 32 0)

/-- The stand-in recovery: the signing key over the signed hash, another key
over any other hash. -/
def testSigToPub (hash sig : List Byte) : Except String ECDSAPublicKey :=
  match sig with
  | [] => .error "invalid signature"
  | x :: rest =>
    if rest.take 32 = hash then .ok { X := x.val, Y := 0 }
    else .ok { X := x.val + 256, Y := 0 }

/-- The executable library instance. -/
def testLib : Lib where
  jsonMarshal := testMarshal
  Keccak256 := testKeccak256
  Sign := testSign
  SigToPub := testSigToPub
  PubkeyToAddress := testPubkeyToAddress
  AddressHex := fun a => String.mk ('0' :: 'x' :: hexEncode a)
  HexToAddress := fun s => hexToAddress s.data
  IsHexAddress := fun s => isHexAddress s.data
  hexDecodeString := fun s => hexDecode s.data
  hexEncodeToString := fun bs => String.mk (hexEncode bs)

/-- Two private keys of the executable instance. -/
def testPrivA : ECDSAPrivateKey := { PublicKey := { X := 10, Y := 0 }, D := 1 }

/-- The second private key. -/
def testPrivB : ECDSAPrivateKey := { PublicKey := { X := 11, Y := 0 }, D := 2 }

/-- The agent key of `testPrivA`. -/
def testKeyA : AgentKey := fromPrivateKey testLib testPrivA

/-- The agent key of `testPrivB`. -/
def testKeyB : AgentKey := fromPrivateKey testLib testPrivB

/-- An unsigned delegation from `delegator` to `delegate`. -/
def testClaim (delegator delegate : String) : DelegationClaim :=
  { DelegatorDID := delegator, DelegateDID := delegate, Action := "transfer", Scope := "ETH",
    Constraints := none, IssuedAt := 1000, ExpiresAt := 4600, Nonce := "test_nonce",
    ParentDelegation := none, MaxDepth := 2, CurrentDepth := 0,
    Type_ := ["VerifiableCredential", "DelegationCredential"],
    Context := ["https://www.w3.org/2018/credentials/v1"],
    Issuer := delegator, Subject := delegate, Proof := none }

/-- The time stamp used for the proofs of the examples. -/
def testCreated : String := "2024-01-01T00:00:00Z"

/-- A delegation from key A to key B, signed by key A. -/
def testSigned : DelegationClaim :=
  (ClaimSigner.SignDelegationClaim testLib ⟨testKeyA⟩
    (testClaim testKeyA.DID testKeyB.DID) testCreated).1

/-- A delegation that names key B as delegator but is signed by key A. -/
def testForged : DelegationClaim :=
  (ClaimSigner.SignDelegationClaim testLib ⟨testKeyA⟩
    (testClaim testKeyB.DID testKeyA.DID) testCreated).1

/-- A delegation from key B to key A, signed by key B. -/
def testSignedB : DelegationClaim :=
  (ClaimSigner.SignDelegationClaim testLib ⟨testKeyB⟩
    (testClaim testKeyB.DID testKeyA.DID) testCreated).1

/-- A delegation from key A to key B whose proof value is not hexadecimal. -/
def testBadHex : DelegationClaim :=
  { testClaim testKeyA.DID testKeyB.DID with
    Proof := some
      { Type_ := "EcdsaSecp256k1Signature2019", Created := testCreated,
        VerificationMethod := "did:ackid:0x000000000000000000000000000000000000000a#key-1",
        ProofPurpose := "assertionMethod", ProofValue := "zz", Challenge := "",
        Domain := { Name := "AgentID", Version := "1", ChainID := 1,
                    VerifyingContract := "" } } }

/-- A chain of two correctly signed delegations, A to B and B to A. -/
def testChain : DelegationChain :=
  { Delegations := [testSigned, testSignedB], Valid := false, Reason := "" }

/-- A chain whose second delegation names B as delegator but is signed by A. -/
def testForgedChain : DelegationChain :=
  { Delegations := [testSigned, testForged], Valid := false, Reason := "" }

/-- A chain of the one delegation that names B as delegator but is signed by A. -/
def testForgedRoot : DelegationChain :=
  { Delegations := [testForged], Valid := false, Reason := "" }

/-- An unsigned delegation whose constraints hold a time window, stored as a
decoded JSON document stores it. -/
def testTimeClaim (delegator delegate : String) (validFrom validUntil : Int) :
    DelegationClaim :=
  { testClaim delegator delegate with
    Constraints := some
      [("time", .map [("valid_from", .float64 (.finite validFrom)),
                      ("valid_until", .float64 (.finite validUntil))])] }

/-- An unsigned delegation whose constraints hold allowed and denied resources. -/
def testScopeClaim (delegator delegate : String) (allowed denied : List String) :
    DelegationClaim :=
  { testClaim delegator delegate with
    Constraints := some
      [("scope", .map [("allowed_resources", .slice (allowed.map Value.str)),
                       ("denied_resources", .slice (denied.map Value.str))])] }

/-- A continuous chain whose second delegation ends after the root's window. -/
def testWideningChain : DelegationChain :=
  { Delegations := [testTimeClaim testKeyA.DID testKeyB.DID 100 200,
                    testTimeClaim testKeyB.DID testKeyA.DID 100 300],
    Valid := false, Reason := "" }

/-- A chain whose root has no constraint and whose second delegation has a
time window. -/
def testUnboundedRootChain : DelegationChain :=
  { Delegations := [testClaim testKeyA.DID testKeyB.DID,
                    testTimeClaim testKeyB.DID testKeyA.DID 100 200],
    Valid := false, Reason := "" }

/-- A chain whose second delegation allows a resource the root denies. -/
def testScopeChain : DelegationChain :=
  { Delegations := [testScopeClaim testKeyA.DID testKeyB.DID ["ETH"] ["BTC"],
                    testScopeClaim testKeyB.DID testKeyA.DID ["BTC"] []],
    Valid := false, Reason := "" }

/-- A chain of two delegations that do not connect: the second delegator is
not the first delegate. -/
def testBrokenChain : DelegationChain :=
  { Delegations := [testClaim testKeyA.DID testKeyB.DID, testClaim testKeyA.DID testKeyB.DID],
    Valid := false, Reason := "" }

/-- A revocation record for the credential `credentialID` of key B. -/
def testRevocation (credentialID : String) (revokedAt effectiveAt : Int) : RevocationClaim :=
  { RevokedCredentialID := credentialID, RevokedAgentDID := testKeyB.DID,
    RevokerDID := testKeyA.DID, Reason := "compromised", RevokedAt := revokedAt,
    EffectiveAt := effectiveAt, Nonce := "revoke_nonce", Metadata := none,
    Type_ := ["VerifiableCredential", "RevocationCredential"],
    Context := ["https://www.w3.org/2018/credentials/v1"],
    Issuer := testKeyA.DID, Subject := testKeyB.DID, Proof := none }

/-- A revocation list with the given records. -/
def testList (revocations : List RevocationClaim) : RevocationList :=
  { ListID := "list-1", IssuerDID := testKeyA.DID, LastUpdated := 0,
    Revocations := revocations, Type_ := ["VerifiableCredential", "RevocationList2020"],
    Context := ["https://www.w3.org/2018/credentials/v1"], Proof := none }

/-! ## An encoder for the executable instance

`jsonLib` is `testLib` with the stand-in encoding replaced by an encoder that
follows `json.Marshal` of `encoding/json` in structure: struct fields in
declaration order under their tag names, `omitempty` fields left out when
empty, a nil map as `null`, the keys of a map sorted, strings quoted and
escaped (with the HTML escapes), integers in decimal.  A `float64` with an
integer value is printed as that integer, as Go does below `1e21`; for other
finite values a numerator and denominator stand in for Go's shortest decimal.
On a NaN or an infinity `json.Marshal` fails with an `UnsupportedValueError`;
the encoder fails as well, with a text that leaves out the value. -/

/-- The elements joined by a separator. -/
def joinWith (sep : List Char) : List (List Char) → List Char
  | [] => []
  | [x] => x
  | x :: y :: rest => x ++ sep ++ joinWith sep (y :: rest)

/-- The double quote. -/
def quoteChar : Char := Char.ofNat 34

/-- The backslash. -/
def backslashChar : Char := Char.ofNat 92

/-- The escape of `encoding/json` for one character of a string. -/
def jsonEscape (c : Char) : List Char :=
  if c = quoteChar then [backslashChar, quoteChar]
  else if c = backslashChar then [backslashChar, backslashChar]
  else if c.toNat = 10 then [backslashChar, 'n']
  else if c.toNat = 13 then [backslashChar, 'r']
  else if c.toNat = 9 then [backslashChar, 't']
  else if c.toNat < 32 ∨ c = '<' ∨ c = '>' ∨ c = '&' ∨ c.toNat = 8232 ∨ c.toNat = 8233 then
    [backslashChar, 'u', hexDigit (c.toNat / 4096), hexDigit (c.toNat / 256 % 16),
      hexDigit (c.toNat / 16 % 16), hexDigit (c.toNat % 16)]
  else [c]

/-- A JSON string: the escaped characters between quotes. -/
def jsonString (s : String) : List Char :=
  quoteChar :: (s.data.map jsonEscape).flatten ++ [quoteChar]

/-- A JSON integer. -/
def jsonInt (i : Int) : List Char :=
  (toString i).data

/-- A JSON number for a finite `float64`. -/
def jsonFloat (q : Rat) : List Char :=
  if q.den = 1 then (toString q.num).data
  else (toString q.num).data ++ '/' :: (toString q.den).data

/-- A JSON array of encoded elements. -/
def jsonArray (elems : List (List Char)) : List Char :=
  '[' :: joinWith [','] elems ++ [']']

/-- A JSON object of a map whose values are encoded already: the entries are
written in the order of their keys. -/
def jsonObject (entries : List (String × List Char)) : List Char :=
  '{' :: joinWith [',']
    ((entries.insertionSort (fun a b => a.1.data ≤ b.1.data)).map
      (fun e => jsonString e.1 ++ ':' :: e.2)) ++ ['}']

mutual
/-- The JSON encoding of a value held in an `interface{}`; a NaN and an
infinity have none (see `jsonSupported`). -/
def jsonValue : Value → List Char
  | .null => ['n', 'u', 'l', 'l']
  | .bool b => if b then ['t', 'r', 'u', 'e'] else ['f', 'a', 'l', 's', 'e']
  | .float64 (.finite q) => jsonFloat q
  | .float64 _ => []
  | .int64 i => jsonInt i
  | .int i => jsonInt i
  | .str s => jsonString s
  | .slice vs => jsonArray (jsonValues vs)
  | .map es => jsonObject (jsonEntries es)
/-- The JSON encodings of the elements of a slice. -/
def jsonValues : List Value → List (List Char)
  | [] => []
  | v :: vs => jsonValue v :: jsonValues vs
/-- The entries of a map with their values encoded. -/
def jsonEntries : List (String × Value) → List (String × List Char)
  | [] => []
  | (k, v) :: es => (k, jsonValue v) :: jsonEntries es
end

mutual
/-- Whether `json.Marshal` encodes the value: it does not when a NaN or an
infinity stands in it anywhere. -/
def jsonSupported : Value → Bool
  | .float64 (.finite _) => true
  | .float64 _ => false
  | .slice vs => jsonSupportedValues vs
  | .map es => jsonSupportedEntries es
  | _ => true
/-- Whether `json.Marshal` encodes every element of a slice. -/
def jsonSupportedValues : List Value → Bool
  | [] => true
  | v :: vs => jsonSupported v && jsonSupportedValues vs
/-- Whether `json.Marshal` encodes every value of a map. -/
def jsonSupportedEntries : List (String × Value) → Bool
  | [] => true
  | (_, v) :: es => jsonSupported v && jsonSupportedEntries es
end

mutual
/-- The form of a value that its JSON text determines: a whole number is an
`int64` whatever its Go type, and the entries of a map are listed in the order
of their keys. -/
def Value.canon : Value → Value
  | .null => .null
  | .bool b => .bool b
  | .float64 (.finite q) => if q.den = 1 then .int64 q.num else .float64 (.finite q)
  | .float64 f => .float64 f
  | .int64 i => .int64 i
  | .int i => .int64 i
  | .str s => .str s
  | .slice vs => .slice (Value.canonValues vs)
  | .map es => .map ((Value.canonEntries es).insertionSort (fun a b => a.1.data ≤ b.1.data))
/-- The elements of a slice in the form their JSON text determines. -/
def Value.canonValues : List Value → List Value
  | [] => []
  | v :: vs => v.canon :: Value.canonValues vs
/-- The entries of a map with their values in the form their JSON text
determines. -/
def Value.canonEntries : List (String × Value) → List (String × Value)
  | [] => []
  | (k, v) :: es => (k, v.canon) :: Value.canonEntries es
end

/-- A text after which a JSON value ends: nothing, or a comma or a closing
bracket first. -/
def JsonStop (s : List Char) : Prop :=
  s = [] ∨ ∃ c r, s = c :: r ∧ (c = ',' ∨ c = ']' ∨ c = '}')

/-- The characters of a JSON number of the encoder. -/
def jsonNumChar (c : Char) : Bool :=
  c.isDigit || c == '-' || c == '/'

/-- The value of a text of decimal digits, after the digits read so far. -/
def digitsValue (acc : Nat) (l : List Char) : Nat :=
  l.foldl (fun a c => 10 * a + (c.toNat - 48)) acc

/-- The kind of a value: null, true, false, number, string, array, object. -/
def jsonKind : Value → Nat
  | .null => 0
  | .bool true => 1
  | .bool false => 2
  | .float64 _ => 3
  | .int64 _ => 3
  | .int _ => 3
  | .str _ => 4
  | .slice _ => 5
  | .map _ => 6

/-- The kind of value whose JSON text starts with the character; 7 for a
character that starts none. -/
def jsonCharKind (c : Char) : Nat :=
  if c.isDigit = true ∨ c = '-' then 3
  else if c = 'n' then 0
  else if c = 't' then 1
  else if c = 'f' then 2
  else if c = quoteChar then 4
  else if c = '[' then 5
  else if c = '{' then 6
  else 7

/-- The JSON text of a value is self-delimiting and determines the value's
form: if it is followed by a stop and equals, with what follows, the text of
another value followed by a stop, the two values have the same form and what
follows is the same. -/
def JsonDelimited (v : Value) : Prop :=
  ∀ (w : Value) (s t : List Char), jsonSupported v = true → jsonSupported w = true →
    JsonStop s → JsonStop t → jsonValue v ++ s = jsonValue w ++ t →
    v.canon = w.canon ∧ s = t

/-- The numbers among the values that are encoded. -/
def Value.isNumber (v : Value) : Prop :=
  (∃ q, v = .float64 (.finite q)) ∨ (∃ i, v = .int64 i) ∨ (∃ i, v = .int i)


/-- The order of the keys of a map, on its entries. -/
abbrev keyLe (a b : String × Value) : Prop := a.1.data ≤ b.1.data


/-- One member of the JSON object of a map. -/
def jsonMember (e : String × Value) : List Char :=
  jsonString e.1 ++ ':' :: jsonValue e.2

/-- An unsigned delegation from key A to key B with the given constraints. -/
def testConstraintClaim (m : List (String × Value)) : DelegationClaim :=
  { testClaim testKeyA.DID testKeyB.DID with Constraints := some m }

/-! ## Public-key verification (`pkg/key`)

The functions of go-ethereum that `VerifySignature` and the hexadecimal
accessors call are the fields of `KeyLib`; `fmt.Sprintf("%x", b)` is
`hexEncode`. -/

/-- The library functions used by `key.VerifySignature` and the accessors. -/
structure KeyLib where
  /-- The `crypto.HexToECDSA`, which parses a private key. -/
  HexToECDSA : String → Except String ECDSAPrivateKey
  /-- The `crypto.FromECDSA`. -/
  FromECDSA : ECDSAPrivateKey → List Byte
  /-- The `crypto.FromECDSAPub`. -/
  FromECDSAPub : ECDSAPublicKey → List Byte
  /-- The `crypto.VerifySignature(pubkey, hash, signature)`. -/
  VerifySignature : List Byte → List Byte → List Byte → Bool

/-- Go `(*AgentKey).GetPrivateKeyHex`. -/
def AgentKey.GetPrivateKeyHex (K : KeyLib) (ak : AgentKey) : String :=
  String.mk (hexEncode (K.FromECDSA ak.PrivateKey))

/-- Go `(*AgentKey).GetPublicKeyHex`. -/
def AgentKey.GetPublicKeyHex (K : KeyLib) (ak : AgentKey) : String :=
  String.mk (hexEncode (K.FromECDSAPub ak.PublicKey))

/-- Go `key.VerifySignature`. -/
def VerifySignature (K : KeyLib) (publicKeyHex : String) (messageHash signature : List Byte) :
    Bool × Option String :=
  let signature := if signature.length = 65 then signature.take 64 else signature
  match K.HexToECDSA publicKeyHex with
  | .error err => (false, some ("invalid public key: " ++ err))
  | .ok publicKey =>
    (K.VerifySignature (K.FromECDSAPub publicKey.PublicKey) messageHash signature, none)

/-- Library fact: `crypto.FromECDSAPub` gives the uncompressed form of a
public key, 65 bytes long. -/
def KeyLib.PublicKeyLength (K : KeyLib) : Prop :=
  ∀ pub : ECDSAPublicKey, (K.FromECDSAPub pub).length = 65

/-- Library fact: `crypto.HexToECDSA` accepts the hexadecimal form of 32 bytes
only (`invalid length, need 256 bits` otherwise), a string of 64 characters. -/
def KeyLib.PrivateKeyHexLength (K : KeyLib) : Prop :=
  ∀ (s : String) (prv : ECDSAPrivateKey), K.HexToECDSA s = .ok prv → s.length = 64

/-- A 32-byte big-endian form of a small number. -/
def testScalarBytes (n : Int) : List Byte :=
  List.replicate 31 0 ++ [byteOfNat n.toNat]

/-- The executable instance of `KeyLib`: keys are serialised in the lengths of
go-ethereum (32 bytes for a private key, 65 for a public key), a private key is
parsed from the hexadecimal form of 32 bytes only, and a signature of the
stand-in scheme verifies when it names the key and the hash. -/
def testKeyLib : KeyLib where
  HexToECDSA := fun s =>
    match hexDecode s.data with
    | .error _ => .error "invalid hex data for private key"
    | .ok b =>
      if b.length ≠ 32 then .error "invalid length, need 256 bits"
      else
        .ok { PublicKey := { X := (b.getLastD 0).val + 9, Y := 0 }, D := (b.getLastD 0).val }
  FromECDSA := fun prv => testScalarBytes prv.D
  FromECDSAPub := fun pub => byteOfNat 4 :: testScalarBytes pub.X ++ testScalarBytes pub.Y
  VerifySignature := fun pubkey hash signature =>
    decide (signature.length = 64) &&
      decide (signature.head? = (pubkey.take 33).getLast?) &&
      decide ((signature.drop 1).take 32 = hash)

/-- A 32-byte message hash. -/
def testHash : List Byte := List.replicate 31 0 ++ [byteOfNat 7]

/-- A delegation whose parent reference is set. -/
def testChildClaim : DelegationClaim :=
  { testClaim testKeyB.DID testKeyA.DID with
    ParentDelegation := some "test_nonce", CurrentDepth := 1 }

/-- A delegation from key A to key B at its maximal depth. -/
def testFullDepthClaim : DelegationClaim :=
  { testClaim testKeyA.DID testKeyB.DID with CurrentDepth := 2 }

/-- A continuous chain whose first delegation is at its maximal depth. -/
def testFullDepthChain : DelegationChain :=
  { Delegations := [testFullDepthClaim, testClaim testKeyB.DID testKeyA.DID],
    Valid := false, Reason := "" }

/-- A chain of three hops whose third window lies in the root's window and not
in the second's. -/
def testRewideningChain : DelegationChain :=
  { Delegations := [testTimeClaim testKeyA.DID testKeyB.DID 0 1000,
                    testTimeClaim testKeyB.DID testKeyA.DID 100 200,
                    testTimeClaim testKeyA.DID testKeyB.DID 50 900],
    Valid := false, Reason := "" }

/-- A delegation whose `valid_from` is stored as a Go `int`. -/
def testIntTimeClaim : DelegationClaim :=
  testConstraintClaim
    [("time", .map [("valid_from", .int 100), ("valid_until", .int64 200)])]

/-- A delegation whose allowed resources hold a number next to a string. -/
def testMixedScopeClaim : DelegationClaim :=
  testConstraintClaim
    [("scope", .map [("allowed_resources", .slice [.str "ETH", .int64 5])])]

/-- A chain of two unexpired, continuous delegations that carries the reason
of an earlier rejection. -/
def testStaleChain : DelegationChain :=
  { Delegations := [testClaim testKeyA.DID testKeyB.DID, testClaim testKeyB.DID testKeyA.DID],
    Valid := false, Reason := "delegation 0 is expired" }

/-- The chain of `testStaleChain` as first built. -/
def testFreshChain : DelegationChain :=
  { testStaleChain with Reason := "" }

end AgentID

/-! # Theorems -/

namespace AgentID

/-! ## Chain validation -/

/-- The loop of `ValidateChain`, started at index `pre.length` on the suffix
`rest` of `all = pre ++ rest`, runs to its end exactly when every delegation of
`rest` is unexpired and within its depth and continuity holds at every index
from `pre.length` on. -/
theorem ValidateChain.loop_eq_none_iff (now : Int) (all : List DelegationClaim) :
    ∀ (rest pre : List DelegationClaim), all = pre ++ rest →
      (ValidateChain.loop now all pre.length rest = none ↔
        (∀ d ∈ rest, d.IsExpired now = false ∧ d.CurrentDepth ≤ d.MaxDepth) ∧
        (∀ i p d, pre.length ≤ i → 0 < i → all[i - 1]? = some p →
          all[i]? = some d → p.DelegateDID = d.DelegatorDID)) := by
  intro rest
  induction rest with
  | nil =>
    intro pre hall
    simp only [ValidateChain.loop, List.not_mem_nil, false_implies, implies_true, true_and,
      true_iff]
    intro i p d hi _ _ hd
    rw [hall, List.append_nil] at hd
    have := List.getElem?_eq_none hi
    rw [this] at hd
    cases hd
  | cons d rest ih =>
    intro pre hall
    have hall2 : all = (pre ++ [d]) ++ rest := by simp [hall]
    have hih := ih (pre ++ [d]) hall2
    have hlen : (pre ++ [d]).length = pre.length + 1 := by simp
    rw [hlen] at hih
    have hget : all[pre.length]? = some d := by
      rw [hall, List.getElem?_append_right (le_refl _)]; simp
    unfold ValidateChain.loop
    by_cases hexp : d.IsExpired now = true
    · simp only [hexp, if_true]
      constructor
      · intro h; cases h
      · intro h
        have := (h.1 d (List.mem_cons_self _ _)).1
        rw [hexp] at this; cases this
    · have hexp2 : d.IsExpired now = false := by simpa using hexp
      simp only [hexp2, Bool.false_eq_true, if_false]
      by_cases hdepth : d.CurrentDepth > d.MaxDepth
      · simp only [hdepth, if_true]
        constructor
        · intro h; cases h
        · intro h
          have := (h.1 d (List.mem_cons_self _ _)).2
          omega
      · simp only [hdepth, if_false]
        by_cases hbrk : pre.length > 0 ∧
            all[pre.length - 1]?.map DelegationClaim.DelegateDID ≠ some d.DelegatorDID
        · rw [if_pos hbrk]
          constructor
          · intro h; cases h
          · intro h
            exfalso
            obtain ⟨hpos, hne⟩ := hbrk
            cases hp : all[pre.length - 1]? with
            | none =>
              have := List.getElem?_eq_none_iff.mp hp
              have hl : all.length = pre.length + (rest.length + 1) := by rw [hall]; simp
              omega
            | some p =>
              apply hne
              rw [hp]
              simp only [Option.map_some']
              rw [h.2 pre.length p d (le_refl _) hpos hp hget]
        · rw [if_neg hbrk, hih]
          constructor
          · rintro ⟨h1, h2⟩
            refine ⟨?_, ?_⟩
            · intro x hx
              rcases List.mem_cons.mp hx with rfl | hx
              · exact ⟨hexp2, by omega⟩
              · exact h1 x hx
            · intro i p x hi hpos hp hx
              rcases Nat.eq_or_lt_of_le hi with heq | hlt
              · subst heq
                rw [hget] at hx
                cases hx
                by_contra hcon
                apply hbrk
                refine ⟨hpos, ?_⟩
                rw [hp]
                simp only [Option.map_some', ne_eq, Option.some.injEq]
                exact hcon
              · exact h2 i p x hlt hpos hp hx
          · rintro ⟨h1, h2⟩
            refine ⟨fun x hx => h1 x (List.mem_cons_of_mem _ hx), ?_⟩
            intro i p x hi hpos hp hx
            exact h2 i p x (by omega) hpos hp hx

/-- C1: for every delegation chain and every clock value, `ValidateChain`
returns true if and only if the chain is non-empty, no delegation in it is
expired, every delegation has `CurrentDepth <= MaxDepth`, and for every index
`i > 0` the delegate of delegation `i-1` is the delegator of delegation `i`;
and after the call `chain.Valid` equals the returned boolean. -/
theorem ValidateChain_true_iff (chain : DelegationChain) (now : Int) :
    ((chain.ValidateChain now).2 = true ↔
      chain.Delegations ≠ [] ∧
      (∀ d ∈ chain.Delegations, d.IsExpired now = false) ∧
      (∀ d ∈ chain.Delegations, d.CurrentDepth ≤ d.MaxDepth) ∧
      (∀ i p d, 0 < i → chain.Delegations[i - 1]? = some p →
        chain.Delegations[i]? = some d → p.DelegateDID = d.DelegatorDID)) ∧
    (chain.ValidateChain now).1.Valid = (chain.ValidateChain now).2 := by
  have hloop := ValidateChain.loop_eq_none_iff now chain.Delegations chain.Delegations []
    (by simp)
  simp only [List.length_nil, Nat.zero_le, true_implies] at hloop
  unfold DelegationChain.ValidateChain
  by_cases hlen : chain.Delegations.length = 0
  · have hnil : chain.Delegations = [] := List.length_eq_zero.mp hlen
    simp [hnil]
  · have hne : chain.Delegations ≠ [] := fun h => hlen (by simp [h])
    rw [if_neg hlen]
    cases hl : ValidateChain.loop now chain.Delegations 0 chain.Delegations with
    | some reason =>
      refine ⟨?_, rfl⟩
      simp only [Bool.false_eq_true, false_iff]
      rintro ⟨_, h1, h2, h3⟩
      have := hloop.mpr ⟨fun d hd => ⟨h1 d hd, h2 d hd⟩, h3⟩
      rw [hl] at this
      cases this
    | none =>
      refine ⟨?_, rfl⟩
      simp only [true_iff]
      obtain ⟨h12, h3⟩ := hloop.mp hl
      exact ⟨hne, fun d hd => (h12 d hd).1, fun d hd => (h12 d hd).2, h3⟩

/-- C10: `ValidateChain` on an empty chain returns false and leaves the chain
with `Valid = false` and `Reason = "empty delegation chain"`, whatever the
flag, the reason and the clock were before. -/
theorem ValidateChain_empty (valid : Bool) (reason : String) (now : Int) :
    ({ Delegations := [], Valid := valid, Reason := reason } : DelegationChain).ValidateChain now
      = ({ Delegations := [], Valid := false, Reason := "empty delegation chain" }, false) := by
  rfl

/-- The loop of `ValidateChain`, started at index `pre.length` on the suffix
`rest` of `all = pre ++ rest`, returns the reason of the delegation at index
`i` when that delegation fails a check and every delegation from `pre.length`
up to `i` passes all three. -/
theorem ValidateChain.loop_first_failure (now : Int) (all : List DelegationClaim) :
    ∀ (rest pre : List DelegationClaim), all = pre ++ rest →
      ∀ i d, pre.length ≤ i → all[i]? = some d →
        (∀ j c, pre.length ≤ j → j < i → all[j]? = some c →
          c.IsExpired now = false ∧ c.CurrentDepth ≤ c.MaxDepth ∧
          ∀ p, 0 < j → all[j - 1]? = some p → p.DelegateDID = c.DelegatorDID) →
        (d.IsExpired now = true ∨ d.CurrentDepth > d.MaxDepth ∨
          (0 < i ∧ ∃ p, all[i - 1]? = some p ∧ p.DelegateDID ≠ d.DelegatorDID)) →
        ValidateChain.loop now all pre.length rest =
          some (if d.IsExpired now = true then "delegation " ++ toString i ++ " is expired"
            else if d.CurrentDepth > d.MaxDepth then
              "delegation " ++ toString i ++ " exceeds max depth"
            else "broken chain at delegation " ++ toString i) := by
  intro rest
  induction rest with
  | nil =>
    intro pre hall i d hi hd
    rw [hall, List.append_nil, List.getElem?_eq_none hi] at hd
    cases hd
  | cons x rest ih =>
    intro pre hall i d hi hd hmin hbad
    have hall2 : all = (pre ++ [x]) ++ rest := by simp [hall]
    have hlen : (pre ++ [x]).length = pre.length + 1 := by simp
    have hget : all[pre.length]? = some x := by
      rw [hall, List.getElem?_append_right (le_refl _)]; simp
    rcases Nat.eq_or_lt_of_le hi with heq | hlt
    · subst heq
      rw [hget] at hd
      cases hd
      unfold ValidateChain.loop
      by_cases hexp : x.IsExpired now = true
      · simp only [hexp, if_true]
      · simp only [hexp, Bool.false_eq_true, if_false]
        by_cases hdepth : x.CurrentDepth > x.MaxDepth
        · simp only [hdepth, if_true]
        · simp only [hdepth, if_false]
          rcases hbad with h | h | ⟨hpos, p, hp, hne⟩
          · exact absurd h hexp
          · exact absurd h hdepth
          · have hcond : pre.length > 0 ∧
                all[pre.length - 1]?.map DelegationClaim.DelegateDID ≠ some x.DelegatorDID := by
              refine ⟨hpos, ?_⟩
              rw [hp]
              simpa using hne
            rw [if_pos hcond]
    · obtain ⟨hx1, hx2, hx3⟩ := hmin pre.length x (le_refl _) hlt hget
      have hstep : ValidateChain.loop now all pre.length (x :: rest)
          = ValidateChain.loop now all (pre.length + 1) rest := by
        rw [ValidateChain.loop]
        have hd2 : ¬ x.CurrentDepth > x.MaxDepth := by omega
        simp only [hx1, Bool.false_eq_true, if_false, hd2]
        have hcond : ¬ (pre.length > 0 ∧
            all[pre.length - 1]?.map DelegationClaim.DelegateDID ≠ some x.DelegatorDID) := by
          rintro ⟨hpos, hne⟩
          apply hne
          obtain ⟨p, hp⟩ : ∃ p, all[pre.length - 1]? = some p := by
            have hl : pre.length - 1 < all.length := by
              have : all.length = pre.length + (rest.length + 1) := by rw [hall]; simp
              omega
            exact ⟨all[pre.length - 1], List.getElem?_eq_getElem hl⟩
          rw [hp]
          simp only [Option.map_some', Option.some.injEq]
          exact hx3 p hpos hp
        rw [if_neg hcond]
      rw [hstep]
      have := ih (pre ++ [x]) hall2 i d (by rw [hlen]; omega) hd
        (fun j c hj hji hc => hmin j c (by rw [hlen] at hj; omega) hji hc) hbad
      rw [hlen] at this
      exact this

/-- C11: for every chain, let `i` be the smallest index at which delegation
`i` is expired, or has `CurrentDepth > MaxDepth`, or (`i > 0`) has a
`DelegatorDID` different from the `DelegateDID` of delegation `i-1`; then
`ValidateChain` rejects the chain and `Reason` is `delegation i is expired` if
delegation `i` is expired, otherwise `delegation i exceeds max depth` if its
depth exceeds its maximum, otherwise `broken chain at delegation i`, with `i`
in decimal.  In particular a two-hop chain of unexpired, depth-valid claims
whose second delegator is not the first delegate gets the reason
`broken chain at delegation 1`. -/
theorem ValidateChain_reason (now : Int) :
    (∀ (chain : DelegationChain) (i : Nat) (d : DelegationClaim),
      chain.Delegations[i]? = some d →
      (d.IsExpired now = true ∨ d.CurrentDepth > d.MaxDepth ∨
        (0 < i ∧ ∃ p, chain.Delegations[i - 1]? = some p ∧ p.DelegateDID ≠ d.DelegatorDID)) →
      (∀ j c, j < i → chain.Delegations[j]? = some c →
        c.IsExpired now = false ∧ c.CurrentDepth ≤ c.MaxDepth ∧
        ∀ p, 0 < j → chain.Delegations[j - 1]? = some p → p.DelegateDID = c.DelegatorDID) →
      (chain.ValidateChain now).2 = false ∧ (chain.ValidateChain now).1.Valid = false ∧
      (chain.ValidateChain now).1.Reason =
        (if d.IsExpired now = true then "delegation " ++ toString i ++ " is expired"
          else if d.CurrentDepth > d.MaxDepth then
            "delegation " ++ toString i ++ " exceeds max depth"
          else "broken chain at delegation " ++ toString i)) ∧
    (∀ (a b : DelegationClaim) (valid : Bool) (reason : String),
      a.IsExpired now = false → b.IsExpired now = false →
      a.CurrentDepth ≤ a.MaxDepth → b.CurrentDepth ≤ b.MaxDepth →
      b.DelegatorDID ≠ a.DelegateDID →
      (({ Delegations := [a, b], Valid := valid, Reason := reason } : DelegationChain).ValidateChain
        now).1.Reason = "broken chain at delegation 1") := by
  have main : ∀ (chain : DelegationChain) (i : Nat) (d : DelegationClaim),
      chain.Delegations[i]? = some d →
      (d.IsExpired now = true ∨ d.CurrentDepth > d.MaxDepth ∨
        (0 < i ∧ ∃ p, chain.Delegations[i - 1]? = some p ∧ p.DelegateDID ≠ d.DelegatorDID)) →
      (∀ j c, j < i → chain.Delegations[j]? = some c →
        c.IsExpired now = false ∧ c.CurrentDepth ≤ c.MaxDepth ∧
        ∀ p, 0 < j → chain.Delegations[j - 1]? = some p → p.DelegateDID = c.DelegatorDID) →
      (chain.ValidateChain now).2 = false ∧ (chain.ValidateChain now).1.Valid = false ∧
      (chain.ValidateChain now).1.Reason =
        (if d.IsExpired now = true then "delegation " ++ toString i ++ " is expired"
          else if d.CurrentDepth > d.MaxDepth then
            "delegation " ++ toString i ++ " exceeds max depth"
          else "broken chain at delegation " ++ toString i) := by
    intro chain i d hd hbad hmin
    have hlen : ¬ chain.Delegations.length = 0 := by
      intro h
      rw [List.length_eq_zero.mp h] at hd
      cases hd
    have hloop := ValidateChain.loop_first_failure now chain.Delegations chain.Delegations []
      (by simp) i d (Nat.zero_le _) hd (fun j c _ hji hc => hmin j c hji hc) hbad
    simp only [List.length_nil] at hloop
    unfold DelegationChain.ValidateChain
    rw [if_neg hlen, hloop]
    exact ⟨rfl, rfl, rfl⟩
  refine ⟨main, ?_⟩
  intro a b valid reason ha hb hda hdb hne
  have h := (main { Delegations := [a, b], Valid := valid, Reason := reason } 1 b rfl
    (Or.inr (Or.inr ⟨Nat.one_pos, a, rfl, fun h => hne h.symm⟩))
    (fun j c hj hc => by
      have hj0 : j = 0 := by omega
      subst hj0
      simp only [List.getElem?_cons_zero, Option.some.injEq] at hc
      subst hc
      exact ⟨ha, hda, fun p hp _ => absurd hp (Nat.lt_irrefl 0)⟩)).2.2
  rw [h]
  have hd2 : ¬ b.CurrentDepth > b.MaxDepth := by omega
  simp only [hb, Bool.false_eq_true, if_false, hd2]
  decide

/-! ## Verification of one claim -/

/-- C4: `VerifyDelegationClaim` returns `(false, error)` for every claim that
has no proof, whatever the expected identity is (so the missing-proof check
comes before the identity check), and returns `(false, error)` for every claim
with a proof whose `DelegatorDID` differs from the expected delegator identity,
whatever the proof contains. -/
theorem VerifyDelegationClaim_no_proof_or_mismatch (L : Lib) (cs : ClaimSigner)
    (claim : DelegationClaim) (expectedDelegatorDID : String) :
    (claim.Proof = none →
      cs.VerifyDelegationClaim L claim expectedDelegatorDID
        = (false, some "delegation claim has no proof")) ∧
    (claim.Proof ≠ none → claim.DelegatorDID ≠ expectedDelegatorDID →
      cs.VerifyDelegationClaim L claim expectedDelegatorDID
        = (false, some ("claim delegator DID mismatch: expected " ++ expectedDelegatorDID
            ++ ", got " ++ claim.DelegatorDID))) := by
  unfold ClaimSigner.VerifyDelegationClaim
  constructor
  · intro h
    rw [h]
  · intro h hne
    cases hp : claim.Proof with
    | none => exact absurd hp h
    | some proof => simp [hne]

/-- C5: for every claim with a proof whose `DelegatorDID` equals the expected
identity and resolves to an address, if the proof value decodes to a 65-byte
signature from which public-key recovery over the claim's digest succeeds but
the recovered address differs from the resolved address,
`VerifyDelegationClaim` returns false with no error.  (`hrt` is the library
fact that `HexToAddress` reads back what `Hex()` prints.) -/
theorem VerifyDelegationClaim_wrong_address (L : Lib) (cs : ClaimSigner)
    (claim : DelegationClaim) (expectedDelegatorDID : String) (proof : CredentialProof)
    (address : Address) (hash signature : List Byte) (pubKey : ECDSAPublicKey)
    (hproof : claim.Proof = some proof)
    (hdid : claim.DelegatorDID = expectedDelegatorDID)
    (haddr : ExtractAddressFromDID L claim.DelegatorDID = (address, none))
    (hrt : L.HexToAddress (L.AddressHex address) = address)
    (hhash : hashDelegationClaimStruct L { claim with Proof := none } = (hash, none))
    (hdec : L.hexDecodeString proof.ProofValue = .ok signature)
    (hlen : signature.length = 65)
    (hrec : L.SigToPub hash signature = .ok pubKey)
    (hne : L.PubkeyToAddress pubKey ≠ address) :
    cs.VerifyDelegationClaim L claim expectedDelegatorDID = (false, none) := by
  subst hdid
  unfold ClaimSigner.VerifyDelegationClaim
  simp only [hproof, ne_eq, not_true_eq_false, if_false, haddr, hhash, hdec,
    verifySignatureAgainstAddress, hlen, hrec, hrt]
  simp [hne]

/-- C6: for every claim with a proof whose `DelegatorDID` equals the expected
identity (a well-formed DID or not), if the proof value is not a valid
hexadecimal string (`hex.DecodeString` fails) or decodes to a byte sequence
whose length is not 65, `VerifyDelegationClaim` returns `(false, error)` with a
non-nil error, never `(false, nil)`. -/
theorem VerifyDelegationClaim_malformed_signature (L : Lib) (cs : ClaimSigner)
    (claim : DelegationClaim) (expectedDelegatorDID : String) (proof : CredentialProof)
    (hproof : claim.Proof = some proof)
    (hdid : claim.DelegatorDID = expectedDelegatorDID)
    (hbad : (∃ err, L.hexDecodeString proof.ProofValue = .error err) ∨
      (∃ signature, L.hexDecodeString proof.ProofValue = .ok signature ∧
        signature.length ≠ 65)) :
    ∃ err, cs.VerifyDelegationClaim L claim expectedDelegatorDID = (false, some err) := by
  subst hdid
  unfold ClaimSigner.VerifyDelegationClaim
  simp only [hproof, ne_eq, not_true_eq_false, if_false]
  rcases hx : ExtractAddressFromDID L claim.DelegatorDID with ⟨address, _ | err⟩
  · rcases hh : hashDelegationClaimStruct L { claim with Proof := none } with ⟨hash, _ | err⟩
    · rcases hbad with ⟨err, hd⟩ | ⟨signature, hd, hlen⟩
      · exact ⟨"failed to decode signature: " ++ err, by simp only [hd]⟩
      · refine ⟨"invalid signature length: expected 65 bytes, got "
          ++ toString signature.length, ?_⟩
        simp only [hd, verifySignatureAgainstAddress, ne_eq, hlen, not_false_eq_true, if_true]
    · exact ⟨"failed to hash delegation claim: " ++ err, by simp only []⟩
  · exact ⟨"failed to extract address from delegator DID: " ++ err, by simp only []⟩

/-! ## Verification of a chain -/

/-- A claim verifies true only against its own delegator. -/
theorem VerifyDelegationClaim_true_delegator (L : Lib) (cs : ClaimSigner)
    (claim : DelegationClaim) (expectedDelegatorDID : String)
    (h : (cs.VerifyDelegationClaim L claim expectedDelegatorDID).1 = true) :
    claim.DelegatorDID = expectedDelegatorDID := by
  by_contra hne
  unfold ClaimSigner.VerifyDelegationClaim at h
  cases hp : claim.Proof with
  | none => rw [hp] at h; cases h
  | some proof =>
    rw [hp] at h
    simp only [ne_eq, hne, not_false_eq_true, if_true] at h
    cases h

/-- One round of the loop of `VerifyDelegationChain` at an index whose
predecessor is in range: continue when the verification at that index is
`(true, nil)`, return `false` with the failure text otherwise. -/
theorem VerifyDelegationChain.loop_cons (L : Lib) (cs : ClaimSigner)
    (all : List DelegationClaim) (i : Nat) (d : DelegationClaim) (rest : List DelegationClaim)
    (hin : i = 0 ∨ ∃ p, all[i - 1]? = some p) :
    VerifyDelegationChain.loop L cs all i (d :: rest) =
      if VerifyDelegationChain.hop L cs all i d = (true, none) then
        VerifyDelegationChain.loop L cs all (i + 1) rest
      else
        (false, some (VerifyDelegationChain.failure i (VerifyDelegationChain.hop L cs all i d)))
    := by
  have hstr : (": " ++ "invalid signature" : String) = ": invalid signature" := by decide
  rw [VerifyDelegationChain.loop]
  unfold VerifyDelegationChain.hop VerifyDelegationChain.failure
  by_cases hi : i = 0
  · subst hi
    simp only [if_true]
    rcases cs.VerifyDelegationClaim L d d.DelegatorDID with ⟨valid, _ | err⟩
    · cases valid
      · simp
        rfl
      · simp
    · simp
  · rcases hin with h0 | ⟨p, hp⟩
    · exact absurd h0 hi
    · simp only [hi, if_false, hp]
      rcases cs.VerifyDelegationClaim L d p.DelegateDID with ⟨valid, _ | err⟩
      · cases valid
        · simp [String.append_assoc, hstr]
        · simp
      · simp

/-- The loop of `VerifyDelegationChain`, started at index `pre.length` on the
suffix `rest` of `all = pre ++ rest`, either finds every verification from that
index on to be `(true, nil)` and returns `(true, nil)`, or stops at the first
index whose verification is anything else and returns `false` with the failure
text of that index. -/
theorem VerifyDelegationChain.loop_spec (L : Lib) (cs : ClaimSigner)
    (all : List DelegationClaim) :
    ∀ (rest pre : List DelegationClaim), all = pre ++ rest →
      (VerifyDelegationChain.loop L cs all pre.length rest = (true, none) ∧
        ∀ i d, pre.length ≤ i → all[i]? = some d →
          VerifyDelegationChain.hop L cs all i d = (true, none)) ∨
      (∃ i d, pre.length ≤ i ∧ all[i]? = some d ∧
        (∀ j c, pre.length ≤ j → j < i → all[j]? = some c →
          VerifyDelegationChain.hop L cs all j c = (true, none)) ∧
        VerifyDelegationChain.hop L cs all i d ≠ (true, none) ∧
        VerifyDelegationChain.loop L cs all pre.length rest =
          (false, some (VerifyDelegationChain.failure i
            (VerifyDelegationChain.hop L cs all i d)))) := by
  intro rest
  induction rest with
  | nil =>
    intro pre hall
    left
    refine ⟨rfl, ?_⟩
    intro i d hi hd
    rw [hall, List.append_nil, List.getElem?_eq_none hi] at hd
    cases hd
  | cons d rest ih =>
    intro pre hall
    have hall2 : all = (pre ++ [d]) ++ rest := by simp [hall]
    have hih := ih (pre ++ [d]) hall2
    have hlen : (pre ++ [d]).length = pre.length + 1 := by simp
    rw [hlen] at hih
    have hget : all[pre.length]? = some d := by
      rw [hall, List.getElem?_append_right (le_refl _)]; simp
    have hin : pre.length = 0 ∨ ∃ p, all[pre.length - 1]? = some p := by
      by_cases h0 : pre.length = 0
      · exact Or.inl h0
      · right
        have hlt : pre.length - 1 < all.length := by
          have : all.length = pre.length + (rest.length + 1) := by rw [hall]; simp
          omega
        exact ⟨all[pre.length - 1], List.getElem?_eq_getElem hlt⟩
    rw [VerifyDelegationChain.loop_cons L cs all pre.length d rest hin]
    by_cases hr : VerifyDelegationChain.hop L cs all pre.length d = (true, none)
    · rw [if_pos hr]
      rcases hih with ⟨hres, hall_ok⟩ | ⟨i, x, hi, hx, hmin, hbad, hres⟩
      · left
        refine ⟨hres, ?_⟩
        intro i x hi hx
        rcases Nat.eq_or_lt_of_le hi with heq | hlt
        · subst heq
          rw [hget] at hx
          cases hx
          exact hr
        · exact hall_ok i x hlt hx
      · right
        refine ⟨i, x, by omega, hx, ?_, hbad, hres⟩
        intro j c hj hji hc
        rcases Nat.eq_or_lt_of_le hj with heq | hlt
        · subst heq
          rw [hget] at hc
          cases hc
          exact hr
        · exact hmin j c hlt hji hc
    · rw [if_neg hr]
      right
      exact ⟨pre.length, d, le_refl _, hget, fun j c hj hji _ => absurd hj (by omega), hr, rfl⟩

/-- The loop lemma for the whole chain: `VerifyDelegationChain` on a non-empty
chain returns `(true, nil)` when every verification is `(true, nil)`, and
otherwise `false` with the failure text of the first index whose verification
is anything else. -/
theorem VerifyDelegationChain_spec (L : Lib) (cs : ClaimSigner) (chain : DelegationChain)
    (hne : chain.Delegations ≠ []) :
    (cs.VerifyDelegationChain L chain = (true, none) ∧
      ∀ i d, chain.Delegations[i]? = some d →
        VerifyDelegationChain.hop L cs chain.Delegations i d = (true, none)) ∨
    (∃ i d, chain.Delegations[i]? = some d ∧
      (∀ j c, j < i → chain.Delegations[j]? = some c →
        VerifyDelegationChain.hop L cs chain.Delegations j c = (true, none)) ∧
      VerifyDelegationChain.hop L cs chain.Delegations i d ≠ (true, none) ∧
      cs.VerifyDelegationChain L chain =
        (false, some (VerifyDelegationChain.failure i
          (VerifyDelegationChain.hop L cs chain.Delegations i d)))) := by
  have hlen : ¬ chain.Delegations.length = 0 := fun h => hne (List.length_eq_zero.mp h)
  unfold ClaimSigner.VerifyDelegationChain
  rw [if_neg hlen]
  rcases VerifyDelegationChain.loop_spec L cs chain.Delegations chain.Delegations [] (by simp)
    with ⟨hres, hok⟩ | ⟨i, d, _, hd, hmin, hbad, hres⟩
  · left
    exact ⟨hres, fun i d hd => hok i d (Nat.zero_le _) hd⟩
  · right
    exact ⟨i, d, hd, fun j c hji hc => hmin j c (Nat.zero_le _) hji hc, hbad, hres⟩

/-- The verification at index 0 is against the delegation's own delegator. -/
theorem VerifyDelegationChain.hop_zero (L : Lib) (cs : ClaimSigner)
    (all : List DelegationClaim) (d : DelegationClaim) :
    VerifyDelegationChain.hop L cs all 0 d = cs.VerifyDelegationClaim L d d.DelegatorDID := by
  simp [VerifyDelegationChain.hop]

/-- The verification at a later index is against the delegate of the
delegation before it. -/
theorem VerifyDelegationChain.hop_pos (L : Lib) (cs : ClaimSigner)
    (all : List DelegationClaim) (i : Nat) (p d : DelegationClaim) (hi : 0 < i)
    (hp : all[i - 1]? = some p) :
    VerifyDelegationChain.hop L cs all i d = cs.VerifyDelegationClaim L d p.DelegateDID := by
  have : i ≠ 0 := by omega
  simp [VerifyDelegationChain.hop, this, hp]

/-- In a list, the element before an element in range is in range. -/
theorem getElem?_pred_of_getElem? {α : Type} (l : List α) (i : Nat) (d : α)
    (hd : l[i]? = some d) : ∃ p, l[i - 1]? = some p := by
  have hlt : i < l.length := by
    by_contra h
    rw [List.getElem?_eq_none (by omega)] at hd
    cases hd
  exact ⟨l[i - 1], List.getElem?_eq_getElem (by omega)⟩

/-- C7 (as amended): when some hop's `VerifyDelegationClaim` returns false
without error, all earlier hops having verified true, `VerifyDelegationChain`
returns false together with a non-nil error, whose text ends in
`invalid signature` and names the hop. -/
theorem VerifyDelegationChain_hop_false (L : Lib) (cs : ClaimSigner) (chain : DelegationChain)
    (i : Nat) (d : DelegationClaim)
    (hd : chain.Delegations[i]? = some d)
    (hroot : ∀ r, 0 < i → chain.Delegations[0]? = some r →
      cs.VerifyDelegationClaim L r r.DelegatorDID = (true, none))
    (hearlier : ∀ j p c, 0 < j → j < i → chain.Delegations[j - 1]? = some p →
      chain.Delegations[j]? = some c → cs.VerifyDelegationClaim L c p.DelegateDID = (true, none))
    (hhop0 : i = 0 → cs.VerifyDelegationClaim L d d.DelegatorDID = (false, none))
    (hhop : ∀ p, 0 < i → chain.Delegations[i - 1]? = some p →
      cs.VerifyDelegationClaim L d p.DelegateDID = (false, none)) :
    cs.VerifyDelegationChain L chain =
      (false, some (if i = 0 then "failed to verify root delegation: invalid signature"
        else "failed to verify delegation " ++ toString i ++ ": invalid signature")) := by
  have hne : chain.Delegations ≠ [] := by
    intro h
    rw [h] at hd
    cases hd
  have hopi : VerifyDelegationChain.hop L cs chain.Delegations i d = (false, none) := by
    rcases Nat.eq_zero_or_pos i with h0 | hpos
    · subst h0
      rw [VerifyDelegationChain.hop_zero]
      exact hhop0 rfl
    · obtain ⟨p, hp⟩ := getElem?_pred_of_getElem? _ _ _ hd
      rw [VerifyDelegationChain.hop_pos L cs _ i p d hpos hp]
      exact hhop p hpos hp
  have hopj : ∀ j c, j < i → chain.Delegations[j]? = some c →
      VerifyDelegationChain.hop L cs chain.Delegations j c = (true, none) := by
    intro j c hji hc
    rcases Nat.eq_zero_or_pos j with h0 | hpos
    · subst h0
      rw [VerifyDelegationChain.hop_zero]
      exact hroot c hji hc
    · obtain ⟨p, hp⟩ := getElem?_pred_of_getElem? _ _ _ hc
      rw [VerifyDelegationChain.hop_pos L cs _ j p c hpos hp]
      exact hearlier j p c hpos hji hp hc
  have hstr0 : ("failed to verify root delegation: " ++ "invalid signature" : String)
      = "failed to verify root delegation: invalid signature" := by decide
  have hstr : (": " ++ "invalid signature" : String) = ": invalid signature" := by decide
  rcases VerifyDelegationChain_spec L cs chain hne with ⟨_, hok⟩ | ⟨k, x, hx, hmin, hbad, hres⟩
  · have := hok i d hd
    rw [hopi] at this
    cases this
  · rcases Nat.lt_trichotomy k i with hlt | heq | hgt
    · exact absurd (hopj k x hlt hx) hbad
    · subst heq
      rw [hd] at hx
      cases hx
      rw [hres, hopi]
      unfold VerifyDelegationChain.failure
      by_cases h0 : k = 0
      · simp only [h0, if_true, hstr0]
      · simp only [h0, if_false, String.append_assoc, hstr]
    · have := hmin i d hgt hd
      rw [hopi] at this
      cases this

/-- C8: for every chain, `VerifyDelegationChain` returns `(true, nil)` if and
only if the chain is non-empty, `VerifyDelegationClaim` returns `(true, nil)`
for delegation 0 against its own `DelegatorDID`, and for every `i > 0`
`VerifyDelegationClaim` returns `(true, nil)` for delegation `i` against the
`DelegateDID` of delegation `i-1`; in every other case it returns false
together with a non-nil error. -/
theorem VerifyDelegationChain_true_iff (L : Lib) (cs : ClaimSigner) (chain : DelegationChain) :
    (cs.VerifyDelegationChain L chain = (true, none) ↔
      chain.Delegations ≠ [] ∧
      (∀ d, chain.Delegations[0]? = some d →
        cs.VerifyDelegationClaim L d d.DelegatorDID = (true, none)) ∧
      (∀ i p d, 0 < i → chain.Delegations[i - 1]? = some p → chain.Delegations[i]? = some d →
        cs.VerifyDelegationClaim L d p.DelegateDID = (true, none))) ∧
    (cs.VerifyDelegationChain L chain ≠ (true, none) →
      ∃ err, cs.VerifyDelegationChain L chain = (false, some err)) := by
  by_cases hne : chain.Delegations = []
  · have hres : cs.VerifyDelegationChain L chain = (false, some "empty delegation chain") := by
      simp [ClaimSigner.VerifyDelegationChain, hne]
    rw [hres]
    exact ⟨⟨fun h => (by cases h), fun h => absurd hne h.1⟩, fun _ => ⟨_, rfl⟩⟩
  · rcases VerifyDelegationChain_spec L cs chain hne with ⟨hres, hok⟩ | ⟨k, x, hx, _, hbad, hres⟩
    · refine ⟨⟨fun _ => ⟨hne, ?_, ?_⟩, fun _ => hres⟩, fun h => absurd hres h⟩
      · intro d hd
        rw [← VerifyDelegationChain.hop_zero L cs chain.Delegations d]
        exact hok 0 d hd
      · intro i p d hi hp hd
        rw [← VerifyDelegationChain.hop_pos L cs chain.Delegations i p d hi hp]
        exact hok i d hd
    · refine ⟨⟨fun h => ?_, fun h => ?_⟩, fun _ => ⟨_, hres⟩⟩
      · rw [hres] at h
        cases h
      · exfalso
        apply hbad
        rcases Nat.eq_zero_or_pos k with h0 | hpos
        · subst h0
          rw [VerifyDelegationChain.hop_zero]
          exact h.2.1 x hx
        · obtain ⟨p, hp⟩ := getElem?_pred_of_getElem? _ _ _ hx
          rw [VerifyDelegationChain.hop_pos L cs _ k p x hpos hp]
          exact h.2.2 k p x hpos hp hx

/-- C9: for every chain on which `VerifyDelegationChain` returns true,
continuity holds at every hop: for every `i > 0` the `DelegatorDID` of
delegation `i` equals the `DelegateDID` of delegation `i-1`. -/
theorem VerifyDelegationChain_continuity (L : Lib) (cs : ClaimSigner) (chain : DelegationChain)
    (h : (cs.VerifyDelegationChain L chain).1 = true) :
    ∀ i p d, 0 < i → chain.Delegations[i - 1]? = some p → chain.Delegations[i]? = some d →
      d.DelegatorDID = p.DelegateDID := by
  have hne : chain.Delegations ≠ [] := by
    intro hnil
    simp [ClaimSigner.VerifyDelegationChain, hnil] at h
  intro i p d hi hp hd
  rcases VerifyDelegationChain_spec L cs chain hne with ⟨_, hok⟩ | ⟨k, x, _, _, _, hres⟩
  · have hv := hok i d hd
    rw [VerifyDelegationChain.hop_pos L cs _ i p d hi hp] at hv
    exact VerifyDelegationClaim_true_delegator L cs d p.DelegateDID (by rw [hv])
  · rw [hres] at h
    cases h

/-! ## Signing, then verifying -/

/-- The DID of a key resolves to the key's address, given the library facts
about that address. -/
theorem ExtractAddressFromDID_did (L : Lib) (a : Address) (h : L.AddressRoundTrip a) :
    ExtractAddressFromDID L ("did:ackid:" ++ L.AddressHex a) = (a, none) := by
  obtain ⟨hpre, hishex, hrt⟩ := h
  have hpre2 : HasPrefix ("did:ackid:" ++ L.AddressHex a) "did:ackid:0x" = true := by
    unfold HasPrefix at hpre ⊢
    have h1 : ("did:ackid:0x" : String).data = ("did:ackid:" : String).data ++ ("0x" : String).data := by
      decide
    rw [h1, String.data_append, List.isPrefixOf_iff_prefix, List.prefix_append_right_inj,
      ← List.isPrefixOf_iff_prefix]
    exact hpre
  have htrim : TrimPrefix ("did:ackid:" ++ L.AddressHex a) "did:ackid:" = L.AddressHex a := by
    have h2 : HasPrefix ("did:ackid:" ++ L.AddressHex a) "did:ackid:" = true := by
      unfold HasPrefix
      rw [String.data_append, List.isPrefixOf_iff_prefix]
      exact List.prefix_append _ _
    unfold TrimPrefix
    rw [if_pos h2, String.data_append, List.drop_left]
  unfold ExtractAddressFromDID
  simp only [hpre2, not_true_eq_false, if_false, htrim, hishex, hrt]

/-- The claim `SignDelegationClaim` produces when encoding and signing
succeed: the input claim with the proof attached. -/
theorem SignDelegationClaim_ok (L : Lib) (cs : ClaimSigner) (c : DelegationClaim)
    (created : String) (bytes sig : List Byte)
    (hmar : L.jsonMarshal { c with Proof := none } = .ok bytes)
    (hsig : L.Sign (L.Keccak256 bytes) cs.agentKey.PrivateKey = .ok sig) :
    cs.SignDelegationClaim L c created =
      ({ c with
          Proof := some
            { Type_ := "EcdsaSecp256k1Signature2019"
              Created := created
              VerificationMethod := cs.agentKey.DID ++ "#key-1"
              ProofPurpose := "assertionMethod"
              ProofValue := L.hexEncodeToString sig
              Challenge := ""
              Domain := { Name := "AgentID", Version := "1", ChainID := 1,
                          VerifyingContract := "" } } },
        none) := by
  simp only [ClaimSigner.SignDelegationClaim, ClaimSigner.hashDelegationClaim,
    hashDelegationClaimStruct, hmar, AgentKey.Sign, hsig]

/-- Verification of a claim that carries the proof value of a signature `sig`
by the key of `prv`, names that key's DID as delegator and has digest `hash`:
the result is whether `sig` recovers over `hash` to the key's address. -/
theorem VerifyDelegationClaim_signed (L : Lib) (cs : ClaimSigner) (prv : ECDSAPrivateKey)
    (m : DelegationClaim) (proof : CredentialProof) (bytes sig : List Byte)
    (pub : ECDSAPublicKey)
    (hproof : m.Proof = some proof)
    (hvalue : proof.ProofValue = L.hexEncodeToString sig)
    (hdid : m.DelegatorDID = (fromPrivateKey L prv).DID)
    (hmar : L.jsonMarshal { m with Proof := none } = .ok bytes)
    (haddr : L.AddressRoundTrip (fromPrivateKey L prv).Address)
    (hhex : L.HexRoundTrip)
    (hlen : sig.length = 65)
    (hrec : L.SigToPub (L.Keccak256 bytes) sig = .ok pub) :
    cs.VerifyDelegationClaim L m (fromPrivateKey L prv).DID =
      (decide (L.PubkeyToAddress pub = (fromPrivateKey L prv).Address), none) := by
  have hx := ExtractAddressFromDID_did L _ haddr
  have hrt := haddr.2.2
  have hdec : L.hexDecodeString proof.ProofValue = .ok sig := by rw [hvalue]; exact hhex sig
  unfold ClaimSigner.VerifyDelegationClaim
  simp only [hproof, hdid, ne_eq, not_true_eq_false, if_false]
  simp only [fromPrivateKey] at hx hrt hdid ⊢
  rw [hdid] at hmar
  simp only [hx, hashDelegationClaimStruct, hmar, hdec, verifySignatureAgainstAddress, hlen,
    ne_eq, not_true_eq_false, if_false, hrec, hrt]

/-- C2 (as amended): for every signing key and every delegation claim, if the
claim encodes and the key signs its digest, then `SignDelegationClaim`
succeeds; when the claim's `DelegatorDID` is the DID derived from the key's
public key, `VerifyDelegationClaim` on the signed claim with that DID returns
true with no error, and when the claim names another identity as delegator it
returns false with the identity-mismatch error.  The library facts used are
the round trips of address and hexadecimal strings and the recovery of the
signing key. -/
theorem sign_then_verify (L : Lib) (prv : ECDSAPrivateKey) (c : DelegationClaim)
    (created : String) (bytes sig : List Byte)
    (hmar : L.jsonMarshal { c with Proof := none } = .ok bytes)
    (hsig : L.Sign (L.Keccak256 bytes) prv = .ok sig)
    (haddr : L.AddressRoundTrip (fromPrivateKey L prv).Address)
    (hhex : L.HexRoundTrip)
    (hrec : L.SignRecovers prv) :
    (ClaimSigner.SignDelegationClaim L ⟨fromPrivateKey L prv⟩ c created).2 = none ∧
    (c.DelegatorDID = (fromPrivateKey L prv).DID →
      ClaimSigner.VerifyDelegationClaim L ⟨fromPrivateKey L prv⟩
        (ClaimSigner.SignDelegationClaim L ⟨fromPrivateKey L prv⟩ c created).1
        (fromPrivateKey L prv).DID = (true, none)) ∧
    (c.DelegatorDID ≠ (fromPrivateKey L prv).DID →
      ClaimSigner.VerifyDelegationClaim L ⟨fromPrivateKey L prv⟩
        (ClaimSigner.SignDelegationClaim L ⟨fromPrivateKey L prv⟩ c created).1
        (fromPrivateKey L prv).DID =
          (false, some ("claim delegator DID mismatch: expected " ++ (fromPrivateKey L prv).DID
            ++ ", got " ++ c.DelegatorDID))) := by
  have hs := SignDelegationClaim_ok L ⟨fromPrivateKey L prv⟩ c created bytes sig hmar hsig
  obtain ⟨hlen, hpub⟩ := hrec _ _ hsig
  refine ⟨by rw [hs], ?_, ?_⟩
  · intro hdid
    have hv := VerifyDelegationClaim_signed L ⟨fromPrivateKey L prv⟩ prv
      (ClaimSigner.SignDelegationClaim L ⟨fromPrivateKey L prv⟩ c created).1 _ bytes sig
      prv.PublicKey (by rw [hs]) rfl (by rw [hs]; exact hdid) (by rw [hs]; exact hmar) haddr
      hhex hlen hpub
    rw [hv]
    simp [fromPrivateKey]
  · intro hne
    rw [hs]
    unfold ClaimSigner.VerifyDelegationClaim
    simp only [ne_eq, hne, not_false_eq_true, if_true]

/-! ## Constraint narrowing -/

/-- The time block of `ValidateChainConstraints` falls through exactly when
the delegation keeps within the time window. -/
theorem ValidateChainConstraints.timeCheck_eq_none_iff (earliest latest : Int) (i : Nat)
    (d : DelegationClaim) :
    ValidateChainConstraints.timeCheck earliest latest i d = none ↔
      d.WithinTime earliest latest := by
  unfold ValidateChainConstraints.timeCheck DelegationClaim.WithinTime
  cases d.GetTimeConstraint with
  | none => simp
  | some tc =>
    simp only [Option.some.injEq, forall_eq']
    by_cases h1 : tc.ValidFrom < earliest
    · simp only [h1, if_true]
      constructor
      · intro h; cases h
      · intro h; omega
    · by_cases h2 : tc.ValidUntil > latest
      · simp only [h1, if_false, h2, if_true]
        constructor
        · intro h; cases h
        · intro h; omega
      · simp only [h1, if_false, h2]
        constructor
        · intro _; omega
        · intro _; trivial

/-- An error of the time block has the code `TIME_CONSTRAINT_VIOLATION` and a
message that names the index of the delegation. -/
theorem ValidateChainConstraints.timeCheck_eq_some (earliest latest : Int) (i : Nat)
    (d : DelegationClaim) (err : ChainError)
    (h : ValidateChainConstraints.timeCheck earliest latest i d = some err) :
    err.Code = "TIME_CONSTRAINT_VIOLATION" ∧
    (err.Message = "delegation " ++ toString i ++ " starts before chain start time" ∨
      err.Message = "delegation " ++ toString i ++ " ends after chain end time") := by
  unfold ValidateChainConstraints.timeCheck at h
  cases htc : d.GetTimeConstraint with
  | none => rw [htc] at h; cases h
  | some tc =>
    rw [htc] at h
    simp only at h
    by_cases h1 : tc.ValidFrom < earliest
    · rw [if_pos h1] at h
      cases h
      exact ⟨rfl, Or.inl rfl⟩
    · rw [if_neg h1] at h
      by_cases h2 : tc.ValidUntil > latest
      · rw [if_pos h2] at h
        cases h
        exact ⟨rfl, Or.inr rfl⟩
      · rw [if_neg h2] at h
        cases h

/-- The scope block of `ValidateChainConstraints` falls through exactly when
the delegation keeps within the scope sets. -/
theorem ValidateChainConstraints.scopeCheck_eq_none_iff (allowed denied : List String)
    (i : Nat) (d : DelegationClaim) :
    ValidateChainConstraints.scopeCheck allowed denied i d = none ↔
      d.WithinScope allowed denied := by
  unfold ValidateChainConstraints.scopeCheck DelegationClaim.WithinScope
  cases d.GetScopeConstraint with
  | none => simp
  | some sc =>
    simp only [Option.some.injEq, forall_eq']
    cases hA : sc.AllowedResources.find? (fun resource => decide (resource ∈ denied)) with
    | some r =>
      constructor
      · intro h; cases h
      · intro hall
        have hr := List.find?_some hA
        have hmem := List.mem_of_find?_eq_some hA
        exact absurd (by simpa using hr) (hall.1 r hmem)
    | none =>
      have hA2 : ∀ r ∈ sc.AllowedResources, r ∉ denied := by
        intro r hr
        have := List.find?_eq_none.mp hA r hr
        simpa using this
      cases hD : sc.DeniedResources.find? (fun resource => decide (resource ∈ allowed)) with
      | some r =>
        constructor
        · intro h; cases h
        · intro hall
          have hr := List.find?_some hD
          have hmem := List.mem_of_find?_eq_some hD
          exact absurd (by simpa using hr) (hall.2 r hmem)
      | none =>
        simp only [true_iff]
        refine ⟨hA2, ?_⟩
        intro r hr
        have := List.find?_eq_none.mp hD r hr
        simpa using this

/-- An error of the scope block has the code `SCOPE_CONSTRAINT_VIOLATION`. -/
theorem ValidateChainConstraints.scopeCheck_eq_some (allowed denied : List String) (i : Nat)
    (d : DelegationClaim) (err : ChainError)
    (h : ValidateChainConstraints.scopeCheck allowed denied i d = some err) :
    err.Code = "SCOPE_CONSTRAINT_VIOLATION" := by
  unfold ValidateChainConstraints.scopeCheck at h
  cases hsc : d.GetScopeConstraint with
  | none => rw [hsc] at h; cases h
  | some sc =>
    rw [hsc] at h
    simp only at h
    cases hA : sc.AllowedResources.find? (fun resource => decide (resource ∈ denied)) with
    | some r =>
      rw [hA] at h
      cases h
      rfl
    | none =>
      rw [hA] at h
      simp only at h
      cases hD : sc.DeniedResources.find? (fun resource => decide (resource ∈ allowed)) with
      | some r =>
        rw [hD] at h
        cases h
        rfl
      | none =>
        rw [hD] at h
        cases h

/-- The loop of `ValidateChainConstraints`, started at index `pre.length` on
the suffix `rest` of `all = pre ++ rest`, either finds every delegation after
the root within the time window and the scope sets and returns no error, or
stops at the first delegation after the root that is not and returns the error
of its time block, or of its scope block when the time block falls through. -/
theorem ValidateChainConstraints_loop_spec (earliest latest : Int)
    (allowed denied : List String) (all : List DelegationClaim) :
    ∀ (rest pre : List DelegationClaim), all = pre ++ rest →
      (ValidateChainConstraints.loop earliest latest allowed denied pre.length rest = none ∧
        ∀ (i : Nat) (d : DelegationClaim), pre.length ≤ i → 0 < i → all[i]? = some d →
          d.WithinTime earliest latest ∧ d.WithinScope allowed denied) ∨
      (∃ (i : Nat) (d : DelegationClaim) (err : ChainError),
        pre.length ≤ i ∧ 0 < i ∧ all[i]? = some d ∧
        (∀ (j : Nat) (c : DelegationClaim), pre.length ≤ j → 0 < j → j < i → all[j]? = some c →
          c.WithinTime earliest latest ∧ c.WithinScope allowed denied) ∧
        ValidateChainConstraints.loop earliest latest allowed denied pre.length rest = some err ∧
        (ValidateChainConstraints.timeCheck earliest latest i d = some err ∨
          (d.WithinTime earliest latest ∧
            ValidateChainConstraints.scopeCheck allowed denied i d = some err))) := by
  intro rest
  induction rest with
  | nil =>
    intro pre hall
    left
    refine ⟨rfl, ?_⟩
    intro i d hi _ hd
    rw [hall, List.append_nil, List.getElem?_eq_none hi] at hd
    cases hd
  | cons x rest ih =>
    intro pre hall
    have hall2 : all = (pre ++ [x]) ++ rest := by simp [hall]
    have hih := ih (pre ++ [x]) hall2
    have hlen : (pre ++ [x]).length = pre.length + 1 := by simp
    rw [hlen] at hih
    have hget : all[pre.length]? = some x := by
      rw [hall, List.getElem?_append_right (le_refl _)]; simp
    have hstate :
        (ValidateChainConstraints.loop earliest latest allowed denied pre.length (x :: rest)
            = ValidateChainConstraints.loop earliest latest allowed denied (pre.length + 1) rest ∧
          (0 < pre.length → x.WithinTime earliest latest ∧ x.WithinScope allowed denied)) ∨
        (0 < pre.length ∧ ∃ err,
          ValidateChainConstraints.loop earliest latest allowed denied pre.length (x :: rest)
            = some err ∧
          (ValidateChainConstraints.timeCheck earliest latest pre.length x = some err ∨
            (x.WithinTime earliest latest ∧
              ValidateChainConstraints.scopeCheck allowed denied pre.length x = some err))) := by
      by_cases h0 : pre.length = 0
      · left
        refine ⟨by rw [ValidateChainConstraints.loop, if_pos h0], fun hpos => ?_⟩
        omega
      · have hpos : 0 < pre.length := Nat.pos_of_ne_zero h0
        cases ht : ValidateChainConstraints.timeCheck earliest latest pre.length x with
        | some err =>
          right
          refine ⟨hpos, err, ?_, Or.inl rfl⟩
          rw [ValidateChainConstraints.loop, if_neg h0, ht]
        | none =>
          have hwt := (ValidateChainConstraints.timeCheck_eq_none_iff _ _ _ _).mp ht
          cases hs : ValidateChainConstraints.scopeCheck allowed denied pre.length x with
          | some err =>
            right
            refine ⟨hpos, err, ?_, Or.inr ⟨hwt, rfl⟩⟩
            rw [ValidateChainConstraints.loop, if_neg h0, ht]
            simp only [hs]
          | none =>
            have hws := (ValidateChainConstraints.scopeCheck_eq_none_iff _ _ _ _).mp hs
            left
            refine ⟨?_, fun _ => ⟨hwt, hws⟩⟩
            rw [ValidateChainConstraints.loop, if_neg h0, ht]
            simp only [hs]
    rcases hstate with ⟨hstep, hx⟩ | ⟨hpos, err, hres, herr⟩
    · rw [hstep]
      rcases hih with ⟨hres, hok⟩ | ⟨i, d, err, hi, hpos, hd, hmin, hres, herr⟩
      · left
        refine ⟨hres, ?_⟩
        intro i d hi hpos hd
        rcases Nat.eq_or_lt_of_le hi with heq | hlt
        · subst heq
          rw [hget] at hd
          cases hd
          exact hx hpos
        · exact hok i d hlt hpos hd
      · right
        refine ⟨i, d, err, by omega, hpos, hd, ?_, hres, herr⟩
        intro j c hj hjpos hji hc
        rcases Nat.eq_or_lt_of_le hj with heq | hlt
        · subst heq
          rw [hget] at hc
          cases hc
          exact hx hjpos
        · exact hmin j c hlt hjpos hji hc
    · right
      exact ⟨pre.length, x, err, le_refl _, hpos, hget,
        fun j c hj _ hji _ => absurd hj (by omega), hres, herr⟩

/-- The loop lemma for a whole chain with root `root`: `ValidateChainConstraints`
returns no error when every later delegation keeps within the time bounds and
the resources taken from the root, and otherwise the error of the first later
delegation that does not. -/
theorem ValidateChainConstraints_spec (chain : DelegationChain) (root : DelegationClaim)
    (hroot : chain.Delegations[0]? = some root) :
    (chain.ValidateChainConstraints = none ∧
      ∀ (i : Nat) (d : DelegationClaim), 0 < i → chain.Delegations[i]? = some d →
        d.WithinTime (ValidateChainConstraints.timeBounds root).1
          (ValidateChainConstraints.timeBounds root).2 ∧
        d.WithinScope (ValidateChainConstraints.resources root).1
          (ValidateChainConstraints.resources root).2) ∨
    (∃ (i : Nat) (d : DelegationClaim) (err : ChainError),
      0 < i ∧ chain.Delegations[i]? = some d ∧
      (∀ (j : Nat) (c : DelegationClaim), 0 < j → j < i → chain.Delegations[j]? = some c →
        c.WithinTime (ValidateChainConstraints.timeBounds root).1
          (ValidateChainConstraints.timeBounds root).2 ∧
        c.WithinScope (ValidateChainConstraints.resources root).1
          (ValidateChainConstraints.resources root).2) ∧
      chain.ValidateChainConstraints = some err ∧
      (ValidateChainConstraints.timeCheck (ValidateChainConstraints.timeBounds root).1
          (ValidateChainConstraints.timeBounds root).2 i d = some err ∨
        (d.WithinTime (ValidateChainConstraints.timeBounds root).1
            (ValidateChainConstraints.timeBounds root).2 ∧
          ValidateChainConstraints.scopeCheck (ValidateChainConstraints.resources root).1
            (ValidateChainConstraints.resources root).2 i d = some err))) := by
  have hlen : ¬ chain.Delegations.length = 0 := by
    intro h
    rw [List.length_eq_zero.mp h] at hroot
    cases hroot
  have hres : chain.ValidateChainConstraints =
      ValidateChainConstraints.loop (ValidateChainConstraints.timeBounds root).1
        (ValidateChainConstraints.timeBounds root).2
        (ValidateChainConstraints.resources root).1
        (ValidateChainConstraints.resources root).2 0 chain.Delegations := by
    unfold DelegationChain.ValidateChainConstraints DelegationChain.GetRootDelegation
    simp only [hlen, if_false, hroot]
  rw [hres]
  rcases ValidateChainConstraints_loop_spec (ValidateChainConstraints.timeBounds root).1
      (ValidateChainConstraints.timeBounds root).2 (ValidateChainConstraints.resources root).1
      (ValidateChainConstraints.resources root).2 chain.Delegations chain.Delegations []
      (by simp) with ⟨h1, h2⟩ | ⟨i, d, err, _, hpos, hd, hmin, hl, herr⟩
  · left
    exact ⟨h1, fun i d hpos hd => h2 i d (Nat.zero_le _) hpos hd⟩
  · right
    exact ⟨i, d, err, hpos, hd, fun j c hj hji hc => hmin j c (Nat.zero_le _) hj hji hc, hl,
      herr⟩

/-- A later delegation that does not keep within the bounds and resources
taken from the root makes `ValidateChainConstraints` return an error; when
every delegation between the root and it does keep within them, the error is
the one of its time block, or of its scope block when it keeps within the time
window. -/
theorem ValidateChainConstraints_first_failure (chain : DelegationChain)
    (root : DelegationClaim) (i : Nat) (d : DelegationClaim)
    (hroot : chain.Delegations[0]? = some root) (hi : 0 < i)
    (hd : chain.Delegations[i]? = some d)
    (hbad : ¬ (d.WithinTime (ValidateChainConstraints.timeBounds root).1
        (ValidateChainConstraints.timeBounds root).2 ∧
      d.WithinScope (ValidateChainConstraints.resources root).1
        (ValidateChainConstraints.resources root).2)) :
    (∃ err, chain.ValidateChainConstraints = some err) ∧
    ((∀ (j : Nat) (c : DelegationClaim), 0 < j → j < i → chain.Delegations[j]? = some c →
        c.WithinTime (ValidateChainConstraints.timeBounds root).1
          (ValidateChainConstraints.timeBounds root).2 ∧
        c.WithinScope (ValidateChainConstraints.resources root).1
          (ValidateChainConstraints.resources root).2) →
      ∃ err, chain.ValidateChainConstraints = some err ∧
        (ValidateChainConstraints.timeCheck (ValidateChainConstraints.timeBounds root).1
            (ValidateChainConstraints.timeBounds root).2 i d = some err ∨
          (d.WithinTime (ValidateChainConstraints.timeBounds root).1
              (ValidateChainConstraints.timeBounds root).2 ∧
            ValidateChainConstraints.scopeCheck (ValidateChainConstraints.resources root).1
              (ValidateChainConstraints.resources root).2 i d = some err))) := by
  rcases ValidateChainConstraints_spec chain root hroot with
    ⟨_, hok⟩ | ⟨k, x, err, hk, hx, hmin, hres, herr⟩
  · exact absurd (hok i d hi hd) hbad
  · refine ⟨⟨err, hres⟩, ?_⟩
    intro hearlier
    rcases Nat.lt_trichotomy k i with hlt | heq | hgt
    · exfalso
      obtain ⟨hwt, hws⟩ := hearlier k x hk hlt hx
      rcases herr with ht | ⟨_, hs⟩
      · have := (ValidateChainConstraints.timeCheck_eq_none_iff _ _ k x).mpr hwt
        rw [this] at ht
        cases ht
      · have := (ValidateChainConstraints.scopeCheck_eq_none_iff _ _ k x).mpr hws
        rw [this] at hs
        cases hs
    · subst heq
      rw [hd] at hx
      cases hx
      exact ⟨err, hres, herr⟩
    · exact absurd (hmin i d hi hgt hd) hbad

/-- C12 (as amended): on every chain on which `ValidateChain` returns true
there is a root, and when the root carries a time constraint,
`ValidateChainConstraints` returns no error if and only if every later
delegation keeps within the root's time window and within the root's scope
sets; `ValidateChain` itself does not check this. -/
theorem ValidateChain_true_constraints (chain : DelegationChain) (now : Int)
    (h : (chain.ValidateChain now).2 = true) :
    ∃ root, chain.Delegations[0]? = some root ∧
      ∀ rtc, root.GetTimeConstraint = some rtc →
        (chain.ValidateChainConstraints = none ↔
          ∀ (i : Nat) (d : DelegationClaim), 0 < i → chain.Delegations[i]? = some d →
            d.WithinTime rtc.ValidFrom rtc.ValidUntil ∧
            d.WithinScope (ValidateChainConstraints.resources root).1
              (ValidateChainConstraints.resources root).2) := by
  have hne : chain.Delegations ≠ [] := by
    intro hnil
    simp [DelegationChain.ValidateChain, hnil] at h
  obtain ⟨root, rest, hcons⟩ := List.exists_cons_of_ne_nil hne
  have hroot : chain.Delegations[0]? = some root := by rw [hcons]; simp
  refine ⟨root, hroot, ?_⟩
  intro rtc hrtc
  have hb : ValidateChainConstraints.timeBounds root = (rtc.ValidFrom, rtc.ValidUntil) := by
    simp [ValidateChainConstraints.timeBounds, hrtc]
  have hspec := ValidateChainConstraints_spec chain root hroot
  rw [hb] at hspec
  rcases hspec with ⟨hres, hok⟩ | ⟨k, x, err, hk, hx, _, hres, herr⟩
  · exact ⟨fun _ => hok, fun _ => hres⟩
  · constructor
    · intro hnone
      rw [hres] at hnone
      cases hnone
    · intro hall
      exfalso
      obtain ⟨hwt, hws⟩ := hall k x hk hx
      rcases herr with ht | ⟨_, hs⟩
      · have := (ValidateChainConstraints.timeCheck_eq_none_iff _ _ k x).mpr hwt
        rw [this] at ht
        cases ht
      · have := (ValidateChainConstraints.scopeCheck_eq_none_iff _ _ k x).mpr hws
        rw [this] at hs
        cases hs

/-- C14 (what the code does): when the root carries no time constraint, the
bounds are the zero values of their declarations, not absent: a second
delegation whose time constraint has a positive `valid_until` or a negative
`valid_from` makes `ValidateChainConstraints` return a
`TIME_CONSTRAINT_VIOLATION`. -/
theorem ValidateChainConstraints_root_without_time (chain : DelegationChain)
    (root d : DelegationClaim) (tc : TimeConstraint)
    (hroot : chain.Delegations[0]? = some root)
    (hrtc : root.GetTimeConstraint = none)
    (hd : chain.Delegations[1]? = some d)
    (htc : d.GetTimeConstraint = some tc)
    (hviol : tc.ValidUntil > 0 ∨ tc.ValidFrom < 0) :
    ∃ err, chain.ValidateChainConstraints = some err ∧
      err.Code = "TIME_CONSTRAINT_VIOLATION" := by
  have hb : ValidateChainConstraints.timeBounds root = (0, 0) := by
    simp [ValidateChainConstraints.timeBounds, hrtc]
  have hnot : ¬ d.WithinTime 0 0 := by
    intro hw
    have := hw tc htc
    omega
  have hff := ValidateChainConstraints_first_failure chain root 1 d hroot Nat.one_pos hd
    (by rw [hb]; exact fun hw => hnot hw.1)
  rw [hb] at hff
  obtain ⟨err, hres, herr⟩ := hff.2 (fun j c hj hj1 _ => absurd hj1 (by omega))
  rcases herr with ht | ⟨hw, _⟩
  · exact ⟨err, hres, (ValidateChainConstraints.timeCheck_eq_some _ _ 1 d err ht).1⟩
  · exact absurd hw hnot

/-- The scope half of C14: when the root carries no scope constraint,
`ValidateChainConstraints` never returns a `SCOPE_CONSTRAINT_VIOLATION`. -/
theorem ValidateChainConstraints_root_without_scope (chain : DelegationChain)
    (root : DelegationClaim) (err : ChainError)
    (hroot : chain.Delegations[0]? = some root)
    (hrsc : root.GetScopeConstraint = none)
    (herr : chain.ValidateChainConstraints = some err) :
    err.Code ≠ "SCOPE_CONSTRAINT_VIOLATION" := by
  have hr : ValidateChainConstraints.resources root = ([], []) := by
    simp [ValidateChainConstraints.resources, hrsc]
  have hspec := ValidateChainConstraints_spec chain root hroot
  rw [hr] at hspec
  rcases hspec with ⟨hres, _⟩ | ⟨k, x, e, _, _, _, hres, hk⟩
  · rw [hres] at herr
    cases herr
  · rw [hres] at herr
    cases herr
    rcases hk with ht | ⟨_, hs⟩
    · rw [(ValidateChainConstraints.timeCheck_eq_some _ _ k x _ ht).1]
      decide
    · have hws : x.WithinScope [] [] := by
        intro sc _
        exact ⟨fun r _ => List.not_mem_nil r, fun r _ => List.not_mem_nil r⟩
      have := (ValidateChainConstraints.scopeCheck_eq_none_iff [] [] k x).mpr hws
      rw [this] at hs
      cases hs

/-- C15: for every chain whose root carries a scope constraint, if some later
delegation's allowed resources contain a resource in the root's denied
resources, or its denied resources contain a resource in the root's allowed
resources, `ValidateChainConstraints` returns an error, with the code
`SCOPE_CONSTRAINT_VIOLATION` when no earlier check fails (the delegations
between the root and it keep within the bounds and resources, and it keeps
within the time bounds).  Conversely, when `ValidateChainConstraints` returns no
error, no later delegation's allowed set intersects the root's denied set and
no later delegation's denied set intersects the root's allowed set. -/
theorem ValidateChainConstraints_scope_violation (chain : DelegationChain)
    (root : DelegationClaim) (rsc : ScopeConstraint)
    (hroot : chain.Delegations[0]? = some root)
    (hrsc : root.GetScopeConstraint = some rsc) :
    (∀ (i : Nat) (d : DelegationClaim) (sc : ScopeConstraint),
      0 < i → chain.Delegations[i]? = some d → d.GetScopeConstraint = some sc →
      ((∃ r ∈ sc.AllowedResources, r ∈ rsc.DeniedResources) ∨
        (∃ r ∈ sc.DeniedResources, r ∈ rsc.AllowedResources)) →
      (∃ err, chain.ValidateChainConstraints = some err) ∧
      ((∀ (j : Nat) (c : DelegationClaim), 0 < j → j < i → chain.Delegations[j]? = some c →
          c.WithinTime (ValidateChainConstraints.timeBounds root).1
            (ValidateChainConstraints.timeBounds root).2 ∧
          c.WithinScope rsc.AllowedResources rsc.DeniedResources) →
        d.WithinTime (ValidateChainConstraints.timeBounds root).1
          (ValidateChainConstraints.timeBounds root).2 →
        ∃ err, chain.ValidateChainConstraints = some err ∧
          err.Code = "SCOPE_CONSTRAINT_VIOLATION")) ∧
    (chain.ValidateChainConstraints = none →
      ∀ (i : Nat) (d : DelegationClaim) (sc : ScopeConstraint),
        0 < i → chain.Delegations[i]? = some d → d.GetScopeConstraint = some sc →
        (∀ r ∈ sc.AllowedResources, r ∉ rsc.DeniedResources) ∧
        (∀ r ∈ sc.DeniedResources, r ∉ rsc.AllowedResources)) := by
  have hr : ValidateChainConstraints.resources root
      = (rsc.AllowedResources, rsc.DeniedResources) := by
    simp [ValidateChainConstraints.resources, hrsc]
  constructor
  · intro i d sc hi hd hsc hint
    have hnot : ¬ d.WithinScope rsc.AllowedResources rsc.DeniedResources := by
      intro hw
      obtain ⟨h1, h2⟩ := hw sc hsc
      rcases hint with ⟨r, hr1, hr2⟩ | ⟨r, hr1, hr2⟩
      · exact h1 r hr1 hr2
      · exact h2 r hr1 hr2
    have hff := ValidateChainConstraints_first_failure chain root i d hroot hi hd
      (by rw [hr]; exact fun hw => hnot hw.2)
    rw [hr] at hff
    refine ⟨hff.1, ?_⟩
    intro hearlier hwt
    obtain ⟨err, hres, herr⟩ := hff.2 hearlier
    rcases herr with ht | ⟨_, hs⟩
    · have := (ValidateChainConstraints.timeCheck_eq_none_iff _ _ i d).mpr hwt
      rw [this] at ht
      cases ht
    · exact ⟨err, hres, ValidateChainConstraints.scopeCheck_eq_some _ _ i d err hs⟩
  · intro hnone i d sc hi hd hsc
    have hspec := ValidateChainConstraints_spec chain root hroot
    rw [hr] at hspec
    rcases hspec with ⟨_, hok⟩ | ⟨_, _, err, _, _, _, hres, _⟩
    · exact (hok i d hi hd).2 sc hsc
    · rw [hres] at hnone
      cases hnone

/-! ## Revocation -/

/-- C17: a revocation record is in effect at time `now` if and only if
`now >= EffectiveAt` when `EffectiveAt` is set (non-zero), and if and only if
`now >= RevokedAt` when `EffectiveAt` is unset (zero). -/
theorem IsEffective_iff (rc : RevocationClaim) (now : Int) :
    (rc.EffectiveAt ≠ 0 → (rc.IsEffective now = true ↔ now ≥ rc.EffectiveAt)) ∧
    (rc.EffectiveAt = 0 → (rc.IsEffective now = true ↔ now ≥ rc.RevokedAt)) := by
  unfold RevocationClaim.IsEffective
  constructor
  · intro h
    simp [h]
  · intro h
    simp [h]

/-- The loop of `IsRevoked` returns a record exactly when that record is the
first of the list that matches the credential and is in effect. -/
theorem IsRevoked_loop_eq_some_iff (credentialID : String) (now : Int) (r : RevocationClaim) :
    ∀ l : List RevocationClaim,
      IsRevoked.loop credentialID now l = some r ↔
        ∃ i : Nat, l[i]? = some r ∧ r.RevokedCredentialID = credentialID ∧
          r.IsEffective now = true ∧
          ∀ (j : Nat) (c : RevocationClaim), j < i → l[j]? = some c →
            ¬ (c.RevokedCredentialID = credentialID ∧ c.IsEffective now = true) := by
  intro l
  induction l with
  | nil => simp [IsRevoked.loop]
  | cons x l ih =>
    unfold IsRevoked.loop
    by_cases hx : x.RevokedCredentialID = credentialID ∧ x.IsEffective now = true
    · rw [if_pos hx]
      constructor
      · intro h
        cases h
        exact ⟨0, List.getElem?_cons_zero, hx.1, hx.2, fun j c hj => absurd hj (Nat.not_lt_zero j)⟩
      · rintro ⟨i, hi, _, _, hmin⟩
        rcases Nat.eq_zero_or_pos i with h0 | hpos
        · subst h0
          simpa using hi
        · exact absurd hx (hmin 0 x hpos List.getElem?_cons_zero)
    · rw [if_neg hx, ih]
      constructor
      · rintro ⟨i, hi, h1, h2, hmin⟩
        refine ⟨i + 1, by simpa using hi, h1, h2, ?_⟩
        intro j c hj hc
        rcases Nat.eq_zero_or_pos j with h0 | hpos
        · subst h0
          simp only [List.getElem?_cons_zero, Option.some.injEq] at hc
          subst hc
          exact hx
        · obtain ⟨k, rfl⟩ : ∃ k, j = k + 1 := ⟨j - 1, by omega⟩
          exact hmin k c (by omega) (by simpa using hc)
      · rintro ⟨i, hi, h1, h2, hmin⟩
        rcases Nat.eq_zero_or_pos i with h0 | hpos
        · subst h0
          simp only [List.getElem?_cons_zero, Option.some.injEq] at hi
          subst hi
          exact absurd ⟨h1, h2⟩ hx
        · obtain ⟨k, rfl⟩ : ∃ k, i = k + 1 := ⟨i - 1, by omega⟩
          refine ⟨k, by simpa using hi, h1, h2, ?_⟩
          intro j c hj hc
          exact hmin (j + 1) c (by omega) (by simpa using hc)

/-- The loop of `IsRevoked` returns nothing exactly when no record of the
list both matches the credential and is in effect. -/
theorem IsRevoked_loop_eq_none_iff (credentialID : String) (now : Int) :
    ∀ l : List RevocationClaim,
      IsRevoked.loop credentialID now l = none ↔
        ∀ c ∈ l, ¬ (c.RevokedCredentialID = credentialID ∧ c.IsEffective now = true) := by
  intro l
  induction l with
  | nil => simp [IsRevoked.loop]
  | cons x l ih =>
    unfold IsRevoked.loop
    by_cases hx : x.RevokedCredentialID = credentialID ∧ x.IsEffective now = true
    · rw [if_pos hx]
      constructor
      · intro h
        cases h
      · intro h
        exact absurd hx (h x (List.mem_cons_self _ _))
    · rw [if_neg hx, ih]
      constructor
      · intro h c hc
        rcases List.mem_cons.mp hc with rfl | hc
        · exact hx
        · exact h c hc
      · intro h c hc
        exact h c (List.mem_cons_of_mem _ hc)

/-- C16: for every revocation list and credential id, `IsRevoked` returns the
first record in list order whose `RevokedCredentialID` equals the id and that
is in effect at the current time, and returns none exactly when no record both
matches the id and is in effect; a matching record that is not in effect is
skipped. -/
theorem IsRevoked_first (rl : RevocationList) (credentialID : String) (now : Int) :
    (∀ r, rl.IsRevoked credentialID now = some r ↔
      ∃ i : Nat, rl.Revocations[i]? = some r ∧ r.RevokedCredentialID = credentialID ∧
        r.IsEffective now = true ∧
        ∀ (j : Nat) (c : RevocationClaim), j < i → rl.Revocations[j]? = some c →
          ¬ (c.RevokedCredentialID = credentialID ∧ c.IsEffective now = true)) ∧
    (rl.IsRevoked credentialID now = none ↔
      ∀ c ∈ rl.Revocations,
        ¬ (c.RevokedCredentialID = credentialID ∧ c.IsEffective now = true)) :=
  ⟨fun r => IsRevoked_loop_eq_some_iff credentialID now r rl.Revocations,
   IsRevoked_loop_eq_none_iff credentialID now rl.Revocations⟩

/-- C19: `AddRevocation` is append-only: after the call the revocations are
exactly the previous ones followed by the new record (the length grows by one,
every earlier record is unchanged and at the same position, the new record is
last), `LastUpdated` equals the current time, and `ListID`, `IssuerDID` and
the other fields are unchanged. -/
theorem AddRevocation_append (rl : RevocationList) (revocation : RevocationClaim) (now : Int) :
    (rl.AddRevocation revocation now).Revocations = rl.Revocations ++ [revocation] ∧
    (rl.AddRevocation revocation now).Revocations.length = rl.Revocations.length + 1 ∧
    (∀ (i : Nat) (r : RevocationClaim), rl.Revocations[i]? = some r →
      (rl.AddRevocation revocation now).Revocations[i]? = some r) ∧
    (rl.AddRevocation revocation now).Revocations[rl.Revocations.length]? = some revocation ∧
    (rl.AddRevocation revocation now).LastUpdated = now ∧
    (rl.AddRevocation revocation now).ListID = rl.ListID ∧
    (rl.AddRevocation revocation now).IssuerDID = rl.IssuerDID ∧
    (rl.AddRevocation revocation now).Type_ = rl.Type_ ∧
    (rl.AddRevocation revocation now).Context = rl.Context ∧
    (rl.AddRevocation revocation now).Proof = rl.Proof := by
  refine ⟨rfl, by simp [RevocationList.AddRevocation], ?_, ?_, rfl, rfl, rfl, rfl, rfl, rfl⟩
  · intro i r hr
    have hlt : i < rl.Revocations.length := by
      by_contra h
      rw [List.getElem?_eq_none (by omega)] at hr
      cases hr
    simp only [RevocationList.AddRevocation]
    rw [List.getElem?_append_left hlt]
    exact hr
  · simp only [RevocationList.AddRevocation]
    rw [List.getElem?_append_right (le_refl _)]
    simp

/-- The loop of `IsAgentRevoked` appends to the slice built so far the records
that name the agent and are in effect, in order. -/
theorem IsAgentRevoked_loop_eq (agentDID : String) (now : Int) :
    ∀ (l acc : List RevocationClaim),
      IsAgentRevoked.loop agentDID now acc l =
        acc ++ l.filter (fun r => decide (r.RevokedAgentDID = agentDID) && r.IsEffective now) := by
  intro l
  induction l with
  | nil => intro acc; simp [IsAgentRevoked.loop]
  | cons x l ih =>
    intro acc
    unfold IsAgentRevoked.loop
    by_cases hx : x.RevokedAgentDID = agentDID ∧ x.IsEffective now = true
    · rw [if_pos hx, ih]
      have : (decide (x.RevokedAgentDID = agentDID) && x.IsEffective now) = true := by
        simp [hx.1, hx.2]
      rw [List.filter_cons, if_pos this]
      simp
    · rw [if_neg hx, ih]
      have : ¬ (decide (x.RevokedAgentDID = agentDID) && x.IsEffective now) = true := by
        simpa using hx
      rw [List.filter_cons, if_neg this]

/-- C20: for every revocation list and agent id, `IsAgentRevoked` returns
exactly the sub-sequence of the list's records whose `RevokedAgentDID` equals
the agent id and that are in effect at the current time, in list order: the
list filtered by that condition, so no record is omitted or duplicated. -/
theorem IsAgentRevoked_filter (rl : RevocationList) (agentDID : String) (now : Int) :
    rl.IsAgentRevoked agentDID now =
      rl.Revocations.filter
        (fun r => decide (r.RevokedAgentDID = agentDID) && r.IsEffective now) ∧
    List.Sublist (rl.IsAgentRevoked agentDID now) rl.Revocations ∧
    (∀ r, r ∈ rl.IsAgentRevoked agentDID now ↔
      r ∈ rl.Revocations ∧ r.RevokedAgentDID = agentDID ∧ r.IsEffective now = true) := by
  have h : rl.IsAgentRevoked agentDID now =
      rl.Revocations.filter
        (fun r => decide (r.RevokedAgentDID = agentDID) && r.IsEffective now) := by
    unfold RevocationList.IsAgentRevoked
    rw [IsAgentRevoked_loop_eq]
    simp
  refine ⟨h, ?_, ?_⟩
  · rw [h]
    exact List.filter_sublist _
  · intro r
    rw [h]
    simp [List.mem_filter]

/-- On a list without a record for the credential, followed by one record,
the loop of `IsRevoked` returns that record when it matches the credential and
is in effect, and nothing otherwise. -/
theorem IsRevoked_loop_append_fresh (credentialID : String) (t : Int) (r : RevocationClaim) :
    ∀ l : List RevocationClaim, (∀ c ∈ l, c.RevokedCredentialID ≠ credentialID) →
      IsRevoked.loop credentialID t (l ++ [r]) =
        if r.RevokedCredentialID = credentialID ∧ r.IsEffective t = true then some r
        else none := by
  intro l
  induction l with
  | nil =>
    intro _
    simp only [List.nil_append, IsRevoked.loop]
  | cons x l ih =>
    intro hno
    have hx : ¬ (x.RevokedCredentialID = credentialID ∧ x.IsEffective t = true) :=
      fun h => hno x (List.mem_cons_self _ _) h.1
    rw [List.cons_append, IsRevoked.loop, if_neg hx]
    exact ih (fun c hc => hno c (List.mem_cons_of_mem _ hc))

/-- C18 (as amended): for every revocation list holding no earlier record for
credential id `x` and every clock value `now`: after appending a record for `x`
with `EffectiveAt = now - 1`, `IsRevoked(x)` evaluated at time `now` returns
that record, provided `now - 1` is not 0; after appending a record for `x` with
`EffectiveAt = now + 3600`, `IsRevoked(x)` returns none at every time
`t < now + 3600` and that record at every time `t >= now + 3600`, provided
`now + 3600` is not 0. -/
theorem IsRevoked_after_append (rl : RevocationList) (x : String) (now : Int)
    (r : RevocationClaim)
    (hno : ∀ c ∈ rl.Revocations, c.RevokedCredentialID ≠ x)
    (hx : r.RevokedCredentialID = x) :
    (r.EffectiveAt = now - 1 → now - 1 ≠ 0 →
      (rl.AddRevocation r now).IsRevoked x now = some r) ∧
    (r.EffectiveAt = now + 3600 → now + 3600 ≠ 0 →
      (∀ t, t < now + 3600 → (rl.AddRevocation r now).IsRevoked x t = none) ∧
      (∀ t, t ≥ now + 3600 → (rl.AddRevocation r now).IsRevoked x t = some r)) := by
  have hloop : ∀ t, (rl.AddRevocation r now).IsRevoked x t =
      if r.RevokedCredentialID = x ∧ r.IsEffective t = true then some r else none := by
    intro t
    exact IsRevoked_loop_append_fresh x t r rl.Revocations hno
  constructor
  · intro he hne
    have heff : r.IsEffective now = true := by
      unfold RevocationClaim.IsEffective
      rw [he, if_neg hne]
      simp
    rw [hloop, if_pos ⟨hx, heff⟩]
  · intro he hne
    constructor
    · intro t ht
      have heff : ¬ r.IsEffective t = true := by
        unfold RevocationClaim.IsEffective
        rw [he, if_neg hne]
        simp only [ge_iff_le, decide_eq_true_eq]
        omega
      rw [hloop, if_neg (fun h => heff h.2)]
    · intro t ht
      have heff : r.IsEffective t = true := by
        unfold RevocationClaim.IsEffective
        rw [he, if_neg hne]
        simp only [ge_iff_le, decide_eq_true_eq]
        omega
      rw [hloop, if_pos ⟨hx, heff⟩]

/-- The loop of `GetRevocationsSince` appends to the slice built so far the
records revoked at or after `since`, in order. -/
theorem GetRevocationsSince_loop_eq (since : Int) :
    ∀ (l acc : List RevocationClaim),
      GetRevocationsSince.loop since acc l =
        acc ++ l.filter (fun r => decide (r.RevokedAt ≥ since)) := by
  intro l
  induction l with
  | nil => intro acc; simp [GetRevocationsSince.loop]
  | cons x l ih =>
    intro acc
    unfold GetRevocationsSince.loop
    by_cases hx : x.RevokedAt ≥ since
    · rw [if_pos hx, ih]
      have : decide (x.RevokedAt ≥ since) = true := by simpa using hx
      rw [List.filter_cons, if_pos this]
      simp
    · rw [if_neg hx, ih]
      have : ¬ decide (x.RevokedAt ≥ since) = true := by simpa using hx
      rw [List.filter_cons, if_neg this]

/-- C21: for every revocation list and timestamp `s`, `GetRevocationsSince(s)`
returns exactly the sub-sequence of records with `RevokedAt >= s`, in
insertion order: the list filtered by that condition alone, so a record is
returned whether or not it is in effect at any clock value. -/
theorem GetRevocationsSince_filter (rl : RevocationList) (since : Int) :
    rl.GetRevocationsSince since =
      rl.Revocations.filter (fun r => decide (r.RevokedAt ≥ since)) ∧
    List.Sublist (rl.GetRevocationsSince since) rl.Revocations ∧
    (∀ r, r ∈ rl.GetRevocationsSince since ↔ r ∈ rl.Revocations ∧ r.RevokedAt ≥ since) ∧
    (∀ r now, r ∈ rl.Revocations → r.RevokedAt ≥ since → r.IsEffective now = false →
      r ∈ rl.GetRevocationsSince since) := by
  have h : rl.GetRevocationsSince since =
      rl.Revocations.filter (fun r => decide (r.RevokedAt ≥ since)) := by
    unfold RevocationList.GetRevocationsSince
    rw [GetRevocationsSince_loop_eq]
    simp
  have hmem : ∀ r, r ∈ rl.GetRevocationsSince since ↔
      r ∈ rl.Revocations ∧ r.RevokedAt ≥ since := by
    intro r
    rw [h]
    simp [List.mem_filter]
  refine ⟨h, ?_, hmem, fun r _ hr hs _ => (hmem r).mpr ⟨hr, hs⟩⟩
  rw [h]
  exact List.filter_sublist _

/-! ## Expiry, accessors and frame properties -/

/-- C22: a delegation with `ExpiresAt = 0` is never expired, at any clock
value; a delegation with `ExpiresAt != 0` is expired if and only if
`now > ExpiresAt`, so it is still unexpired at `now = ExpiresAt`. -/
theorem IsExpired_iff (dc : DelegationClaim) :
    (dc.ExpiresAt = 0 → ∀ now, dc.IsExpired now = false) ∧
    (dc.ExpiresAt ≠ 0 → ∀ now, (dc.IsExpired now = true ↔ now > dc.ExpiresAt)) ∧
    dc.IsExpired dc.ExpiresAt = false := by
  unfold DelegationClaim.IsExpired
  refine ⟨?_, ?_, ?_⟩
  · intro h now
    simp [h]
  · intro h now
    simp [h]
  · by_cases h : dc.ExpiresAt = 0
    · simp [h]
    · simp [h]

/-- C30: on every non-empty chain `GetRootDelegation` returns `Delegations[0]`
and `GetLeafDelegation` returns `Delegations[len-1]`, the same claim when the
chain has one element; on an empty chain both return no claim. -/
theorem GetRootDelegation_GetLeafDelegation (chain : DelegationChain) :
    (chain.Delegations ≠ [] →
      ∃ root leaf, chain.Delegations[0]? = some root ∧
        chain.Delegations[chain.Delegations.length - 1]? = some leaf ∧
        chain.GetRootDelegation = some root ∧ chain.GetLeafDelegation = some leaf) ∧
    (∀ d, chain.Delegations = [d] →
      chain.GetRootDelegation = some d ∧ chain.GetLeafDelegation = some d) ∧
    (chain.Delegations = [] →
      chain.GetRootDelegation = none ∧ chain.GetLeafDelegation = none) := by
  unfold DelegationChain.GetRootDelegation DelegationChain.GetLeafDelegation
  refine ⟨?_, ?_, ?_⟩
  · intro hne
    have hlen : ¬ chain.Delegations.length = 0 := fun h => hne (List.length_eq_zero.mp h)
    have h0 : 0 < chain.Delegations.length := Nat.pos_of_ne_zero hlen
    have h1 : chain.Delegations.length - 1 < chain.Delegations.length := by omega
    refine ⟨chain.Delegations[0], chain.Delegations[chain.Delegations.length - 1],
      List.getElem?_eq_getElem h0, List.getElem?_eq_getElem h1, ?_, ?_⟩
    · rw [if_neg hlen]
      exact List.getElem?_eq_getElem h0
    · rw [if_neg hlen]
      exact List.getElem?_eq_getElem h1
  · intro d hd
    simp [hd]
  · intro hnil
    simp [hnil]

/-- C23: the digest of a claim does not depend on its proof: for every claim
`c` and every proof `p`, `hashDelegationClaim` of `c` with `Proof = p` equals
`hashDelegationClaim` of `c` with `Proof` absent, and computing the digest
leaves the claim, its `Proof` field included, unchanged. -/
theorem hashDelegationClaim_ignores_proof (L : Lib) (cs : ClaimSigner) (c : DelegationClaim)
    (p : CredentialProof) :
    cs.hashDelegationClaim L { c with Proof := some p }
      = cs.hashDelegationClaim L { c with Proof := none } ∧
    (cs.hashDelegationClaimState L { c with Proof := some p }).1.Proof = some p ∧
    (cs.hashDelegationClaimState L c).1 = c ∧
    (cs.hashDelegationClaimState L c).2 = cs.hashDelegationClaim L c :=
  ⟨rfl, rfl, rfl, rfl⟩

/-- C26: `SignDelegationClaim` changes only the claim's `Proof` field: every
other field of the claim is the same after the call as before, whether signing
succeeds or not; and when signing fails the claim, its `Proof` included, is
unchanged. -/
theorem SignDelegationClaim_frame (L : Lib) (cs : ClaimSigner) (c : DelegationClaim)
    (created : String) :
    (cs.SignDelegationClaim L c created).1.EqExceptProof c ∧
    ((cs.SignDelegationClaim L c created).2 ≠ none →
      (cs.SignDelegationClaim L c created).1 = c) := by
  rcases h1 : cs.hashDelegationClaim L c with ⟨hash, _ | err⟩
  · rcases h2 : cs.agentKey.Sign L hash with ⟨signature, _ | err⟩
    · simp [ClaimSigner.SignDelegationClaim, h1, h2, DelegationClaim.EqExceptProof]
    · simp [ClaimSigner.SignDelegationClaim, h1, h2, DelegationClaim.EqExceptProof]
  · simp [ClaimSigner.SignDelegationClaim, h1, DelegationClaim.EqExceptProof]

/-- C27: for every claim and key for which `SignDelegationClaim` succeeds, the
claim encodes, the key signs the proof-free digest, and the attached proof has
`Type` `EcdsaSecp256k1Signature2019`, `ProofPurpose` `assertionMethod`,
`VerificationMethod` equal to the signer's DID followed by `#key-1`, and a
`ProofValue` that is the hexadecimal encoding of that signature, non-empty and
decoding back to it.  The last two rest on library facts: the hexadecimal
round trip, the decoding of the empty string, and the 65 bytes of a signature. -/
theorem SignDelegationClaim_proof (L : Lib) (cs : ClaimSigner) (c : DelegationClaim)
    (created : String)
    (hok : (cs.SignDelegationClaim L c created).2 = none)
    (hhex : L.HexRoundTrip)
    (hempty : L.hexDecodeString "" = .ok [])
    (hlen : ∀ hash sig, L.Sign hash cs.agentKey.PrivateKey = .ok sig → sig.length = 65) :
    ∃ bytes sig proof,
      L.jsonMarshal { c with Proof := none } = .ok bytes ∧
      L.Sign (L.Keccak256 bytes) cs.agentKey.PrivateKey = .ok sig ∧
      (cs.SignDelegationClaim L c created).1.Proof = some proof ∧
      proof.Type_ = "EcdsaSecp256k1Signature2019" ∧
      proof.ProofPurpose = "assertionMethod" ∧
      proof.VerificationMethod = cs.agentKey.DID ++ "#key-1" ∧
      proof.ProofValue = L.hexEncodeToString sig ∧
      proof.ProofValue ≠ "" ∧
      L.hexDecodeString proof.ProofValue = .ok sig := by
  cases hmar : L.jsonMarshal { c with Proof := none } with
  | error err =>
    simp [ClaimSigner.SignDelegationClaim, ClaimSigner.hashDelegationClaim,
      hashDelegationClaimStruct, hmar] at hok
  | ok bytes =>
    cases hsig : L.Sign (L.Keccak256 bytes) cs.agentKey.PrivateKey with
    | error err =>
      simp [ClaimSigner.SignDelegationClaim, ClaimSigner.hashDelegationClaim,
        hashDelegationClaimStruct, hmar, AgentKey.Sign, hsig] at hok
    | ok sig =>
      have hs := SignDelegationClaim_ok L cs c created bytes sig hmar hsig
      have hne : L.hexEncodeToString sig ≠ "" := by
        intro h
        have h1 := hhex sig
        rw [h, hempty] at h1
        have h2 : sig = [] := by
          cases h1
          rfl
        have h3 := hlen _ _ hsig
        rw [h2] at h3
        cases h3
      refine ⟨bytes, sig, _, rfl, hsig, by rw [hs], rfl, rfl, rfl, rfl, hne, hhex sig⟩

/-- The characters of a string with the prefix `did:ackid:0x`. -/
theorem HasPrefix_did_iff (did : String) :
    HasPrefix did "did:ackid:0x" = true ↔
      ∃ rest : List Char, did = "did:ackid:0x" ++ String.mk rest := by
  unfold HasPrefix
  rw [List.isPrefixOf_iff_prefix]
  constructor
  · rintro ⟨rest, h⟩
    refine ⟨rest, ?_⟩
    apply String.ext
    rw [String.data_append, ← h]
  · rintro ⟨rest, h⟩
    refine ⟨rest, ?_⟩
    rw [h, String.data_append]

/-- After its scheme is trimmed, a DID with the prefix `did:ackid:0x` starts
with `0x`. -/
theorem TrimPrefix_did (rest : List Char) :
    TrimPrefix ("did:ackid:0x" ++ String.mk rest) "did:ackid:" = String.mk ('0' :: 'x' :: rest) := by
  have hdata : ("did:ackid:0x" ++ String.mk rest).data
      = ("did:ackid:" : String).data ++ ('0' :: 'x' :: rest) := by
    rw [String.data_append]
    rfl
  have h2 : HasPrefix ("did:ackid:0x" ++ String.mk rest) "did:ackid:" = true := by
    unfold HasPrefix
    rw [hdata, List.isPrefixOf_iff_prefix]
    exact List.prefix_append _ _
  unfold TrimPrefix
  rw [if_pos h2, hdata, List.drop_left]

/-- C28: with the `IsHexAddress` of go-ethereum, `ExtractAddressFromDID`
succeeds if and only if the identity string is the prefix `did:ackid:0x`
followed by exactly 40 hexadecimal digits; for every other string it fails
with an error and returns the zero address. -/
theorem ExtractAddressFromDID_succeeds_iff (L : Lib)
    (hlib : ∀ s, L.IsHexAddress s = isHexAddress s.data) (did : String) :
    ((ExtractAddressFromDID L did).2 = none ↔
      ∃ digits : List Char, did = "did:ackid:0x" ++ String.mk digits ∧ digits.length = 40 ∧
        ∀ c ∈ digits, (fromHexChar c).isSome = true) ∧
    ((ExtractAddressFromDID L did).2 ≠ none →
      (ExtractAddressFromDID L did).1 = zeroAddress) := by
  unfold ExtractAddressFromDID
  by_cases hpre : HasPrefix did "did:ackid:0x" = true
  · obtain ⟨rest, hrest⟩ := (HasPrefix_did_iff did).mp hpre
    have hhex : L.IsHexAddress (TrimPrefix did "did:ackid:")
        = (decide (rest.length = 40) && rest.all (fun c => (fromHexChar c).isSome)) := by
      rw [hrest, TrimPrefix_did, hlib]
      rfl
    simp only [hpre, not_true_eq_false, if_false]
    by_cases hok : L.IsHexAddress (TrimPrefix did "did:ackid:") = true
    · simp only [hok, not_true_eq_false, if_false, true_iff, ne_eq, not_true_eq_false,
        false_implies, and_true]
      rw [hhex] at hok
      simp only [Bool.and_eq_true, decide_eq_true_eq, List.all_eq_true] at hok
      exact ⟨rest, hrest, hok.1, hok.2⟩
    · simp only [hok, Bool.false_eq_true, not_false_eq_true, if_true]
      refine ⟨?_, fun _ => trivial⟩
      constructor
      · intro h; cases h
      · rintro ⟨digits, hd, hlen, hall⟩
        exfalso
        apply hok
        have hdr : rest = digits := by
          have := congrArg String.data (hrest.symm.trans hd)
          simpa [String.data_append] using this
        rw [hhex, hdr]
        simp only [Bool.and_eq_true, decide_eq_true_eq, List.all_eq_true]
        exact ⟨hlen, hall⟩
  · simp only [hpre, Bool.false_eq_true, not_false_eq_true, if_true]
    refine ⟨?_, fun _ => trivial⟩
    constructor
    · intro h; cases h
    · rintro ⟨digits, hd, _, _⟩
      exact absurd ((HasPrefix_did_iff did).mpr ⟨digits, hd⟩) hpre

/-- C29: for every agent key built from a private key, the address is the
address of the public key and the DID is `did:ackid:` followed by the
hexadecimal form of that address; given the library facts about the address
(its hexadecimal form starts with `0x`, is a hex address and reads back), the
DID starts with `did:ackid:0x` and `ExtractAddressFromDID` applied to it
succeeds and returns exactly the key's address. -/
theorem fromPrivateKey_did (L : Lib) (prv : ECDSAPrivateKey) :
    (fromPrivateKey L prv).Address = L.PubkeyToAddress prv.PublicKey ∧
    (fromPrivateKey L prv).DID = "did:ackid:" ++ L.AddressHex (fromPrivateKey L prv).Address ∧
    (L.AddressRoundTrip (fromPrivateKey L prv).Address →
      HasPrefix (fromPrivateKey L prv).DID "did:ackid:0x" = true ∧
      ExtractAddressFromDID L (fromPrivateKey L prv).DID
        = ((fromPrivateKey L prv).Address, none)) := by
  refine ⟨rfl, rfl, ?_⟩
  intro h
  have hx := ExtractAddressFromDID_did L _ h
  refine ⟨?_, hx⟩
  by_contra hpre
  have : (ExtractAddressFromDID L (fromPrivateKey L prv).DID).2 ≠ none := by
    unfold ExtractAddressFromDID
    simp only [hpre, not_false_eq_true, if_true, ne_eq, reduceCtorEq]
  apply this
  show (ExtractAddressFromDID L ("did:ackid:" ++ L.AddressHex (fromPrivateKey L prv).Address)).2
    = none
  rw [hx]

/-! ## The digest -/

/-- The entries of a map with their values encoded, as a `List.map`. -/
theorem jsonEntries_eq_map (es : List (String × Value)) :
    jsonEntries es = es.map (fun e => (e.1, jsonValue e.2)) := by
  induction es with
  | nil => rfl
  | cons e es ih =>
    obtain ⟨k, v⟩ := e
    simp only [jsonEntries, List.map_cons, ih]

/-- Whether every value of a map is encoded, as a `List.all`. -/
theorem jsonSupportedEntries_eq_all (es : List (String × Value)) :
    jsonSupportedEntries es = es.all (fun e => jsonSupported e.2) := by
  induction es with
  | nil => rfl
  | cons e es ih =>
    obtain ⟨k, v⟩ := e
    simp only [jsonSupportedEntries, List.all_cons, ih]

/-- A hexadecimal digit decodes to the nibble it prints. -/
theorem fromHexChar_hexDigit (n : Nat) (h : n < 16) : fromHexChar (hexDigit n) = some n := by
  interval_cases n <;> decide

/-- Two texts of characters of one class, each followed by nothing or by a
character outside the class, are equal when the whole texts are. -/
theorem append_inj_of_class (p : Char → Bool) :
    ∀ (x y s t : List Char), (∀ c ∈ x, p c = true) → (∀ c ∈ y, p c = true) →
      (∀ c r, s = c :: r → p c = false) → (∀ c r, t = c :: r → p c = false) →
      x ++ s = y ++ t → x = y ∧ s = t := by
  intro x
  induction x with
  | nil =>
    intro y s t _ hy hs _ h
    cases y with
    | nil => exact ⟨rfl, h⟩
    | cons b y =>
      exfalso
      simp only [List.nil_append, List.cons_append] at h
      have h1 := hs b (y ++ t) h
      have h2 := hy b (List.mem_cons_self _ _)
      rw [h1] at h2
      cases h2
  | cons a x ih =>
    intro y s t hx hy hs ht h
    cases y with
    | nil =>
      exfalso
      simp only [List.nil_append, List.cons_append] at h
      have h1 := ht a (x ++ s) h.symm
      have h2 := hx a (List.mem_cons_self _ _)
      rw [h1] at h2
      cases h2
    | cons b y =>
      simp only [List.cons_append, List.cons.injEq] at h
      obtain ⟨hab, hrest⟩ := h
      obtain ⟨hxy, hst⟩ := ih y s t (fun c hc => hx c (List.mem_cons_of_mem _ hc))
        (fun c hc => hy c (List.mem_cons_of_mem _ hc)) hs ht hrest
      exact ⟨by rw [hab, hxy], hst⟩

/-- The character of a decimal digit is a digit and has the digit as value. -/
theorem digitChar_isDigit (k : Nat) (hk : k < 10) :
    (Nat.digitChar k).isDigit = true ∧ (Nat.digitChar k).toNat - 48 = k := by
  interval_cases k <;> decide

/-- The digits that `Nat.toDigitsCore` puts before the ones it is given: not
empty, digits only, with the number as value. -/
theorem toDigitsCore_spec : ∀ (fuel n : Nat) (ds : List Char), n < fuel →
    ∃ pre, Nat.toDigitsCore 10 fuel n ds = pre ++ ds ∧ digitsValue 0 pre = n ∧
      (∀ c ∈ pre, c.isDigit = true) ∧ pre ≠ [] := by
  intro fuel
  induction fuel with
  | zero => intro n ds h; omega
  | succ fuel ih =>
    intro n ds h
    have hd := digitChar_isDigit (n % 10) (Nat.mod_lt _ (by decide))
    unfold Nat.toDigitsCore
    by_cases h0 : n / 10 = 0
    · simp only [h0, if_true]
      refine ⟨[Nat.digitChar (n % 10)], rfl, ?_, ?_, by simp⟩
      · simp only [digitsValue, List.foldl_cons, List.foldl_nil, hd.2]
        omega
      · intro c hc
        simp only [List.mem_singleton] at hc
        rw [hc]; exact hd.1
    · simp only [h0, if_false]
      obtain ⟨pre, hpre, hval, hdig, _⟩ := ih (n / 10) (Nat.digitChar (n % 10) :: ds) (by omega)
      refine ⟨pre ++ [Nat.digitChar (n % 10)], by rw [hpre]; simp, ?_, ?_, by simp⟩
      · unfold digitsValue at hval ⊢
        rw [List.foldl_append, hval]
        simp only [List.foldl_cons, List.foldl_nil, hd.2]
        omega
      · intro c hc
        rcases List.mem_append.mp hc with hc | hc
        · exact hdig c hc
        · simp only [List.mem_singleton] at hc
          rw [hc]; exact hd.1

/-- The decimal text of a natural number: digits only, not empty, with the
number as value. -/
theorem natRepr_spec (n : Nat) :
    digitsValue 0 (toString n).data = n ∧ (∀ c ∈ (toString n).data, c.isDigit = true) ∧
      (toString n).data ≠ [] := by
  obtain ⟨pre, hpre, hval, hdig, hne⟩ := toDigitsCore_spec (n + 1) n [] (by omega)
  have : (toString n).data = pre := by
    show (Nat.repr n).data = pre
    unfold Nat.repr Nat.toDigits
    rw [hpre]
    simp [List.asString]
  rw [this]
  exact ⟨hval, hdig, hne⟩

/-- The text of an integer: that of a natural number, after a minus sign for a negative one. -/
theorem jsonInt_cases (i : Int) :
    (∃ n : Nat, i = n ∧ jsonInt i = (toString n).data) ∨
    (∃ n : Nat, i = Int.negSucc n ∧ jsonInt i = '-' :: (toString (n + 1)).data) := by
  cases i with
  | ofNat n => left; exact ⟨n, rfl, rfl⟩
  | negSucc n => right; exact ⟨n, rfl, rfl⟩

/-- The text of an integer determines the integer. -/
theorem jsonInt_injective (i j : Int) (h : jsonInt i = jsonInt j) : i = j := by
  rcases jsonInt_cases i with ⟨n, hi, hn⟩ | ⟨n, hi, hn⟩ <;>
    rcases jsonInt_cases j with ⟨m, hj, hm⟩ | ⟨m, hj, hm⟩
  · rw [hn, hm] at h
    have := congrArg (digitsValue 0) h
    rw [(natRepr_spec n).1, (natRepr_spec m).1] at this
    rw [hi, hj, this]
  · exfalso
    rw [hn, hm] at h
    obtain ⟨_, hdig, hne⟩ := natRepr_spec n
    cases hl : (toString n).data with
    | nil => exact hne hl
    | cons c r =>
      rw [hl] at h
      have hc := hdig c (by rw [hl]; exact List.mem_cons_self _ _)
      simp only [List.cons.injEq] at h
      rw [h.1] at hc
      revert hc; decide
  · exfalso
    rw [hn, hm] at h
    obtain ⟨_, hdig, hne⟩ := natRepr_spec m
    cases hl : (toString m).data with
    | nil => exact hne hl
    | cons c r =>
      rw [hl] at h
      have hc := hdig c (by rw [hl]; exact List.mem_cons_self _ _)
      simp only [List.cons.injEq] at h
      rw [← h.1] at hc
      revert hc; decide
  · rw [hn, hm] at h
    simp only [List.cons.injEq, true_and] at h
    have := congrArg (digitsValue 0) h
    rw [(natRepr_spec (n + 1)).1, (natRepr_spec (m + 1)).1] at this
    rw [hi, hj]
    congr 1
    omega

/-- The text of an integer is not empty, starts with a digit or a minus sign
and holds digits and a minus sign only. -/
theorem jsonInt_chars (i : Int) :
    (∀ c ∈ jsonInt i, c.isDigit = true ∨ c = '-') ∧
    ∃ c r, jsonInt i = c :: r ∧ (c.isDigit = true ∨ c = '-') := by
  rcases jsonInt_cases i with ⟨n, _, hn⟩ | ⟨n, _, hn⟩
  · obtain ⟨_, hdig, hne⟩ := natRepr_spec n
    rw [hn]
    refine ⟨fun c hc => Or.inl (hdig c hc), ?_⟩
    cases hl : (toString n).data with
    | nil => exact absurd hl hne
    | cons c r => exact ⟨c, r, rfl, Or.inl (hdig c (by rw [hl]; exact List.mem_cons_self _ _))⟩
  · obtain ⟨_, hdig, _⟩ := natRepr_spec (n + 1)
    rw [hn]
    refine ⟨?_, '-', _, rfl, Or.inr rfl⟩
    intro c hc
    rcases List.mem_cons.mp hc with hc | hc
    · exact Or.inr hc
    · exact Or.inl (hdig c hc)



/-- The hexadecimal digits of two nibbles differ when the nibbles do. -/
theorem hexDigit_injective (a b : Nat) (ha : a < 16) (hb : b < 16)
    (h : hexDigit a = hexDigit b) : a = b := by
  have h1 := fromHexChar_hexDigit a ha
  have h2 := fromHexChar_hexDigit b hb
  rw [h] at h1
  rw [h1] at h2
  exact Option.some.inj h2

/-- Two characters with the same code are the same. -/
theorem char_eq_of_toNat_eq (c d : Char) (h : c.toNat = d.toNat) : c = d := by
  rw [← Char.ofNat_toNat c, ← Char.ofNat_toNat d, h]

/-- The shapes of the escape of a character. -/
theorem jsonEscape_cases (c : Char) :
    (c = quoteChar ∧ jsonEscape c = [backslashChar, quoteChar]) ∨
    (c = backslashChar ∧ jsonEscape c = [backslashChar, backslashChar]) ∨
    (c = Char.ofNat 10 ∧ jsonEscape c = [backslashChar, 'n']) ∨
    (c = Char.ofNat 13 ∧ jsonEscape c = [backslashChar, 'r']) ∨
    (c = Char.ofNat 9 ∧ jsonEscape c = [backslashChar, 't']) ∨
    (c.toNat < 65536 ∧
      jsonEscape c = [backslashChar, 'u', hexDigit (c.toNat / 4096),
        hexDigit (c.toNat / 256 % 16), hexDigit (c.toNat / 16 % 16),
        hexDigit (c.toNat % 16)]) ∨
    (c ≠ quoteChar ∧ c ≠ backslashChar ∧ jsonEscape c = [c]) := by
  unfold jsonEscape
  by_cases h1 : c = quoteChar
  · left; exact ⟨h1, by rw [if_pos h1]⟩
  · rw [if_neg h1]
    by_cases h2 : c = backslashChar
    · right; left; exact ⟨h2, by rw [if_pos h2]⟩
    · rw [if_neg h2]
      by_cases h3 : c.toNat = 10
      · right; right; left
        exact ⟨char_eq_of_toNat_eq _ _ (by rw [h3]; rfl), by rw [if_pos h3]⟩
      · rw [if_neg h3]
        by_cases h4 : c.toNat = 13
        · right; right; right; left
          exact ⟨char_eq_of_toNat_eq _ _ (by rw [h4]; rfl), by rw [if_pos h4]⟩
        · rw [if_neg h4]
          by_cases h5 : c.toNat = 9
          · right; right; right; right; left
            exact ⟨char_eq_of_toNat_eq _ _ (by rw [h5]; rfl), by rw [if_pos h5]⟩
          · rw [if_neg h5]
            by_cases h6 : c.toNat < 32 ∨ c = '<' ∨ c = '>' ∨ c = '&' ∨ c.toNat = 8232 ∨
                c.toNat = 8233
            · right; right; right; right; right; left
              refine ⟨?_, by rw [if_pos h6]⟩
              rcases h6 with h | h | h | h | h | h
              · omega
              · rw [h]; decide
              · rw [h]; decide
              · rw [h]; decide
              · omega
              · omega
            · right; right; right; right; right; right
              exact ⟨h1, h2, by rw [if_neg h6]⟩

/-- The escape of a character does not start with a double quote. -/
theorem jsonEscape_ne_quote (c : Char) (x y : List Char) :
    jsonEscape c ++ x ≠ quoteChar :: y := by
  intro h
  have hbq : backslashChar ≠ quoteChar := by decide
  rcases jsonEscape_cases c with ⟨_, e⟩ | ⟨_, e⟩ | ⟨_, e⟩ | ⟨_, e⟩ | ⟨_, e⟩ | ⟨_, e⟩ | ⟨hq, _, e⟩ <;>
    rw [e] at h <;> simp only [List.cons_append, List.cons.injEq] at h
  · exact hbq h.1
  · exact hbq h.1
  · exact hbq h.1
  · exact hbq h.1
  · exact hbq h.1
  · exact hbq h.1
  · exact hq h.1

/-- The escapes of characters are told apart from what follows them. -/
theorem jsonEscape_delimited (c d : Char) (x y : List Char)
    (h : jsonEscape c ++ x = jsonEscape d ++ y) : c = d ∧ x = y := by
  have hq : quoteChar ≠ backslashChar := by decide
  have hqn : quoteChar ≠ 'n' := by decide
  have hqr : quoteChar ≠ 'r' := by decide
  have hqt : quoteChar ≠ 't' := by decide
  have hqu : quoteChar ≠ 'u' := by decide
  have hbn : backslashChar ≠ 'n' := by decide
  have hbr : backslashChar ≠ 'r' := by decide
  have hbt : backslashChar ≠ 't' := by decide
  have hbu : backslashChar ≠ 'u' := by decide
  have hnr : ('n' : Char) ≠ 'r' := by decide
  have hnt : ('n' : Char) ≠ 't' := by decide
  have hnu : ('n' : Char) ≠ 'u' := by decide
  have hrt : ('r' : Char) ≠ 't' := by decide
  have hru : ('r' : Char) ≠ 'u' := by decide
  have htu : ('t' : Char) ≠ 'u' := by decide
  rcases jsonEscape_cases c with
    ⟨c1, e⟩ | ⟨c1, e⟩ | ⟨c1, e⟩ | ⟨c1, e⟩ | ⟨c1, e⟩ | ⟨c1, e⟩ | ⟨c1, c2, e⟩ <;>
  rcases jsonEscape_cases d with
    ⟨d1, f⟩ | ⟨d1, f⟩ | ⟨d1, f⟩ | ⟨d1, f⟩ | ⟨d1, f⟩ | ⟨d1, f⟩ | ⟨d1, d2, f⟩ <;>
  rw [e, f] at h <;>
  simp only [List.cons_append, List.nil_append, List.cons.injEq, true_and, hq, hq.symm, hqn,
    hqn.symm, hqr, hqr.symm, hqt, hqt.symm, hqu, hqu.symm, hbn, hbn.symm, hbr, hbr.symm, hbt,
    hbt.symm, hbu, hbu.symm, hnr, hnr.symm, hnt, hnt.symm, hnu, hnu.symm, hrt, hrt.symm, hru,
    hru.symm, htu, htu.symm, false_and, and_false] at h <;>
  first
  | exact ⟨c1.trans d1.symm, h⟩
  | exact absurd h.1 c2
  | exact absurd h.1.symm d2
  | exact ⟨h.1, h.2⟩
  | skip
  -- both escaped with four hex digits
  obtain ⟨h3, h2, h1, h0, hxy⟩ := h
  have e3 := hexDigit_injective _ _ (by omega) (by omega) h3
  have e2 := hexDigit_injective _ _ (by omega) (by omega) h2
  have e1 := hexDigit_injective _ _ (by omega) (by omega) h1
  have e0 := hexDigit_injective _ _ (by omega) (by omega) h0
  exact ⟨char_eq_of_toNat_eq _ _ (by omega), hxy⟩

/-- The escaped characters of a text. -/
theorem jsonBody_delimited : ∀ (l1 l2 : List Char) (s t : List Char),
    (l1.map jsonEscape).flatten ++ quoteChar :: s =
      (l2.map jsonEscape).flatten ++ quoteChar :: t → l1 = l2 ∧ s = t := by
  intro l1
  induction l1 with
  | nil =>
    intro l2 s t h
    cases l2 with
    | nil =>
      simp only [List.map_nil, List.flatten_nil, List.nil_append, List.cons.injEq, true_and] at h
      exact ⟨rfl, h⟩
    | cons d l2 =>
      exfalso
      simp only [List.map_nil, List.flatten_nil, List.nil_append, List.map_cons,
        List.flatten_cons, List.append_assoc] at h
      exact jsonEscape_ne_quote d _ _ h.symm
  | cons c l1 ih =>
    intro l2 s t h
    cases l2 with
    | nil =>
      exfalso
      simp only [List.map_nil, List.flatten_nil, List.nil_append, List.map_cons,
        List.flatten_cons, List.append_assoc] at h
      exact jsonEscape_ne_quote c _ _ h
    | cons d l2 =>
      simp only [List.map_cons, List.flatten_cons, List.append_assoc] at h
      obtain ⟨hcd, hrest⟩ := jsonEscape_delimited c d _ _ h
      obtain ⟨hl, hst⟩ := ih l2 s t hrest
      exact ⟨by rw [hcd, hl], hst⟩

/-- JSON strings are told apart from what follows them, and the text determines the string. -/
theorem jsonString_delimited (a b : String) (s t : List Char)
    (h : jsonString a ++ s = jsonString b ++ t) : a = b ∧ s = t := by
  unfold jsonString at h
  simp only [List.cons_append, List.append_assoc, List.cons.injEq, true_and,
    List.singleton_append] at h
  obtain ⟨hl, hst⟩ := jsonBody_delimited a.data b.data s t h
  exact ⟨String.ext hl, hst⟩

/-- The text of a string starts with a double quote. -/
theorem jsonString_head (a : String) : ∃ r, jsonString a = quoteChar :: r :=
  ⟨_, rfl⟩


/-- A stop does not start with a character of a number. -/
theorem jsonStop_not_numChar (s : List Char) (h : JsonStop s) :
    ∀ c r, s = c :: r → jsonNumChar c = false := by
  intro c r hs
  rcases h with h | ⟨c2, r2, h, hc⟩
  · rw [h] at hs; cases hs
  · rw [h] at hs
    cases hs
    rcases hc with hc | hc | hc <;> rw [hc] <;> decide

/-- A stop starts with a character that starts no value. -/
theorem jsonStop_charKind (s : List Char) (h : JsonStop s) :
    ∀ c r, s = c :: r → jsonCharKind c = 7 := by
  intro c r hs
  rcases h with h | ⟨c2, r2, h, hc⟩
  · rw [h] at hs; cases hs
  · rw [h] at hs
    cases hs
    rcases hc with hc | hc | hc <;> rw [hc] <;> decide

/-- A text that starts with a comma or a closing bracket is a stop. -/
theorem jsonStop_cons (c : Char) (r : List Char) (hc : c = ',' ∨ c = ']' ∨ c = '}') :
    JsonStop (c :: r) :=
  Or.inr ⟨c, r, rfl, hc⟩

/-- The text of an integer holds characters of a number only. -/
theorem jsonInt_numChars (i : Int) : ∀ c ∈ jsonInt i, jsonNumChar c = true := by
  intro c hc
  rcases (jsonInt_chars i).1 c hc with h | h
  · simp [jsonNumChar, h]
  · rw [h]; decide

/-- The text of an integer holds no stroke. -/
theorem jsonInt_no_slash (i : Int) : '/' ∉ jsonInt i := by
  intro h
  rcases (jsonInt_chars i).1 _ h with h | h
  · revert h; decide
  · revert h; decide

/-- The text of a finite `float64`: that of an integer, or of two integers
about a stroke. -/
theorem jsonFloat_cases (q : Rat) :
    (q.den = 1 ∧ jsonFloat q = jsonInt q.num) ∨
    (q.den ≠ 1 ∧ jsonFloat q = jsonInt q.num ++ '/' :: jsonInt (q.den : Int)) := by
  unfold jsonFloat
  by_cases h : q.den = 1
  · left; exact ⟨h, by rw [if_pos h]; rfl⟩
  · right; exact ⟨h, by rw [if_neg h]; rfl⟩

/-- The text of a finite `float64` holds characters of a number only. -/
theorem jsonFloat_numChars (q : Rat) : ∀ c ∈ jsonFloat q, jsonNumChar c = true := by
  intro c hc
  rcases jsonFloat_cases q with ⟨_, e⟩ | ⟨_, e⟩
  · rw [e] at hc; exact jsonInt_numChars _ c hc
  · rw [e] at hc
    rcases List.mem_append.mp hc with h | h
    · exact jsonInt_numChars _ c h
    · rcases List.mem_cons.mp h with h | h
      · rw [h]; decide
      · exact jsonInt_numChars _ c h

/-- The text of a finite `float64` starts with a digit or a minus sign. -/
theorem jsonFloat_head (q : Rat) :
    ∃ c r, jsonFloat q = c :: r ∧ (c.isDigit = true ∨ c = '-') := by
  obtain ⟨c, r, e, hc⟩ := (jsonInt_chars q.num).2
  rcases jsonFloat_cases q with ⟨_, f⟩ | ⟨_, f⟩
  · exact ⟨c, r, by rw [f, e], hc⟩
  · exact ⟨c, r ++ '/' :: jsonInt (q.den : Int), by rw [f, e]; rfl, hc⟩

/-- A finite `float64` with the text of an integer is that integer. -/
theorem jsonFloat_eq_jsonInt (q : Rat) (i : Int) (h : jsonFloat q = jsonInt i) :
    q.den = 1 ∧ q.num = i := by
  rcases jsonFloat_cases q with ⟨hd, e⟩ | ⟨_, e⟩
  · rw [e] at h
    exact ⟨hd, jsonInt_injective _ _ h⟩
  · exfalso
    rw [e] at h
    apply jsonInt_no_slash i
    rw [← h]
    exact List.mem_append_right _ (List.mem_cons_self _ _)

/-- The text of a finite `float64` determines it. -/
theorem jsonFloat_injective (q r : Rat) (h : jsonFloat q = jsonFloat r) : q = r := by
  rcases jsonFloat_cases r with ⟨hd, e⟩ | ⟨hd, e⟩
  · rw [e] at h
    obtain ⟨h1, h2⟩ := jsonFloat_eq_jsonInt q _ h
    exact Rat.ext h2 (by rw [h1, hd])
  · rcases jsonFloat_cases q with ⟨hd2, e2⟩ | ⟨hd2, e2⟩
    · exfalso
      rw [e, e2] at h
      apply jsonInt_no_slash q.num
      rw [h]
      exact List.mem_append_right _ (List.mem_cons_self _ _)
    · rw [e, e2] at h
      have hcls : ∀ (i : Int), ∀ c ∈ jsonInt i, (fun c : Char => c.isDigit || c == '-') c = true := by
        intro i c hc
        rcases (jsonInt_chars i).1 c hc with h | h
        · simp [h]
        · rw [h]; decide
      obtain ⟨h1, h2⟩ := append_inj_of_class (fun c : Char => c.isDigit || c == '-') _ _ _ _
        (hcls q.num) (hcls r.num)
        (by intro c r hs; cases hs; decide) (by intro c r hs; cases hs; decide) h
      simp only [List.cons.injEq, true_and] at h2
      have hn := jsonInt_injective _ _ h1
      have hdn := jsonInt_injective _ _ h2
      exact Rat.ext hn (by exact_mod_cast hdn)


/-- The encodings of the elements of a slice, as a `List.map`. -/
theorem jsonValues_eq_map (vs : List Value) : jsonValues vs = vs.map jsonValue := by
  induction vs with
  | nil => rfl
  | cons v vs ih => simp only [jsonValues, List.map_cons, ih]

/-- The determined forms of the elements of a slice, as a `List.map`. -/
theorem canonValues_eq_map (vs : List Value) : Value.canonValues vs = vs.map Value.canon := by
  induction vs with
  | nil => rfl
  | cons v vs ih => simp only [Value.canonValues, List.map_cons, ih]

/-- The entries of a map with their values in determined form, as a `List.map`. -/
theorem canonEntries_eq_map (es : List (String × Value)) :
    Value.canonEntries es = es.map (fun e => (e.1, e.2.canon)) := by
  induction es with
  | nil => rfl
  | cons e es ih =>
    obtain ⟨k, v⟩ := e
    simp only [Value.canonEntries, List.map_cons, ih]

/-- Whether every element of a slice is encoded, as a `List.all`. -/
theorem jsonSupportedValues_eq_all (vs : List Value) :
    jsonSupportedValues vs = vs.all jsonSupported := by
  induction vs with
  | nil => rfl
  | cons v vs ih => simp only [jsonSupportedValues, List.all_cons, ih]

/-- A digit and a minus sign start a number. -/
theorem jsonCharKind_digit (c : Char) (h : c.isDigit = true ∨ c = '-') : jsonCharKind c = 3 := by
  unfold jsonCharKind
  rw [if_pos h]

/-- The text of a value that is encoded starts with a character of the
value's kind. -/
theorem jsonValue_head (v : Value) (h : jsonSupported v = true) :
    ∃ c r, jsonValue v = c :: r ∧ jsonCharKind c = jsonKind v := by
  cases v with
  | null => exact ⟨'n', _, rfl, by decide⟩
  | bool b =>
    cases b
    · exact ⟨'f', _, rfl, by decide⟩
    · exact ⟨'t', _, rfl, by decide⟩
  | float64 f =>
    cases f with
    | finite q =>
      obtain ⟨c, r, e, hc⟩ := jsonFloat_head q
      exact ⟨c, r, e, jsonCharKind_digit c hc⟩
    | nan => simp [jsonSupported] at h
    | posInf => simp [jsonSupported] at h
    | negInf => simp [jsonSupported] at h
  | int64 i =>
    obtain ⟨c, r, e, hc⟩ := (jsonInt_chars i).2
    exact ⟨c, r, e, jsonCharKind_digit c hc⟩
  | int i =>
    obtain ⟨c, r, e, hc⟩ := (jsonInt_chars i).2
    exact ⟨c, r, e, jsonCharKind_digit c hc⟩
  | str a => exact ⟨quoteChar, _, rfl, (by decide : jsonCharKind quoteChar = 4)⟩
  | slice vs => exact ⟨'[', _, rfl, (by decide : jsonCharKind '[' = 5)⟩
  | map es => exact ⟨'{', _, rfl, (by decide : jsonCharKind '{' = 6)⟩

/-- Two values whose texts start the same text are of the same kind. -/
theorem jsonKind_eq_of_append_eq (v w : Value) (s t : List Char)
    (hv : jsonSupported v = true) (hw : jsonSupported w = true)
    (h : jsonValue v ++ s = jsonValue w ++ t) : jsonKind v = jsonKind w := by
  obtain ⟨c, r, e, hc⟩ := jsonValue_head v hv
  obtain ⟨d, r2, f, hd⟩ := jsonValue_head w hw
  rw [e, f] at h
  simp only [List.cons_append, List.cons.injEq] at h
  rw [← hc, ← hd, h.1]

/-- A value of the kind of numbers that is encoded is a number. -/
theorem jsonKind_three (w : Value) (hw : jsonSupported w = true) (h : jsonKind w = 3) :
    w.isNumber := by
  cases w with
  | float64 f =>
    cases f with
    | finite q => exact Or.inl ⟨q, rfl⟩
    | nan => simp [jsonSupported] at hw
    | posInf => simp [jsonSupported] at hw
    | negInf => simp [jsonSupported] at hw
  | int64 i => exact Or.inr (Or.inl ⟨i, rfl⟩)
  | int i => exact Or.inr (Or.inr ⟨i, rfl⟩)
  | bool b => cases b <;> simp [jsonKind] at h
  | _ => simp [jsonKind] at h

/-- The text of a number holds characters of a number only. -/
theorem jsonNumber_numChars (v : Value) (h : v.isNumber) :
    ∀ c ∈ jsonValue v, jsonNumChar c = true := by
  rcases h with ⟨q, e⟩ | ⟨i, e⟩ | ⟨i, e⟩ <;> rw [e]
  · exact jsonFloat_numChars q
  · exact jsonInt_numChars i
  · exact jsonInt_numChars i

/-- Two numbers with the same text have the same form. -/
theorem jsonNumber_canon (v w : Value) (hv : v.isNumber) (hw : w.isNumber)
    (h : jsonValue v = jsonValue w) : v.canon = w.canon := by
  have hfi : ∀ (q : Rat) (i : Int), jsonFloat q = jsonInt i →
      (Value.float64 (.finite q)).canon = .int64 i := by
    intro q i h
    obtain ⟨h1, h2⟩ := jsonFloat_eq_jsonInt q i h
    simp only [Value.canon, h1, if_true, h2]
  rcases hv with ⟨q, e⟩ | ⟨i, e⟩ | ⟨i, e⟩ <;> rcases hw with ⟨r, f⟩ | ⟨j, f⟩ | ⟨j, f⟩ <;>
    rw [e, f] at h ⊢
  · rw [jsonFloat_injective q r h]
  · exact hfi q j h
  · rw [hfi q j h]; simp only [Value.canon]
  · exact (hfi r i h.symm).symm
  · rw [jsonInt_injective i j h]
  · rw [jsonInt_injective i j h]; simp only [Value.canon]
  · rw [hfi r i h.symm]; simp only [Value.canon]
  · rw [jsonInt_injective i j h]; simp only [Value.canon]
  · rw [jsonInt_injective i j h]

/-- The text of a number is self-delimiting and determines its form. -/
theorem jsonDelimited_number (v : Value) (hv : v.isNumber) : JsonDelimited v := by
  intro w s t hsv hsw hs ht h
  have hk := jsonKind_eq_of_append_eq v w s t hsv hsw h
  have hk3 : jsonKind v = 3 := by
    rcases hv with ⟨q, e⟩ | ⟨i, e⟩ | ⟨i, e⟩ <;> rw [e] <;> rfl
  have hw := jsonKind_three w hsw (by rw [← hk, hk3])
  obtain ⟨h1, h2⟩ := append_inj_of_class jsonNumChar _ _ s t (jsonNumber_numChars v hv)
    (jsonNumber_numChars w hw) (jsonStop_not_numChar s hs) (jsonStop_not_numChar t ht) h
  exact ⟨jsonNumber_canon v w hv hw h1, h2⟩

/-- The text of `null` is self-delimiting. -/
theorem jsonDelimited_null : JsonDelimited .null := by
  intro w s t hsv hsw _ _ h
  have hk := jsonKind_eq_of_append_eq _ w s t hsv hsw h
  cases w with
  | null =>
    simp only [jsonValue, List.cons_append, List.nil_append, List.cons.injEq, true_and] at h
    exact ⟨rfl, h⟩
  | bool b => cases b <;> simp [jsonKind] at hk
  | _ => simp [jsonKind] at hk

/-- The text of a boolean is self-delimiting and determines it. -/
theorem jsonDelimited_bool (b : Bool) : JsonDelimited (.bool b) := by
  intro w s t hsv hsw _ _ h
  have hk := jsonKind_eq_of_append_eq _ w s t hsv hsw h
  cases w with
  | bool b2 =>
    cases b <;> cases b2 <;> simp [jsonKind] at hk
    · simp only [jsonValue, Bool.false_eq_true, if_false, List.cons_append, List.nil_append,
        List.cons.injEq, true_and] at h
      exact ⟨rfl, h⟩
    · simp only [jsonValue, if_true, List.cons_append, List.nil_append,
        List.cons.injEq, true_and] at h
      exact ⟨rfl, h⟩
  | _ => cases b <;> simp [jsonKind] at hk

/-- The text of a string is self-delimiting and determines it. -/
theorem jsonDelimited_str (a : String) : JsonDelimited (.str a) := by
  intro w s t hsv hsw _ _ h
  have hk := jsonKind_eq_of_append_eq _ w s t hsv hsw h
  cases w with
  | str a2 =>
    simp only [jsonValue] at h
    obtain ⟨h1, h2⟩ := jsonString_delimited a a2 s t h
    exact ⟨by rw [h1], h2⟩
  | bool b => cases b <;> simp [jsonKind] at hk
  | _ => simp [jsonKind] at hk

/-- The texts of a list of items, joined by commas and followed by a closing
bracket, determine the forms of the items and what follows the bracket, when
each item's text is self-delimiting and starts with neither a comma nor the
bracket. -/
theorem joinWith_delimited {α β : Type} (enc : α → List Char) (cn : α → β) (ok : α → Prop)
    (cl : Char) (hcl : cl = ']' ∨ cl = '}')
    (hhead : ∀ a, ok a → ∃ c r, enc a = c :: r ∧ c ≠ ',' ∧ c ≠ cl) :
    ∀ (xs ys : List α) (s t : List Char),
      (∀ a ∈ xs, ok a) → (∀ b ∈ ys, ok b) →
      (∀ a ∈ xs, ∀ b, ok b → ∀ s t, JsonStop s → JsonStop t →
        enc a ++ s = enc b ++ t → cn a = cn b ∧ s = t) →
      joinWith [','] (xs.map enc) ++ cl :: s = joinWith [','] (ys.map enc) ++ cl :: t →
      xs.map cn = ys.map cn ∧ s = t := by
  have hclstop : ∀ r, JsonStop (cl :: r) := fun r =>
    jsonStop_cons cl r (by rcases hcl with h | h <;> simp [h])
  have hclne : cl ≠ ',' := by rcases hcl with h | h <;> rw [h] <;> decide
  intro xs
  induction xs with
  | nil =>
    intro ys s t _ hys _ h
    cases ys with
    | nil =>
      simp only [List.map_nil, joinWith, List.nil_append, List.cons.injEq, true_and] at h
      exact ⟨rfl, h⟩
    | cons b ys =>
      exfalso
      obtain ⟨c, r, e, _, hc⟩ := hhead b (hys b (List.mem_cons_self _ _))
      cases ys with
      | nil =>
        simp only [List.map_nil, List.map_cons, joinWith, List.nil_append, e,
          List.cons_append, List.cons.injEq] at h
        exact hc h.1.symm
      | cons b2 ys =>
        simp only [List.map_nil, List.map_cons, joinWith, List.nil_append, e,
          List.cons_append, List.cons.injEq] at h
        exact hc h.1.symm
  | cons a xs ih =>
    intro ys s t hxs hys hel h
    cases ys with
    | nil =>
      exfalso
      obtain ⟨c, r, e, _, hc⟩ := hhead a (hxs a (List.mem_cons_self _ _))
      cases xs with
      | nil =>
        simp only [List.map_nil, List.map_cons, joinWith, List.nil_append, e,
          List.cons_append, List.cons.injEq] at h
        exact hc h.1
      | cons a2 xs =>
        simp only [List.map_nil, List.map_cons, joinWith, List.nil_append, e,
          List.cons_append, List.cons.injEq] at h
        exact hc h.1
    | cons b ys =>
      have hxs' : ∀ a' ∈ xs, ok a' := fun a' h' => hxs a' (List.mem_cons_of_mem _ h')
      have hys' : ∀ b' ∈ ys, ok b' := fun b' h' => hys b' (List.mem_cons_of_mem _ h')
      have hel' : ∀ a' ∈ xs, ∀ b, ok b → ∀ s t, JsonStop s → JsonStop t →
          enc a' ++ s = enc b ++ t → cn a' = cn b ∧ s = t :=
        fun a' h' => hel a' (List.mem_cons_of_mem _ h')
      have hela := hel a (List.mem_cons_self _ _) b (hys b (List.mem_cons_self _ _))
      cases xs with
      | nil =>
        cases ys with
        | nil =>
          simp only [List.map_cons, List.map_nil, joinWith] at h
          obtain ⟨h1, h2⟩ := hela _ _ (hclstop s) (hclstop t) h
          simp only [List.cons.injEq, true_and] at h2
          exact ⟨by simp [h1], h2⟩
        | cons b2 ys =>
          exfalso
          simp only [List.map_cons, List.map_nil, joinWith, List.append_assoc] at h
          obtain ⟨_, h2⟩ := hela _ _ (hclstop s)
            (jsonStop_cons ',' _ (Or.inl rfl)) h
          simp only [List.singleton_append, List.cons.injEq] at h2
          exact hclne h2.1
      | cons a2 xs =>
        cases ys with
        | nil =>
          exfalso
          simp only [List.map_cons, List.map_nil, joinWith, List.append_assoc] at h
          obtain ⟨_, h2⟩ := hela _ _ (jsonStop_cons ',' _ (Or.inl rfl)) (hclstop t) h
          simp only [List.singleton_append, List.cons.injEq] at h2
          exact hclne h2.1.symm
        | cons b2 ys =>
          simp only [List.map_cons, joinWith, List.append_assoc] at h
          obtain ⟨h1, h2⟩ := hela _ _ (jsonStop_cons ',' _ (Or.inl rfl))
            (jsonStop_cons ',' _ (Or.inl rfl)) h
          simp only [List.singleton_append, List.cons.injEq, true_and] at h2
          have h3 : joinWith [','] ((a2 :: xs).map enc) ++ cl :: s =
              joinWith [','] ((b2 :: ys).map enc) ++ cl :: t := by
            simpa only [List.map_cons] using h2
          obtain ⟨h4, h5⟩ := ih (b2 :: ys) s t hxs' hys' hel' h3
          refine ⟨?_, h5⟩
          simp only [List.map_cons] at h4 ⊢
          rw [h1, h4]


/-- There are seven kinds of values. -/
theorem jsonKind_le (v : Value) : jsonKind v ≤ 6 := by
  cases v with
  | bool b => cases b <;> simp [jsonKind]
  | _ => simp [jsonKind]

/-- The text of a value that is encoded starts with neither a comma nor a
closing bracket. -/
theorem jsonValue_head_ne (v : Value) (h : jsonSupported v = true) :
    ∃ c r, jsonValue v = c :: r ∧ c ≠ ',' ∧ c ≠ ']' ∧ c ≠ '}' := by
  obtain ⟨c, r, e, hc⟩ := jsonValue_head v h
  have hle := jsonKind_le v
  refine ⟨c, r, e, ?_, ?_, ?_⟩ <;>
  · intro hcc
    rw [hcc] at hc
    have h7 : jsonKind v = 7 := by rw [← hc]; decide
    omega

/-- The text of a slice is self-delimiting and determines its form, when the
texts of its elements are and do. -/
theorem jsonDelimited_slice (vs : List Value) (hvs : ∀ v ∈ vs, JsonDelimited v) :
    JsonDelimited (.slice vs) := by
  intro w s t hsv hsw _ _ h
  have hk := jsonKind_eq_of_append_eq _ w s t hsv hsw h
  cases w with
  | slice ws =>
    simp only [jsonValue, jsonArray, jsonValues_eq_map, List.cons_append, List.append_assoc,
      List.singleton_append, List.cons.injEq, true_and] at h
    simp only [jsonSupported, jsonSupportedValues_eq_all, List.all_eq_true] at hsv hsw
    obtain ⟨h1, h2⟩ := joinWith_delimited jsonValue Value.canon (fun v => jsonSupported v = true)
      ']' (Or.inl rfl)
      (fun a ha => by
        obtain ⟨c, r, e, h1, h2, _⟩ := jsonValue_head_ne a ha
        exact ⟨c, r, e, h1, h2⟩)
      vs ws s t hsv hsw
      (fun a ha b hb s t hs ht hab => hvs a ha b s t (hsv a ha) hb hs ht hab) h
    refine ⟨?_, h2⟩
    simp only [Value.canon, canonValues_eq_map, h1]
  | bool b => cases b <;> simp [jsonKind] at hk
  | _ => simp [jsonKind] at hk

/-- The text of a map: the members of its entries, sorted by key, between braces. -/
theorem jsonObject_jsonEntries (es : List (String × Value)) :
    jsonObject (jsonEntries es) =
      '{' :: joinWith [','] ((es.insertionSort keyLe).map jsonMember) ++ ['}'] := by
  unfold jsonObject
  rw [jsonEntries_eq_map]
  have := List.map_insertionSort keyLe (fun a b : String × List Char => a.1.data ≤ b.1.data)
    (fun e : String × Value => (e.1, jsonValue e.2)) es (fun a _ b _ => Iff.rfl)
  rw [← this, List.map_map]
  rfl

/-- The determined form of a map: its entries sorted by key, with the values in
determined form. -/
theorem canon_map (es : List (String × Value)) :
    (Value.map es).canon =
      .map ((es.insertionSort keyLe).map (fun e => (e.1, e.2.canon))) := by
  simp only [Value.canon, canonEntries_eq_map]
  have := List.map_insertionSort keyLe keyLe
    (fun e : String × Value => (e.1, e.2.canon)) es (fun a _ b _ => Iff.rfl)
  rw [this]

/-- The text of a map is self-delimiting and determines its form, when the texts
of its values are and do. -/
theorem jsonDelimited_map (es : List (String × Value)) (hes : ∀ e ∈ es, JsonDelimited e.2) :
    JsonDelimited (.map es) := by
  intro w s t hsv hsw _ _ h
  have hk := jsonKind_eq_of_append_eq _ w s t hsv hsw h
  cases w with
  | map fs =>
    simp only [jsonValue, jsonObject_jsonEntries, List.cons_append, List.append_assoc,
      List.singleton_append, List.cons.injEq, true_and] at h
    simp only [jsonSupported, jsonSupportedEntries_eq_all, List.all_eq_true] at hsv hsw
    obtain ⟨h1, h2⟩ := joinWith_delimited jsonMember (fun e => (e.1, e.2.canon))
      (fun e => jsonSupported e.2 = true) '}' (Or.inr rfl)
      (fun a _ => ⟨quoteChar, _, rfl, by decide, by decide⟩)
      (es.insertionSort keyLe) (fs.insertionSort keyLe) s t
      (fun a ha => hsv a ((List.mem_insertionSort keyLe).mp ha))
      (fun a ha => hsw a ((List.mem_insertionSort keyLe).mp ha))
      (fun a ha b hb s t hs ht hab => by
        unfold jsonMember at hab
        simp only [List.append_assoc, List.cons_append] at hab
        obtain ⟨hkey, hrest⟩ := jsonString_delimited _ _ _ _ hab
        simp only [List.cons.injEq, true_and] at hrest
        obtain ⟨hc, hst⟩ := hes a ((List.mem_insertionSort keyLe).mp ha) b.2 s t
          (hsv a ((List.mem_insertionSort keyLe).mp ha)) hb hs ht hrest
        exact ⟨Prod.ext hkey hc, hst⟩) h
    refine ⟨?_, h2⟩
    rw [canon_map, canon_map, h1]
  | bool b => cases b <;> simp [jsonKind] at hk
  | _ => simp [jsonKind] at hk

mutual
/-- The JSON text of every value is self-delimiting and determines the value's
form. -/
theorem jsonValue_delimited : ∀ v : Value, JsonDelimited v
  | .null => jsonDelimited_null
  | .bool b => jsonDelimited_bool b
  | .float64 (.finite q) => jsonDelimited_number _ (Or.inl ⟨q, rfl⟩)
  | .float64 .nan => fun _ _ _ h => by simp [jsonSupported] at h
  | .float64 .posInf => fun _ _ _ h => by simp [jsonSupported] at h
  | .float64 .negInf => fun _ _ _ h => by simp [jsonSupported] at h
  | .int64 i => jsonDelimited_number _ (Or.inr (Or.inl ⟨i, rfl⟩))
  | .int i => jsonDelimited_number _ (Or.inr (Or.inr ⟨i, rfl⟩))
  | .str a => jsonDelimited_str a
  | .slice vs => jsonDelimited_slice vs (jsonValues_delimited vs)
  | .map es => jsonDelimited_map es (jsonEntries_delimited es)
/-- The same for every element of a slice. -/
theorem jsonValues_delimited : ∀ vs : List Value, ∀ v ∈ vs, JsonDelimited v
  | [] => fun _ h => absurd h (List.not_mem_nil _)
  | v :: vs => fun x hx => by
    rcases List.mem_cons.mp hx with h | h
    · rw [h]; exact jsonValue_delimited v
    · exact jsonValues_delimited vs x h
/-- The same for every value of a map. -/
theorem jsonEntries_delimited : ∀ es : List (String × Value), ∀ e ∈ es, JsonDelimited e.2
  | [] => fun _ h => absurd h (List.not_mem_nil _)
  | (k, v) :: es => fun x hx => by
    rcases List.mem_cons.mp hx with h | h
    · rw [h]; exact jsonValue_delimited v
    · exact jsonEntries_delimited es x h
end


/-- Sorting the sorted entries changes nothing. -/
theorem keyLe_sorted_insertionSort (es : List (String × Value)) :
    (es.insertionSort keyLe).insertionSort keyLe = es.insertionSort keyLe := by
  haveI : IsTotal (String × Value) keyLe := ⟨fun a b => le_total a.1.data b.1.data⟩
  haveI : IsTrans (String × Value) keyLe := ⟨fun _ _ _ hab hbc => le_trans hab hbc⟩
  exact (List.sorted_insertionSort keyLe es).insertionSort_eq

/-- A map in its determined form has the text and the support of the map,
when each of its values has. -/
theorem jsonValue_canon_map (es : List (String × Value))
    (hes : ∀ e ∈ es, jsonValue e.2.canon = jsonValue e.2 ∧
      jsonSupported e.2.canon = jsonSupported e.2) :
    jsonValue (Value.map es).canon = jsonValue (.map es) ∧
      jsonSupported (Value.map es).canon = jsonSupported (.map es) := by
  have hsort : ((es.insertionSort keyLe).map (fun e => (e.1, e.2.canon))).insertionSort keyLe
      = (es.insertionSort keyLe).map (fun e => (e.1, e.2.canon)) := by
    have := List.map_insertionSort keyLe keyLe
      (fun e : String × Value => (e.1, e.2.canon)) (es.insertionSort keyLe)
      (fun a _ b _ => Iff.rfl)
    rw [← this, keyLe_sorted_insertionSort]
  rw [canon_map]
  constructor
  · simp only [jsonValue, jsonObject_jsonEntries, hsort, List.map_map]
    have hm : (es.insertionSort keyLe).map (jsonMember ∘ fun e => (e.1, e.2.canon))
        = (es.insertionSort keyLe).map jsonMember := by
      apply List.map_congr_left
      intro e he
      have := (hes e ((List.mem_insertionSort keyLe).mp he)).1
      simp only [Function.comp, jsonMember, this]
    rw [hm]
  · simp only [jsonSupported, jsonSupportedEntries_eq_all]
    rw [Bool.eq_iff_iff, List.all_eq_true, List.all_eq_true]
    constructor
    · intro h e he
      have h1 := h (e.1, e.2.canon) (List.mem_map.mpr
        ⟨e, (List.mem_insertionSort keyLe).mpr he, rfl⟩)
      rw [← (hes e he).2]
      exact h1
    · intro h x hx
      obtain ⟨e, he, hxe⟩ := List.mem_map.mp hx
      rw [← hxe]
      have he2 := (List.mem_insertionSort keyLe).mp he
      show jsonSupported e.2.canon = true
      rw [(hes e he2).2]
      exact h e he2

/-- A slice in its determined form has the text and the support of the slice,
when each of its elements has. -/
theorem jsonValue_canon_slice (vs : List Value)
    (hvs : ∀ v ∈ vs, jsonValue v.canon = jsonValue v ∧ jsonSupported v.canon = jsonSupported v) :
    jsonValue (Value.slice vs).canon = jsonValue (.slice vs) ∧
      jsonSupported (Value.slice vs).canon = jsonSupported (.slice vs) := by
  constructor
  · simp only [Value.canon, jsonValue, canonValues_eq_map, jsonValues_eq_map, List.map_map]
    congr 1
    apply List.map_congr_left
    intro v hv
    exact (hvs v hv).1
  · simp only [Value.canon, jsonSupported, canonValues_eq_map, jsonSupportedValues_eq_all]
    rw [Bool.eq_iff_iff, List.all_eq_true, List.all_eq_true]
    constructor
    · intro h v hv
      rw [← (hvs v hv).2]
      exact h v.canon (List.mem_map.mpr ⟨v, hv, rfl⟩)
    · intro h x hx
      obtain ⟨v, hv, hxv⟩ := List.mem_map.mp hx
      rw [← hxv, (hvs v hv).2]
      exact h v hv

mutual
/-- A value in its determined form has the text and the support of the
value. -/
theorem jsonValue_canon : ∀ v : Value,
    jsonValue v.canon = jsonValue v ∧ jsonSupported v.canon = jsonSupported v
  | .null => ⟨rfl, rfl⟩
  | .bool _ => ⟨rfl, rfl⟩
  | .float64 (.finite q) => by
    rcases jsonFloat_cases q with ⟨hd, e⟩ | ⟨hd, _⟩
    · simp only [Value.canon, hd, if_true, jsonValue, e, jsonSupported, and_self]
    · simp only [Value.canon, hd, if_false, and_self]
  | .float64 .nan => ⟨rfl, rfl⟩
  | .float64 .posInf => ⟨rfl, rfl⟩
  | .float64 .negInf => ⟨rfl, rfl⟩
  | .int64 _ => ⟨rfl, rfl⟩
  | .int _ => ⟨rfl, rfl⟩
  | .str _ => ⟨rfl, rfl⟩
  | .slice vs => jsonValue_canon_slice vs (jsonValues_canon vs)
  | .map es => jsonValue_canon_map es (jsonEntries_canon es)
/-- The same for every element of a slice. -/
theorem jsonValues_canon : ∀ vs : List Value, ∀ v ∈ vs,
    jsonValue v.canon = jsonValue v ∧ jsonSupported v.canon = jsonSupported v
  | [] => fun _ h => absurd h (List.not_mem_nil _)
  | v :: vs => fun x hx => by
    rcases List.mem_cons.mp hx with h | h
    · rw [h]; exact jsonValue_canon v
    · exact jsonValues_canon vs x h
/-- The same for every value of a map. -/
theorem jsonEntries_canon : ∀ es : List (String × Value), ∀ e ∈ es,
    jsonValue e.2.canon = jsonValue e.2 ∧ jsonSupported e.2.canon = jsonSupported e.2
  | [] => fun _ h => absurd h (List.not_mem_nil _)
  | (k, v) :: es => fun x hx => by
    rcases List.mem_cons.mp hx with h | h
    · rw [h]; exact jsonValue_canon v
    · exact jsonEntries_canon es x h
end

/-- Two values that are encoded have the same JSON text exactly when they have
the same determined form. -/
theorem jsonValue_eq_iff (v w : Value) (hv : jsonSupported v = true)
    (hw : jsonSupported w = true) : jsonValue v = jsonValue w ↔ v.canon = w.canon := by
  constructor
  · intro h
    exact (jsonValue_delimited v w [] [] hv hw (Or.inl rfl) (Or.inl rfl)
      (by rw [List.append_nil, List.append_nil, h])).1
  · intro h
    rw [← (jsonValue_canon v).1, ← (jsonValue_canon w).1, h]


/-- The call of `GetChain` returns a chain or an error, never neither. -/
theorem GetChain_chain_or_error (dc : DelegationClaim) (now : Int) :
    dc.GetChain now ≠ (none, none) := by
  unfold DelegationClaim.GetChain
  by_cases hp : dc.ParentDelegation ≠ none
  · rw [if_pos hp]
    intro h; cases h
  · rw [if_neg hp]
    by_cases hv :
        ¬ (DelegationChain.ValidateChain { Delegations := [dc], Valid := false, Reason := "" }
          now).2 = true
    · simp only [hv]
      rw [if_pos (by trivial)]
      intro h; cases h
    · simp only [hv]
      rw [if_neg (by simp)]
      intro h; cases h

/-- C31: for every claim that carries a parent reference, `GetChain` and
`ValidateInChain` return no chain and an error of code `PARENT_NOT_FOUND`;
neither returns a chain that holds only that claim. -/
theorem GetChain_parent_reference (dc : DelegationClaim) (now : Int)
    (h : dc.ParentDelegation ≠ none) :
    (∃ err : ChainError, dc.GetChain now = (none, some err) ∧ err.Code = "PARENT_NOT_FOUND") ∧
    (∃ err : ChainError,
      dc.ValidateInChain now = (none, some err) ∧ err.Code = "PARENT_NOT_FOUND") := by
  have hget : dc.GetChain now =
      (none, some { Code := "PARENT_NOT_FOUND"
                    Message := "parent delegation reference not implemented" }) := by
    unfold DelegationClaim.GetChain
    rw [if_pos h]
  refine ⟨⟨{ Code := "PARENT_NOT_FOUND"
             Message := "parent delegation reference not implemented" }, hget, rfl⟩,
    ⟨{ Code := "PARENT_NOT_FOUND"
       Message := "parent delegation reference not implemented" }, ?_, rfl⟩⟩
  · unfold DelegationClaim.ValidateInChain
    rw [hget]

/-- C33 (what the code does): for two chains with the same delegations and
the same clock value, `ValidateChain` returns the same result and leaves the
same `Valid`; the `Reason` is the same when the chains are rejected, and when
they are accepted each chain keeps the `Reason` it had before the call. -/
theorem ValidateChain_prior_state (c1 c2 : DelegationChain) (now : Int)
    (h : c1.Delegations = c2.Delegations) :
    (c1.ValidateChain now).2 = (c2.ValidateChain now).2 ∧
    (c1.ValidateChain now).1.Valid = (c2.ValidateChain now).1.Valid ∧
    (c1.ValidateChain now).1.Valid = (c1.ValidateChain now).2 ∧
    ((c1.ValidateChain now).2 = false →
      (c1.ValidateChain now).1.Reason = (c2.ValidateChain now).1.Reason) ∧
    ((c1.ValidateChain now).2 = true →
      (c1.ValidateChain now).1.Reason = c1.Reason ∧
      (c2.ValidateChain now).1.Reason = c2.Reason) := by
  unfold DelegationChain.ValidateChain
  rw [h]
  by_cases hlen : c2.Delegations.length = 0
  · simp [hlen]
  · simp only [hlen, if_false]
    cases ValidateChain.loop now c2.Delegations 0 c2.Delegations with
    | some reason => simp
    | none => simp

/-- C37 (as amended): in every chain accepted by `ValidateChain`, each
delegation, followed by another one or not, has `CurrentDepth ≤ MaxDepth`; it
satisfies `CanSubDelegate` exactly when moreover `CurrentDepth ≠ MaxDepth`,
which `ValidateChain` does not check. -/
theorem ValidateChain_depth (chain : DelegationChain) (now : Int)
    (h : (chain.ValidateChain now).2 = true) :
    ∀ (i : Nat) (d : DelegationClaim), chain.Delegations[i]? = some d →
      d.CurrentDepth ≤ d.MaxDepth ∧
      (d.CanSubDelegate = true ↔ d.CurrentDepth ≠ d.MaxDepth) := by
  intro i d hd
  have hloop : ValidateChain.loop now chain.Delegations 0 chain.Delegations = none := by
    unfold DelegationChain.ValidateChain at h
    by_cases hlen : chain.Delegations.length = 0
    · simp [hlen] at h
    · simp only [hlen, if_false] at h
      cases hl : ValidateChain.loop now chain.Delegations 0 chain.Delegations with
      | some reason => rw [hl] at h; cases h
      | none => rfl
  have hall := ((ValidateChain.loop_eq_none_iff now chain.Delegations chain.Delegations []
    (by simp)).mp hloop).1
  have hmem : d ∈ chain.Delegations := List.getElem?_mem hd
  have hle := (hall d hmem).2
  refine ⟨hle, ?_⟩
  unfold DelegationClaim.CanSubDelegate
  rw [decide_eq_true_iff]
  omega

/-! ## The time window across a chain -/

/-- On a chain with root `root`, `ValidateChainConstraints` returns no error
exactly when every later delegation keeps within the time bounds and the
resources taken from the root. -/
theorem ValidateChainConstraints_eq_none_iff (chain : DelegationChain) (root : DelegationClaim)
    (hroot : chain.Delegations[0]? = some root) :
    chain.ValidateChainConstraints = none ↔
      ∀ (i : Nat) (d : DelegationClaim), 0 < i → chain.Delegations[i]? = some d →
        d.WithinTime (ValidateChainConstraints.timeBounds root).1
          (ValidateChainConstraints.timeBounds root).2 ∧
        d.WithinScope (ValidateChainConstraints.resources root).1
          (ValidateChainConstraints.resources root).2 := by
  rcases ValidateChainConstraints_spec chain root hroot with
    ⟨hres, hok⟩ | ⟨k, x, err, hk, hx, _, hres, herr⟩
  · exact ⟨fun _ => hok, fun _ => hres⟩
  · constructor
    · intro hnone
      rw [hres] at hnone
      cases hnone
    · intro hall
      exfalso
      obtain ⟨hwt, hws⟩ := hall k x hk hx
      rcases herr with ht | ⟨_, hs⟩
      · have := (ValidateChainConstraints.timeCheck_eq_none_iff _ _ k x).mpr hwt
        rw [this] at ht
        cases ht
      · have := (ValidateChainConstraints.scopeCheck_eq_none_iff _ _ k x).mpr hws
        rw [this] at hs
        cases hs

/-- C34 (as amended): each later delegation is compared with the root alone.
On a chain `root :: rest`, `ValidateChainConstraints` returns no error exactly
when it returns none on every chain of the two hops `root` and `d`, for `d`
in `rest`; and when it returns no error and the root carries a time
constraint, the window of every later delegation that carries one is
contained in the root's window.  The windows of two later hops are not
compared with one another. -/
theorem ValidateChainConstraints_root_alone (chain : DelegationChain) (root : DelegationClaim)
    (rest : List DelegationClaim) (h : chain.Delegations = root :: rest) :
    (chain.ValidateChainConstraints = none ↔
      ∀ d ∈ rest,
        DelegationChain.ValidateChainConstraints { chain with Delegations := [root, d] } =
          none) ∧
    (chain.ValidateChainConstraints = none →
      ∀ rtc, root.GetTimeConstraint = some rtc →
        ∀ d ∈ rest, ∀ tc, d.GetTimeConstraint = some tc →
          rtc.ValidFrom ≤ tc.ValidFrom ∧ tc.ValidUntil ≤ rtc.ValidUntil) := by
  have hroot : chain.Delegations[0]? = some root := by rw [h]; simp
  have hmain := ValidateChainConstraints_eq_none_iff chain root hroot
  have hpair : ∀ d : DelegationClaim,
      DelegationChain.ValidateChainConstraints { chain with Delegations := [root, d] } = none ↔
        d.WithinTime (ValidateChainConstraints.timeBounds root).1
          (ValidateChainConstraints.timeBounds root).2 ∧
        d.WithinScope (ValidateChainConstraints.resources root).1
          (ValidateChainConstraints.resources root).2 := by
    intro d
    rw [ValidateChainConstraints_eq_none_iff { chain with Delegations := [root, d] } root
      (by simp)]
    constructor
    · intro hall
      exact hall 1 d (by omega) (by simp)
    · intro hw i c hi hc
      have hi1 : i = 1 := by
        by_contra hne
        have : [root, d][i]? = none := List.getElem?_eq_none (by simp; omega)
        simp only at hc
        rw [this] at hc
        cases hc
      subst hi1
      simp at hc
      subst hc
      exact hw
  have hwithin : chain.ValidateChainConstraints = none ↔
      ∀ d ∈ rest,
        d.WithinTime (ValidateChainConstraints.timeBounds root).1
          (ValidateChainConstraints.timeBounds root).2 ∧
        d.WithinScope (ValidateChainConstraints.resources root).1
          (ValidateChainConstraints.resources root).2 := by
    rw [hmain]
    constructor
    · intro hall d hd
      obtain ⟨n, hn, hget⟩ := List.getElem_of_mem hd
      apply hall (n + 1) d (by omega)
      rw [h, List.getElem?_cons_succ, List.getElem?_eq_getElem hn, hget]
    · intro hall i d hi hd
      obtain ⟨n, rfl⟩ : ∃ n, i = n + 1 := ⟨i - 1, by omega⟩
      rw [h, List.getElem?_cons_succ] at hd
      exact hall d (List.getElem?_mem hd)
  refine ⟨?_, ?_⟩
  · rw [hwithin]
    exact ⟨fun hall d hd => (hpair d).mpr (hall d hd), fun hall d hd => (hpair d).mp (hall d hd)⟩
  · intro hnone rtc hrtc d hd tc htc
    have hb : ValidateChainConstraints.timeBounds root = (rtc.ValidFrom, rtc.ValidUntil) := by
      simp [ValidateChainConstraints.timeBounds, hrtc]
    have hw := (hwithin.mp hnone d hd).1
    rw [hb] at hw
    exact hw tc htc

/-- C35: on every chain on which `ValidateChainConstraints` returns no error
and whose root carries a time constraint, every later delegation that carries
a time constraint has `ValidFrom` not below and `ValidUntil` not above the
root's; and on an empty chain `ValidateChainConstraints` returns the error of
code `EMPTY_CHAIN`. -/
theorem ValidateChainConstraints_within_root (chain : DelegationChain) :
    (chain.Delegations = [] →
      chain.ValidateChainConstraints =
        some { Code := "EMPTY_CHAIN", Message := "delegation chain is empty" }) ∧
    (∀ (root : DelegationClaim) (rtc : TimeConstraint),
      chain.GetRootDelegation = some root → root.GetTimeConstraint = some rtc →
      chain.ValidateChainConstraints = none →
      ∀ (i : Nat) (d : DelegationClaim) (tc : TimeConstraint),
        0 < i → chain.Delegations[i]? = some d → d.GetTimeConstraint = some tc →
        rtc.ValidFrom ≤ tc.ValidFrom ∧ tc.ValidUntil ≤ rtc.ValidUntil) := by
  constructor
  · intro hnil
    simp [DelegationChain.ValidateChainConstraints, hnil]
  · intro root rtc hroot hrtc hnone i d tc hi hd htc
    have hroot0 : chain.Delegations[0]? = some root := by
      unfold DelegationChain.GetRootDelegation at hroot
      by_cases hlen : chain.Delegations.length = 0
      · rw [if_pos hlen] at hroot; cases hroot
      · rw [if_neg hlen] at hroot; exact hroot
    have hb : ValidateChainConstraints.timeBounds root = (rtc.ValidFrom, rtc.ValidUntil) := by
      simp [ValidateChainConstraints.timeBounds, hrtc]
    have hw := ((ValidateChainConstraints_eq_none_iff chain root hroot0).mp hnone i d hi hd).1
    rw [hb] at hw
    exact hw tc htc

/-! ## The views of the constraints -/

/-- C36 (as amended): `GetTimeConstraint` returns none exactly when the
`time` entry of the constraints is absent or not a mapping, and otherwise the
view whose `ValidFrom` and `ValidUntil` are `getInt64` of the entry: the number
stored under the key when it is an `int64`; for a `float64` its integer part
when that lies in the range of `int64` (the number itself when the `float64` is
whole and in that range) and the least `int64` otherwise, also for a NaN or an
infinity; and 0 when the key is absent or holds a value of another type, a Go
`int` among them.  `GetScopeConstraint`
likewise returns `getStringSlice` of `allowed_resources` and
`denied_resources`: the strings of a slice, with the empty string in place of
an element that is not a string, and nothing when the key holds no slice.
Both are functions of the `Constraints` field alone. -/
theorem constraint_views (dc : DelegationClaim) :
    (dc.GetTimeConstraint = none ↔ ∀ m, dc.constraint "time" ≠ some (.map m)) ∧
    (∀ m, dc.constraint "time" = some (.map m) →
      ∃ tc, dc.GetTimeConstraint = some tc ∧
        tc.ValidFrom = getInt64 m "valid_from" ∧ tc.ValidUntil = getInt64 m "valid_until") ∧
    (dc.GetScopeConstraint = none ↔ ∀ m, dc.constraint "scope" ≠ some (.map m)) ∧
    (∀ m, dc.constraint "scope" = some (.map m) →
      ∃ sc, dc.GetScopeConstraint = some sc ∧
        sc.AllowedResources = getStringSlice m "allowed_resources" ∧
        sc.DeniedResources = getStringSlice m "denied_resources") ∧
    (∀ (m : List (String × Value)) (key : String),
      (m.lookup key = none → getInt64 m key = 0) ∧
      (∀ n : Int, m.lookup key = some (.int64 n) → getInt64 m key = n) ∧
      (∀ n : Int, minInt64 ≤ n → n ≤ maxInt64 →
        m.lookup key = some (.float64 (.finite n)) → getInt64 m key = n) ∧
      (∀ q : Rat, minInt64 ≤ Int.tdiv q.num q.den → Int.tdiv q.num q.den ≤ maxInt64 →
        m.lookup key = some (.float64 (.finite q)) → getInt64 m key = Int.tdiv q.num q.den) ∧
      (∀ q : Rat, (Int.tdiv q.num q.den < minInt64 ∨ maxInt64 < Int.tdiv q.num q.den) →
        m.lookup key = some (.float64 (.finite q)) → getInt64 m key = minInt64) ∧
      (∀ f : Float64, (∀ q, f ≠ .finite q) →
        m.lookup key = some (.float64 f) → getInt64 m key = minInt64) ∧
      (∀ v, m.lookup key = some v → (∀ q, v ≠ .float64 q) → (∀ n, v ≠ .int64 n) →
        getInt64 m key = 0)) ∧
    (∀ (m : List (String × Value)) (key : String),
      (∀ l : List String, m.lookup key = some (.slice (l.map Value.str)) →
        getStringSlice m key = l) ∧
      (∀ l : List Value, m.lookup key = some (.slice l) →
        (getStringSlice m key).length = l.length ∧
        ∀ (i : Nat) (v : Value), l[i]? = some v →
          ((∀ str, v = .str str → (getStringSlice m key)[i]? = some str) ∧
           ((∀ str, v ≠ .str str) → (getStringSlice m key)[i]? = some ""))) ∧
      ((∀ l, m.lookup key ≠ some (.slice l)) → getStringSlice m key = [])) ∧
    (∀ dc2 : DelegationClaim, dc2.Constraints = dc.Constraints →
      dc2.GetTimeConstraint = dc.GetTimeConstraint ∧
      dc2.GetScopeConstraint = dc.GetScopeConstraint) := by
  refine ⟨?_, ?_, ?_, ?_, ?_, ?_, ?_⟩
  · unfold DelegationClaim.GetTimeConstraint
    constructor
    · intro h m hm
      rw [hm] at h
      cases h
    · intro h
      split
      · next m hm => exact absurd hm (h m)
      · rfl
  · intro m hm
    unfold DelegationClaim.GetTimeConstraint
    rw [hm]
    exact ⟨_, rfl, rfl, rfl⟩
  · unfold DelegationClaim.GetScopeConstraint
    constructor
    · intro h m hm
      rw [hm] at h
      cases h
    · intro h
      split
      · next m hm => exact absurd hm (h m)
      · rfl
  · intro m hm
    unfold DelegationClaim.GetScopeConstraint
    rw [hm]
    exact ⟨_, rfl, rfl, rfl⟩
  · intro m key
    unfold getInt64
    refine ⟨?_, ?_, ?_, ?_, ?_, ?_, ?_⟩
    · intro h; rw [h]
    · intro n h; rw [h]
    · intro n h1 h2 h
      rw [h]
      simp [float64ToInt, h1, h2]
    · intro q h1 h2 h
      rw [h]
      simp [float64ToInt, h1, h2]
    · intro q hq h
      rw [h]
      have : ¬ (minInt64 ≤ Int.tdiv q.num q.den ∧ Int.tdiv q.num q.den ≤ maxInt64) := by
        intro hc
        omega
      simp only [float64ToInt, this, if_false]
    · intro f hf h
      rw [h]
      cases f with
      | finite q => exact absurd rfl (hf q)
      | _ => rfl
    · intro v h hq hn
      rw [h]
      cases v with
      | float64 q => exact absurd rfl (hq q)
      | int64 n => exact absurd rfl (hn n)
      | _ => rfl
  · intro m key
    unfold getStringSlice
    refine ⟨?_, ?_, ?_⟩
    · intro l h
      rw [h]
      simp only [List.map_map]
      conv_rhs => rw [← List.map_id l]
      apply List.map_congr_left
      intro a _
      rfl
    · intro l h
      rw [h]
      refine ⟨by simp, ?_⟩
      intro i v hv
      simp only [List.getElem?_map, hv, Option.map_some']
      constructor
      · intro str hstr
        rw [hstr]
      · intro hne
        cases v with
        | str str => exact absurd rfl (hne str)
        | _ => rfl
    · intro h
      split
      · next l hl => exact absurd hl (h l)
      · rfl
  · intro dc2 h
    unfold DelegationClaim.GetTimeConstraint DelegationClaim.GetScopeConstraint
      DelegationClaim.constraint
    rw [h]
    exact ⟨rfl, rfl⟩

/-! ## Revocation of a chain -/

/-- The loop of `RevokeChain` appends one revocation for each delegation, in
order. -/
theorem RevokeChain_loop_eq (chain : DelegationChain) (reason : String) (now : Int) :
    ∀ (ds : List DelegationClaim) (revocations : List RevocationClaim),
      RevokeChain.loop chain reason now revocations ds =
        revocations ++ ds.map (RevokeChain.revocation chain reason now) := by
  intro ds
  induction ds with
  | nil => intro revocations; simp [RevokeChain.loop]
  | cons d ds ih =>
    intro revocations
    rw [RevokeChain.loop, ih]
    simp

/-- The records of a list after `AddRevocations` are the earlier ones followed
by the new ones. -/
theorem AddRevocations_Revocations (revocations : List RevocationClaim) (clock : Int) :
    ∀ rl : RevocationList,
      (rl.AddRevocations revocations clock).Revocations = rl.Revocations ++ revocations := by
  induction revocations with
  | nil => intro rl; simp [RevocationList.AddRevocations]
  | cons r rs ih =>
    intro rl
    have := ih (rl.AddRevocation r clock)
    unfold RevocationList.AddRevocations at this ⊢
    rw [List.foldl_cons, this]
    simp [RevocationList.AddRevocation]

/-- C38: `RevokeChain` returns one revocation for each delegation, in the
order of the chain, and none for an empty chain; the revocation at index `i`
names the nonce and the delegate of delegation `i` and the delegator of the
root, with `RevokedAt = EffectiveAt = now`; and after all of them are appended
to a revocation list, `IsRevoked` on the nonce of any delegation of the chain
returns a record at every time from `now` on. -/
theorem RevokeChain_spec (chain : DelegationChain) (reason : String) (now : Int) :
    (chain.RevokeChain reason now).length = chain.Delegations.length ∧
    (chain.Delegations = [] → chain.RevokeChain reason now = []) ∧
    (∀ (i : Nat) (d : DelegationClaim), chain.Delegations[i]? = some d →
      ∃ (r : RevocationClaim) (root : DelegationClaim),
        (chain.RevokeChain reason now)[i]? = some r ∧
        chain.GetRootDelegation = some root ∧
        r.RevokedCredentialID = d.Nonce ∧ r.RevokedAgentDID = d.DelegateDID ∧
        r.RevokerDID = root.DelegatorDID ∧ r.RevokedAt = now ∧ r.EffectiveAt = now) ∧
    (∀ (rl : RevocationList) (clock t : Int) (d : DelegationClaim),
      d ∈ chain.Delegations → t ≥ now →
      ∃ r : RevocationClaim,
        (rl.AddRevocations (chain.RevokeChain reason now) clock).IsRevoked d.Nonce t = some r ∧
        r.RevokedCredentialID = d.Nonce ∧ r.IsEffective t = true) := by
  have heq : chain.RevokeChain reason now =
      chain.Delegations.map (RevokeChain.revocation chain reason now) := by
    unfold DelegationChain.RevokeChain
    rw [RevokeChain_loop_eq]
    simp
  refine ⟨?_, ?_, ?_, ?_⟩
  · rw [heq, List.length_map]
  · intro h
    rw [heq, h]
    rfl
  · intro i d hd
    have hne : ¬ chain.Delegations.length = 0 := by
      intro h
      rw [List.length_eq_zero.mp h] at hd
      cases hd
    have hnil : chain.Delegations ≠ [] := fun h => hne (by rw [h]; rfl)
    obtain ⟨root, rest, hcons⟩ := List.exists_cons_of_ne_nil hnil
    have hroot : chain.GetRootDelegation = some root := by
      unfold DelegationChain.GetRootDelegation
      rw [if_neg hne, hcons]
      simp
    refine ⟨RevokeChain.revocation chain reason now d, root, ?_, hroot, rfl, rfl, ?_, rfl, rfl⟩
    · rw [heq, List.getElem?_map, hd]
      rfl
    · simp [RevokeChain.revocation, DelegationChain.rootDelegatorDID, hroot]
  · intro rl clock t d hd ht
    unfold RevocationList.IsRevoked
    rw [AddRevocations_Revocations]
    have heff : (RevokeChain.revocation chain reason now d).IsEffective t = true := by
      unfold RevocationClaim.IsEffective
      by_cases h0 : now = 0
      · simp [RevokeChain.revocation, h0]
        omega
      · simp [RevokeChain.revocation, h0]
        omega
    have hmem : RevokeChain.revocation chain reason now d ∈
        rl.Revocations ++ chain.RevokeChain reason now := by
      rw [heq]
      exact List.mem_append_right _ (List.mem_map_of_mem _ hd)
    cases hres : IsRevoked.loop d.Nonce t (rl.Revocations ++ chain.RevokeChain reason now) with
    | none =>
      exfalso
      exact (IsRevoked_loop_eq_none_iff d.Nonce t _).mp hres _ hmem ⟨rfl, heff⟩
    | some r =>
      obtain ⟨_, _, hid, he, _⟩ := (IsRevoked_loop_eq_some_iff d.Nonce t r _).mp hres
      exact ⟨r, rfl, hid, he⟩

/-! ## Public-key verification -/

/-- The hexadecimal form has two characters for each byte. -/
theorem hexEncode_length (b : List Byte) : (hexEncode b).length = 2 * b.length := by
  induction b with
  | nil => rfl
  | cons x xs ih =>
    simp only [hexEncode, List.length_cons, ih]
    omega

/-- C32 (what the code does): `VerifySignature` hands its first argument to
`crypto.HexToECDSA`, which parses a private key of 32 bytes; the hexadecimal
form of a public key has 130 characters, so for every agent key, every message
hash and every signature, the one made by the key included,
`VerifySignature(k.GetPublicKeyHex(), h, signature)` returns false with an
error that starts with `invalid public key: `. -/
theorem VerifySignature_public_key_hex (K : KeyLib) (hpub : K.PublicKeyLength)
    (hprv : K.PrivateKeyHexLength) (ak : AgentKey) (messageHash signature : List Byte) :
    ∃ err : String,
      VerifySignature K (ak.GetPublicKeyHex K) messageHash signature =
        (false, some ("invalid public key: " ++ err)) := by
  have hlen : (ak.GetPublicKeyHex K).length = 130 := by
    unfold AgentKey.GetPublicKeyHex
    rw [String.length_mk, hexEncode_length, hpub ak.PublicKey]
  unfold VerifySignature
  cases hk : K.HexToECDSA (ak.GetPublicKeyHex K) with
  | error err => exact ⟨err, rfl⟩
  | ok prv =>
    have := hprv _ prv hk
    omega

/-! ## The executable instance: library facts and evaluations -/

set_option maxRecDepth 100000

/-- The two nibbles of a byte rebuild the byte. -/
theorem byteOfNat_nibbles (b : Byte) : byteOfNat (b.val / 16 * 16 + b.val % 16) = b := by
  apply Fin.ext
  simp only [byteOfNat]
  have := b.isLt
  omega

/-- Decoding inverts encoding in the executable instance. -/
theorem hexDecode_hexEncode (bs : List Byte) : hexDecode (hexEncode bs) = .ok bs := by
  induction bs with
  | nil => rfl
  | cons b bs ih =>
    have h1 : b.val / 16 < 16 := by have := b.isLt; omega
    have h2 : b.val % 16 < 16 := Nat.mod_lt _ (by decide)
    simp only [hexEncode, hexDecode, fromHexChar_hexDigit _ h1, fromHexChar_hexDigit _ h2, ih,
      byteOfNat_nibbles]

/-- The executable instance has the hexadecimal round trip. -/
theorem testLib_HexRoundTrip : testLib.HexRoundTrip := by
  intro bs
  exact hexDecode_hexEncode bs

/-- The executable instance recovers key A from its signatures. -/
theorem testLib_SignRecovers : testLib.SignRecovers testPrivA := by
  intro hash sig h
  simp only [testLib, testSign] at h
  by_cases hl : hash.length = 32
  · simp only [hl, ne_eq, not_true_eq_false, if_false, Except.ok.injEq] at h
    subst h
    refine ⟨by simp [hl], ?_⟩
    simp only [testLib, testSigToPub]
    have : List.take 32 (hash ++ List.replicate 32 (0 : Byte)) = hash := by
      rw [← hl]; exact List.take_left _ _
    simp only [List.cons_append, this, if_true]
    rfl
  · simp [hl] at h

/-- The executable instance has the address round trip at the address of key A. -/
theorem testLib_AddressRoundTrip : testLib.AddressRoundTrip testKeyA.Address := by
  unfold Lib.AddressRoundTrip
  decide

/-- Witness of C2 (as amended): key A signs a delegation naming A as delegator,
and the signed claim verifies against A; key A signs a delegation naming B as
delegator, and the signed claim gets the identity-mismatch error. -/
theorem sign_then_verify_witness :
    (ClaimSigner.SignDelegationClaim testLib ⟨testKeyA⟩
      (testClaim testKeyA.DID testKeyB.DID) testCreated).2 = none ∧
    ClaimSigner.VerifyDelegationClaim testLib ⟨testKeyA⟩ testSigned testKeyA.DID
      = (true, none) ∧
    ClaimSigner.VerifyDelegationClaim testLib ⟨testKeyA⟩ testForged testKeyA.DID
      = (false, some ("claim delegator DID mismatch: expected " ++ testKeyA.DID
          ++ ", got " ++ testKeyB.DID)) :=
  ⟨(sign_then_verify testLib testPrivA (testClaim testKeyA.DID testKeyB.DID) testCreated
      _ _ rfl rfl testLib_AddressRoundTrip testLib_HexRoundTrip testLib_SignRecovers).1,
   (sign_then_verify testLib testPrivA (testClaim testKeyA.DID testKeyB.DID) testCreated
      _ _ rfl rfl testLib_AddressRoundTrip testLib_HexRoundTrip testLib_SignRecovers).2.1 rfl,
   (sign_then_verify testLib testPrivA (testClaim testKeyB.DID testKeyA.DID) testCreated
      _ _ rfl rfl testLib_AddressRoundTrip testLib_HexRoundTrip testLib_SignRecovers).2.2
      (by decide)⟩

/-- Counterexample to C2 as stated: key A signs a delegation that names B as
delegator; signing succeeds, and verification of the signed claim against the
DID of key A returns false with an identity-mismatch error, not true. -/
theorem sign_then_verify_counterexample :
    (ClaimSigner.SignDelegationClaim testLib ⟨testKeyA⟩
      (testClaim testKeyB.DID testKeyA.DID) testCreated).2 = none ∧
    ClaimSigner.VerifyDelegationClaim testLib ⟨testKeyA⟩
      (ClaimSigner.SignDelegationClaim testLib ⟨testKeyA⟩
        (testClaim testKeyB.DID testKeyA.DID) testCreated).1 testKeyA.DID
      = (false, some ("claim delegator DID mismatch: expected "
          ++ "did:ackid:0x000000000000000000000000000000000000000a, got "
          ++ "did:ackid:0x000000000000000000000000000000000000000b")) := by
  decide

/-- Witness of C4: an unsigned claim, and a signed claim checked against
another identity, both give false with an error. -/
theorem VerifyDelegationClaim_no_proof_or_mismatch_witness :
    ClaimSigner.VerifyDelegationClaim testLib ⟨testKeyA⟩
      (testClaim testKeyA.DID testKeyB.DID) testKeyB.DID
      = (false, some "delegation claim has no proof") ∧
    ClaimSigner.VerifyDelegationClaim testLib ⟨testKeyA⟩ testSigned testKeyB.DID
      = (false, some ("claim delegator DID mismatch: expected " ++ testKeyB.DID
          ++ ", got " ++ testSigned.DelegatorDID)) :=
  ⟨(VerifyDelegationClaim_no_proof_or_mismatch testLib ⟨testKeyA⟩
      (testClaim testKeyA.DID testKeyB.DID) testKeyB.DID).1 rfl,
   (VerifyDelegationClaim_no_proof_or_mismatch testLib ⟨testKeyA⟩ testSigned testKeyB.DID).2
      (by decide) (by decide)⟩

/-- Witness of C5: the delegation that names B as delegator but is signed by A
verifies false with no error against B. -/
theorem VerifyDelegationClaim_wrong_address_witness :
    ClaimSigner.VerifyDelegationClaim testLib ⟨testKeyA⟩ testForged testKeyB.DID
      = (false, none) :=
  VerifyDelegationClaim_wrong_address testLib ⟨testKeyA⟩ testForged testKeyB.DID _
    testKeyB.Address _ _ testPrivA.PublicKey rfl rfl (by decide) (by decide) rfl rfl
    (by decide) rfl (by decide)

/-- Witness of C6: a proof value that is not hexadecimal gives false with an
error on a claim whose delegator is the expected, well-formed DID. -/
theorem VerifyDelegationClaim_malformed_signature_witness :
    (ExtractAddressFromDID testLib testBadHex.DelegatorDID).2 = none ∧
    ∃ err, ClaimSigner.VerifyDelegationClaim testLib ⟨testKeyA⟩ testBadHex testKeyA.DID
      = (false, some err) :=
  ⟨by decide,
   VerifyDelegationClaim_malformed_signature testLib ⟨testKeyA⟩ testBadHex testKeyA.DID _ rfl
    rfl (Or.inl ⟨"encoding/hex: invalid byte", rfl⟩)⟩

/-- Witness of C7 (as amended): in the chain whose second delegation is signed
by the wrong key, the first hop verifies true, the second false with no error,
and the chain verification returns false with an error. -/
theorem VerifyDelegationChain_hop_false_witness :
    ClaimSigner.VerifyDelegationChain testLib ⟨testKeyA⟩ testForgedChain
      = (false, some "failed to verify delegation 1: invalid signature") :=
  VerifyDelegationChain_hop_false testLib ⟨testKeyA⟩ testForgedChain 1 testForged rfl
    (fun r _ hr => by cases hr; decide)
    (fun j _ _ hj hj1 _ _ => absurd hj1 (by omega))
    (fun h => absurd h (by decide))
    (fun p _ hp => by cases hp; decide)

/-- Counterexample to C7 as stated: the one hop of the chain verifies false
with no error, and `VerifyDelegationChain` returns false with a non-nil error,
not false with no error. -/
theorem VerifyDelegationChain_hop_false_counterexample :
    ClaimSigner.VerifyDelegationClaim testLib ⟨testKeyA⟩ testForged testForged.DelegatorDID
      = (false, none) ∧
    ClaimSigner.VerifyDelegationChain testLib ⟨testKeyA⟩ testForgedRoot
      = (false, some "failed to verify root delegation: invalid signature") ∧
    ClaimSigner.VerifyDelegationChain testLib ⟨testKeyA⟩ testForgedRoot ≠ (false, none) := by
  decide

/-- Witness of C9: the chain of two correctly signed delegations verifies
true, and its second delegator is its first delegate. -/
theorem VerifyDelegationChain_continuity_witness :
    (ClaimSigner.VerifyDelegationChain testLib ⟨testKeyA⟩ testChain).1 = true ∧
    testSignedB.DelegatorDID = testSigned.DelegateDID :=
  ⟨by decide,
   VerifyDelegationChain_continuity testLib ⟨testKeyA⟩ testChain (by decide) 1 testSigned
    testSignedB (by decide) rfl rfl⟩

/-- Witness of C11: the chain of two unexpired, depth-valid delegations that do
not connect is rejected with the reason `broken chain at delegation 1`. -/
theorem ValidateChain_reason_witness :
    (testBrokenChain.ValidateChain 2000).1.Reason = "broken chain at delegation 1" :=
  (ValidateChain_reason 2000).2 (testClaim testKeyA.DID testKeyB.DID)
    (testClaim testKeyA.DID testKeyB.DID) false "" (by decide) (by decide) (by decide)
    (by decide) (by decide)

/-- Counterexample to C12 as stated: `ValidateChain` returns true on the chain
whose second delegation ends after the root's window, and
`ValidateChainConstraints` returns a time-constraint violation on it. -/
theorem ValidateChain_true_constraints_counterexample :
    (testWideningChain.ValidateChain 2000).2 = true ∧
    testWideningChain.ValidateChainConstraints =
      some { Code := "TIME_CONSTRAINT_VIOLATION"
             Message := "delegation 1 ends after chain end time" } := by
  decide

/-- Witness of C12 (as amended): the chain of two correctly signed delegations
is accepted by `ValidateChain` and has a root. -/
theorem ValidateChain_true_constraints_witness :
    ∃ root, testWideningChain.Delegations[0]? = some root ∧
      ∀ rtc, root.GetTimeConstraint = some rtc →
        (testWideningChain.ValidateChainConstraints = none ↔
          ∀ (i : Nat) (d : DelegationClaim), 0 < i →
            testWideningChain.Delegations[i]? = some d →
            d.WithinTime rtc.ValidFrom rtc.ValidUntil ∧
            d.WithinScope (ValidateChainConstraints.resources root).1
              (ValidateChainConstraints.resources root).2) :=
  ValidateChain_true_constraints testWideningChain 2000 (by decide)

/-- Evaluation for C14: the root of the chain carries no time constraint, the
second delegation carries the window from 100 to 200, and
`ValidateChainConstraints` reports a time-constraint violation. -/
theorem ValidateChainConstraints_root_without_time_witness :
    testUnboundedRootChain.ValidateChainConstraints =
      some { Code := "TIME_CONSTRAINT_VIOLATION"
             Message := "delegation 1 ends after chain end time" } ∧
    ∃ err, testUnboundedRootChain.ValidateChainConstraints = some err ∧
      err.Code = "TIME_CONSTRAINT_VIOLATION" :=
  ⟨by decide,
   ValidateChainConstraints_root_without_time testUnboundedRootChain
    (testClaim testKeyA.DID testKeyB.DID) (testTimeClaim testKeyB.DID testKeyA.DID 100 200)
    { ValidFrom := 100, ValidUntil := 200, TimeZone := "", Days := [], Hours := [] }
    rfl rfl rfl rfl (Or.inl (by decide))⟩

/-- Witness of C15: the second delegation of the chain allows `BTC`, which the
root denies, and the error is a scope-constraint violation. -/
theorem ValidateChainConstraints_scope_violation_witness :
    ∃ err, testScopeChain.ValidateChainConstraints = some err ∧
      err.Code = "SCOPE_CONSTRAINT_VIOLATION" :=
  ((ValidateChainConstraints_scope_violation testScopeChain
    (testScopeClaim testKeyA.DID testKeyB.DID ["ETH"] ["BTC"])
    { AllowedResources := ["ETH"], DeniedResources := ["BTC"], Metadata := none }
    rfl rfl).1 1 (testScopeClaim testKeyB.DID testKeyA.DID ["BTC"] [])
    { AllowedResources := ["BTC"], DeniedResources := [], Metadata := none }
    Nat.one_pos rfl rfl (Or.inl ⟨"BTC", by decide, by decide⟩)).2
    (fun j _ hj hj1 _ => absurd hj1 (by omega))
    (fun tc htc => by cases htc)

/-- Witness of C18 (as amended): on a list holding a record for another
credential, a record appended at time 1000 with `EffectiveAt = 999` is returned
at time 1000. -/
theorem IsRevoked_after_append_witness :
    ((testList [testRevocation "cred-0" 500 0]).AddRevocation
        (testRevocation "cred-1" 1000 999) 1000).IsRevoked "cred-1" 1000
      = some (testRevocation "cred-1" 1000 999) :=
  (IsRevoked_after_append (testList [testRevocation "cred-0" 500 0]) "cred-1" 1000
    (testRevocation "cred-1" 1000 999) (by decide) rfl).1 rfl (by decide)

/-- Counterexample to C18 as stated.  At clock value 1 a record appended with
`EffectiveAt = now - 1 = 0` and `RevokedAt = 100` is not returned at time 1.
At clock value -3600 a record appended with `EffectiveAt = now + 3600 = 0` and
`RevokedAt = -3600` is returned at time -3600, before `now + 3600`. -/
theorem IsRevoked_after_append_counterexample :
    ((testRevocation "cred-1" 100 0).EffectiveAt = 1 - 1 ∧
      (((testList []).AddRevocation (testRevocation "cred-1" 100 0) 1).IsRevoked
        "cred-1" 1).isNone = true) ∧
    ((testRevocation "cred-1" (-3600) 0).EffectiveAt = -3600 + 3600 ∧
      (((testList []).AddRevocation (testRevocation "cred-1" (-3600) 0) (-3600)).IsRevoked
        "cred-1" (-3600)).isSome = true) := by
  decide

/-- Witness of C27: key A signs a delegation; the signature is the one over the
proof-free digest and the proof value decodes back to it. -/
theorem SignDelegationClaim_proof_witness :
    ∃ bytes sig proof,
      testLib.jsonMarshal { testClaim testKeyA.DID testKeyB.DID with Proof := none } = .ok bytes ∧
      testLib.Sign (testLib.Keccak256 bytes) testKeyA.PrivateKey = .ok sig ∧
      testSigned.Proof = some proof ∧
      proof.Type_ = "EcdsaSecp256k1Signature2019" ∧
      proof.ProofPurpose = "assertionMethod" ∧
      proof.VerificationMethod = testKeyA.DID ++ "#key-1" ∧
      proof.ProofValue = testLib.hexEncodeToString sig ∧
      proof.ProofValue ≠ "" ∧
      testLib.hexDecodeString proof.ProofValue = .ok sig :=
  SignDelegationClaim_proof testLib ⟨testKeyA⟩ (testClaim testKeyA.DID testKeyB.DID) testCreated
    (by decide) testLib_HexRoundTrip rfl (fun h s hs => (testLib_SignRecovers h s hs).1)

/-- Witness of C28: the DID of key A resolves, and it is the prefix followed by
40 hexadecimal digits; a DID with two digits fails with the zero address. -/
theorem ExtractAddressFromDID_succeeds_iff_witness :
    (∃ digits : List Char, testKeyA.DID = "did:ackid:0x" ++ String.mk digits ∧
      digits.length = 40 ∧ ∀ c ∈ digits, (fromHexChar c).isSome = true) ∧
    (ExtractAddressFromDID testLib "did:ackid:0x12").1 = zeroAddress :=
  ⟨(ExtractAddressFromDID_succeeds_iff testLib (fun _ => rfl) testKeyA.DID).1.mp (by decide),
   (ExtractAddressFromDID_succeeds_iff testLib (fun _ => rfl) "did:ackid:0x12").2 (by decide)⟩

/-- Witness of C29: the DID of key A starts with `did:ackid:0x` and resolves to
the address of key A. -/
theorem fromPrivateKey_did_witness :
    HasPrefix testKeyA.DID "did:ackid:0x" = true ∧
    ExtractAddressFromDID testLib testKeyA.DID = (testKeyA.Address, none) :=
  (fromPrivateKey_did testLib testPrivA).2.2 testLib_AddressRoundTrip


/-- Witness of C31: a delegation with a parent reference gets no chain from
`GetChain` or `ValidateInChain`, and the error `PARENT_NOT_FOUND`. -/
theorem GetChain_parent_reference_witness :
    testChildClaim.ParentDelegation ≠ none ∧
    (∃ err : ChainError,
      testChildClaim.GetChain 2000 = (none, some err) ∧ err.Code = "PARENT_NOT_FOUND") ∧
    (∃ err : ChainError,
      testChildClaim.ValidateInChain 2000 = (none, some err) ∧ err.Code = "PARENT_NOT_FOUND") :=
  ⟨by decide, GetChain_parent_reference testChildClaim 2000 (by decide)⟩

/-- The same delegation without its parent reference gets a chain of one hop,
and an `INVALID_CHAIN` error once it is expired. -/
theorem GetChain_without_parent :
    ((DelegationClaim.GetChain { testChildClaim with ParentDelegation := none } 2000).1.map
      (fun chain => (chain.Delegations.length, chain.Valid))) = some (1, true) ∧
    (DelegationClaim.GetChain { testChildClaim with ParentDelegation := none } 5000).2 =
      some { Code := "INVALID_CHAIN", Message := "delegation 0 is expired" } ∧
    (DelegationClaim.GetChain { testChildClaim with ParentDelegation := none }
      5000).1.isSome = false := by
  decide

/-- Evaluation for C33: the two chains have the same delegations and are both
accepted at time 2000; the one that carried the reason of an earlier rejection
still carries it, next to `Valid = true`. -/
theorem ValidateChain_prior_state_witness :
    ((testStaleChain.ValidateChain 2000).2 = true ∧
      (testStaleChain.ValidateChain 2000).1.Valid = true ∧
      (testStaleChain.ValidateChain 2000).1.Reason = "delegation 0 is expired" ∧
      (testFreshChain.ValidateChain 2000).1.Reason = "") ∧
    ((testStaleChain.ValidateChain 2000).2 = (testFreshChain.ValidateChain 2000).2 ∧
      (testStaleChain.ValidateChain 2000).1.Valid = (testFreshChain.ValidateChain 2000).1.Valid ∧
      (testStaleChain.ValidateChain 2000).1.Valid = (testStaleChain.ValidateChain 2000).2 ∧
      ((testStaleChain.ValidateChain 2000).2 = false →
        (testStaleChain.ValidateChain 2000).1.Reason =
          (testFreshChain.ValidateChain 2000).1.Reason) ∧
      ((testStaleChain.ValidateChain 2000).2 = true →
        (testStaleChain.ValidateChain 2000).1.Reason = testStaleChain.Reason ∧
        (testFreshChain.ValidateChain 2000).1.Reason = testFreshChain.Reason)) :=
  ⟨by decide, ValidateChain_prior_state testStaleChain testFreshChain 2000 rfl⟩

/-- Counterexample to C34 as stated: `ValidateChainConstraints` returns no
error on the chain with the windows 0 to 1000, 100 to 200 and 50 to 900, and
the window of the third delegation is not contained in that of the second. -/
theorem ValidateChainConstraints_root_alone_counterexample :
    testRewideningChain.ValidateChainConstraints = none ∧
    ¬ (∀ (i j : Nat) (di dj : DelegationClaim) (tci tcj : TimeConstraint),
        1 ≤ i → j < i → testRewideningChain.Delegations[i]? = some di →
        testRewideningChain.Delegations[j]? = some dj →
        di.GetTimeConstraint = some tci → dj.GetTimeConstraint = some tcj →
        tcj.ValidFrom ≤ tci.ValidFrom ∧ tci.ValidUntil ≤ tcj.ValidUntil) :=
  ⟨by decide, fun h =>
    absurd (h 2 1 (testTimeClaim testKeyA.DID testKeyB.DID 50 900)
      (testTimeClaim testKeyB.DID testKeyA.DID 100 200)
      { ValidFrom := 50, ValidUntil := 900, TimeZone := "", Days := [], Hours := [] }
      { ValidFrom := 100, ValidUntil := 200, TimeZone := "", Days := [], Hours := [] }
      (by decide) (by decide) rfl rfl rfl rfl) (by decide)⟩

/-- Witness of C34 (as amended): on the chain with the windows 0 to 1000, 100
to 200 and 50 to 900 each later delegation passes next to the root alone, and
lies in the root's window. -/
theorem ValidateChainConstraints_root_alone_witness :
    (testRewideningChain.ValidateChainConstraints = none ↔
      ∀ d ∈ [testTimeClaim testKeyB.DID testKeyA.DID 100 200,
             testTimeClaim testKeyA.DID testKeyB.DID 50 900],
        DelegationChain.ValidateChainConstraints
          { testRewideningChain with
            Delegations := [testTimeClaim testKeyA.DID testKeyB.DID 0 1000, d] } = none) ∧
    (testRewideningChain.ValidateChainConstraints = none →
      ∀ rtc, (testTimeClaim testKeyA.DID testKeyB.DID 0 1000).GetTimeConstraint = some rtc →
        ∀ d ∈ [testTimeClaim testKeyB.DID testKeyA.DID 100 200,
               testTimeClaim testKeyA.DID testKeyB.DID 50 900],
          ∀ tc, d.GetTimeConstraint = some tc →
            rtc.ValidFrom ≤ tc.ValidFrom ∧ tc.ValidUntil ≤ rtc.ValidUntil) :=
  ValidateChainConstraints_root_alone testRewideningChain
    (testTimeClaim testKeyA.DID testKeyB.DID 0 1000)
    [testTimeClaim testKeyB.DID testKeyA.DID 100 200,
     testTimeClaim testKeyA.DID testKeyB.DID 50 900] rfl

/-- Witness of C35: the third delegation of the chain with the windows 0 to
1000, 100 to 200 and 50 to 900 lies in the root's window, and the empty chain
gets the error `EMPTY_CHAIN`. -/
theorem ValidateChainConstraints_within_root_witness :
    ((0 : Int) ≤ 50 ∧ (900 : Int) ≤ 1000) ∧
    DelegationChain.ValidateChainConstraints { testRewideningChain with Delegations := [] } =
      some { Code := "EMPTY_CHAIN", Message := "delegation chain is empty" } :=
  ⟨(ValidateChainConstraints_within_root testRewideningChain).2
      (testTimeClaim testKeyA.DID testKeyB.DID 0 1000)
      { ValidFrom := 0, ValidUntil := 1000, TimeZone := "", Days := [], Hours := [] }
      rfl rfl (by decide) 2 (testTimeClaim testKeyA.DID testKeyB.DID 50 900)
      { ValidFrom := 50, ValidUntil := 900, TimeZone := "", Days := [], Hours := [] }
      (by decide) rfl rfl,
   (ValidateChainConstraints_within_root
      { testRewideningChain with Delegations := [] }).1 rfl⟩


/-- Counterexample to C36 as stated: the `time` entry of the claim is a
mapping that holds the integer 100, a Go `int`, under `valid_from`, and the
view has `ValidFrom = 0`; the `int64` under `valid_until` is read.  A whole
`float64` outside the range of `int64`, `1e19`, is read as the least `int64`. -/
theorem constraint_views_counterexample :
    testIntTimeClaim.constraint "time" =
      some (.map [("valid_from", .int 100), ("valid_until", .int64 200)]) ∧
    (testIntTimeClaim.GetTimeConstraint.map fun tc => (tc.ValidFrom, tc.ValidUntil)) =
      some (0, 200) ∧
    ((testTimeClaim testKeyB.DID testKeyA.DID 0 10000000000000000000).GetTimeConstraint.map
      fun tc => (tc.ValidFrom, tc.ValidUntil)) = some (0, -9223372036854775808) ∧
    ¬ (∃ tc, testIntTimeClaim.GetTimeConstraint = some tc ∧ tc.ValidFrom = 100) :=
  ⟨rfl, by decide, by decide, fun ⟨tc, h, hv⟩ => by
    have h2 : testIntTimeClaim.GetTimeConstraint =
        some { ValidFrom := 0, ValidUntil := 200, TimeZone := "", Days := [], Hours := [] } :=
      rfl
    rw [h2] at h
    cases h
    exact absurd hv (by decide)⟩

/-- Witness of C36 (as amended): the views of a delegation with a time window
stored as whole `float64` numbers, and of one whose allowed resources hold a
number next to a string. -/
theorem constraint_views_witness :
    (∃ tc, (testTimeClaim testKeyA.DID testKeyB.DID 100 200).GetTimeConstraint = some tc ∧
      tc.ValidFrom = getInt64 [("valid_from", .float64 (.finite ((100 : Int) : Rat))),
        ("valid_until", .float64 (.finite ((200 : Int) : Rat)))] "valid_from" ∧
      tc.ValidUntil = getInt64 [("valid_from", .float64 (.finite ((100 : Int) : Rat))),
        ("valid_until", .float64 (.finite ((200 : Int) : Rat)))] "valid_until") ∧
    getInt64 [("valid_from", .float64 (.finite 100)), ("valid_until", .float64 (.finite 200))]
      "valid_from" = 100 ∧
    getInt64 [("valid_from", .float64 (.finite 10000000000000000000))] "valid_from" =
      minInt64 ∧
    getInt64 [("valid_from", .float64 .posInf)] "valid_from" = minInt64 ∧
    getInt64 [("valid_from", .int 100), ("valid_until", .int64 200)] "valid_from" = 0 ∧
    (testMixedScopeClaim.GetScopeConstraint.map fun sc => sc.AllowedResources) =
      some ["ETH", ""] :=
  ⟨(constraint_views (testTimeClaim testKeyA.DID testKeyB.DID 100 200)).2.1 _ rfl,
   by decide, by decide, by decide, by decide, by decide⟩

/-- Counterexample to C37 as stated: `ValidateChain` accepts the chain of two
delegations whose first delegation is at its maximal depth, followed by
another delegation, and that first delegation does not allow sub-delegation. -/
theorem ValidateChain_depth_counterexample :
    (testFullDepthChain.ValidateChain 2000).2 = true ∧
    testFullDepthChain.Delegations[0]? = some testFullDepthClaim ∧
    testFullDepthChain.Delegations[1]?.isSome = true ∧
    testFullDepthClaim.CanSubDelegate = false :=
  ⟨by decide, rfl, rfl, by decide⟩

/-- Witness of C37 (as amended): the first delegation of that chain is within
its depth and at its maximal depth. -/
theorem ValidateChain_depth_witness :
    (testFullDepthChain.ValidateChain 2000).2 = true ∧
    testFullDepthClaim.CurrentDepth ≤ testFullDepthClaim.MaxDepth ∧
    (testFullDepthClaim.CanSubDelegate = true ↔
      testFullDepthClaim.CurrentDepth ≠ testFullDepthClaim.MaxDepth) :=
  ⟨by decide, ValidateChain_depth testFullDepthChain 2000 (by decide) 0 testFullDepthClaim rfl⟩

/-- Witness of C38: the chain of two signed delegations, revoked at time 1000
and appended to an empty list, has its nonce revoked at time 1000. -/
theorem RevokeChain_spec_witness :
    (testChain.RevokeChain "compromised" 1000).length = 2 ∧
    ((testChain.RevokeChain "compromised" 1000).map fun r =>
      (r.RevokedCredentialID, r.RevokedAgentDID, r.RevokerDID, r.RevokedAt, r.EffectiveAt,
        r.Nonce)) =
      [("test_nonce", testKeyB.DID, testKeyA.DID, 1000, 1000, "revoke_1000_test_nonce"),
       ("test_nonce", testKeyA.DID, testKeyA.DID, 1000, 1000, "revoke_1000_test_nonce")] ∧
    ∃ r : RevocationClaim,
      ((testList []).AddRevocations (testChain.RevokeChain "compromised" 1000) 1000).IsRevoked
        testSigned.Nonce 1000 = some r ∧
      r.RevokedCredentialID = testSigned.Nonce ∧ r.IsEffective 1000 = true :=
  ⟨by decide, by decide,
   (RevokeChain_spec testChain "compromised" 1000).2.2.2 (testList []) 1000 1000 testSigned
     (by simp [testChain]) (by decide)⟩

/-- A string that `hexDecode` accepts has two characters for each byte. -/
theorem hexDecode_length : ∀ (n : Nat) (cs : List Char) (b : List Byte),
    cs.length ≤ n → hexDecode cs = .ok b → cs.length = 2 * b.length := by
  intro n
  induction n with
  | zero =>
    intro cs b hn h
    have hnil : cs = [] := List.length_eq_zero.mp (by omega)
    subst hnil
    simp only [hexDecode] at h
    cases h
    rfl
  | succ n ih =>
    intro cs b hn h
    match cs, hn, h with
    | [], _, h =>
      simp only [hexDecode] at h
      cases h
      rfl
    | [c], _, h =>
      simp only [hexDecode] at h
      split at h <;> cases h
    | c :: d :: cs, hn, h =>
      simp only [hexDecode] at h
      split at h
      · split at h
        · next bs hbs =>
          cases h
          have := ih cs bs (by simp only [List.length_cons] at hn; omega) hbs
          simp only [List.length_cons]
          omega
        · cases h
      · cases h

/-- The executable instance serialises a public key in 65 bytes. -/
theorem testKeyLib_PublicKeyLength : testKeyLib.PublicKeyLength := by
  intro pub
  simp [testKeyLib, testScalarBytes]

/-- The executable instance parses a private key from 64 characters only. -/
theorem testKeyLib_PrivateKeyHexLength : testKeyLib.PrivateKeyHexLength := by
  intro s prv h
  simp only [testKeyLib] at h
  cases hd : hexDecode s.data with
  | error e => rw [hd] at h; cases h
  | ok b =>
    rw [hd] at h
    simp only at h
    by_cases hb : b.length ≠ 32
    · rw [if_pos hb] at h; cases h
    · have := hexDecode_length _ _ _ (le_refl _) hd
      show s.data.length = 64
      omega

/-- Evaluation for C32: key A signs a 32-byte hash; the library check on the
public-key bytes and the first 64 bytes of the signature succeeds, as in the
test of the package, and `VerifySignature` on the public key in hexadecimal
form returns false with the error of the private-key parser. -/
theorem VerifySignature_public_key_hex_witness :
    testHash.length = 32 ∧
    (testKeyA.Sign testLib testHash).2 = none ∧
    (testKeyA.Sign testLib testHash).1.length = 65 ∧
    testKeyLib.VerifySignature (testKeyLib.FromECDSAPub testKeyA.PublicKey) testHash
      ((testKeyA.Sign testLib testHash).1.take 64) = true ∧
    VerifySignature testKeyLib (testKeyA.GetPublicKeyHex testKeyLib) testHash
      (testKeyA.Sign testLib testHash).1 =
        (false, some "invalid public key: invalid length, need 256 bits") ∧
    ∃ err : String,
      VerifySignature testKeyLib (testKeyA.GetPublicKeyHex testKeyLib) testHash
        (testKeyA.Sign testLib testHash).1 = (false, some ("invalid public key: " ++ err)) :=
  ⟨by decide, by decide, by decide, by decide, by decide,
   VerifySignature_public_key_hex testKeyLib testKeyLib_PublicKeyLength
     testKeyLib_PrivateKeyHexLength testKeyA testHash (testKeyA.Sign testLib testHash).1⟩

end AgentID
